import Mathlib

set_option maxHeartbeats 1000000
set_option linter.unusedVariables false

/-!
Shallow embedding of the flo-ts-graph directed-graph engine and its companion
algorithm library.  JavaScript strings are modelled as lists of characters,
JavaScript `Map`s as insertion-ordered association lists, and JavaScript
`Set`s as insertion-ordered duplicate-free lists.  Unbounded `while` loops and
unbounded recursion are modelled with an explicit fuel parameter together with
fuel-sufficiency lemmas.
-/

/-- Node identifiers are JavaScript strings, modelled as lists of characters. -/
abbrev NodeId := List Char

/-- Edge identifiers are JavaScript strings, modelled as lists of characters. -/
abbrev EdgeId := List Char

/-- Lookup in an insertion-ordered association list (JS `Map.get`). -/
def alookup {κ ν : Type} [DecidableEq κ] : List (κ × ν) → κ → Option ν
  | [], _ => none
  | (k, v) :: rest, key => if k = key then some v else alookup rest key

/-- JS `Map.set`: overwrite the value in place when the key is present,
otherwise append the binding at the end. -/
def aset {κ ν : Type} [DecidableEq κ] : List (κ × ν) → κ → ν → List (κ × ν)
  | [], key, val => [(key, val)]
  | (k, v) :: rest, key, val =>
    if k = key then (k, val) :: rest else (k, v) :: aset rest key val

/-- JS `Set.add`: append the element when absent, keep insertion order. -/
def sadd {α : Type} [DecidableEq α] (s : List α) (x : α) : List α :=
  if x ∈ s then s else s ++ [x]

/-- Decimal digit character, for JS number-to-string coercion (`d` below 10). -/
def digitChar : Nat → Char
  | 0 => '0'
  | 1 => '1'
  | 2 => '2'
  | 3 => '3'
  | 4 => '4'
  | 5 => '5'
  | 6 => '6'
  | 7 => '7'
  | 8 => '8'
  | _ => '9'

/-- Fuel-indexed decimal conversion; structural recursion keeps it
kernel-computable.  The fuel never runs out when it starts at least one
above the argument. -/
def natStrGo : Nat → Nat → List Char
  | 0, _ => []
  | f + 1, n =>
    if n < 10 then [digitChar n] else natStrGo f (n / 10) ++ [digitChar (n % 10)]

/-- Decimal representation of a natural number, as produced by JS template
string interpolation of a number. -/
def natStr (n : Nat) : List Char := natStrGo (n + 1) n

theorem natStrGo_fuel {f g n : Nat} (hf : n < f) (hg : n < g) :
    natStrGo f n = natStrGo g n := by
  induction f generalizing g n with
  | zero => omega
  | succ f ih =>
    cases g with
    | zero => omega
    | succ g =>
      simp only [natStrGo]
      split
      · rfl
      · next h =>
        have hd : n / 10 < n := Nat.div_lt_self (by omega) (by omega)
        rw [ih (show n / 10 < f by omega) (show n / 10 < g by omega)]

/-- Unfolding equation for `natStr`. -/
theorem natStr_eq (n : Nat) :
    natStr n = if n < 10 then [digitChar n]
      else natStr (n / 10) ++ [digitChar (n % 10)] := by
  unfold natStr
  conv_lhs => rw [natStrGo]
  split
  · rfl
  · next h =>
    have hd : n / 10 < n := Nat.div_lt_self (by omega) (by omega)
    rw [natStrGo_fuel (by omega) (Nat.lt_succ_self _)]

/-- Collision-safe encoding of an ordered pair of node ids, mirroring
`DirectedGraph.getEdgeKey`: length-prefix each endpoint as in
"len(from):from|len(to):to". -/
def getEdgeKey (fromId toId : NodeId) : List Char :=
  natStr fromId.length ++ ':' :: (fromId ++ '|' :: (natStr toId.length ++ ':' :: toId))

/-- Graph construction options with the constructor defaults already
resolved (`Required GraphOptions`). -/
structure GraphOptions where
  allowSelfLoops : Bool
  allowMultiEdges : Bool
  validateOnConstruction : Bool
deriving DecidableEq

/-- Default options used by the `DirectedGraph` constructor. -/
def defaultGraphOptions : GraphOptions :=
  { allowSelfLoops := true, allowMultiEdges := false, validateOnConstruction := true }

/-- A stored node: identifier plus optional metadata. -/
structure Node (α : Type) where
  id : NodeId
  metadata : Option α
deriving DecidableEq

/-- A stored edge: identifier, endpoints, optional metadata. -/
structure Edge (β : Type) where
  id : EdgeId
  fromId : NodeId
  toId : NodeId
  metadata : Option β
deriving DecidableEq

/-- The full mutable state of a `DirectedGraph` instance. -/
structure DirectedGraph (α β : Type) where
  nodes : List (NodeId × Node α)
  edges : List (EdgeId × Edge β)
  adjacencyList : List (NodeId × List NodeId)
  reverseAdjacencyList : List (NodeId × List NodeId)
  edgeIndex : List (List Char × List EdgeId)
  nextEdgeId : Nat
  options : GraphOptions
deriving DecidableEq

/-- A freshly constructed graph. -/
def DirectedGraph.mk0 (α β : Type) (opts : GraphOptions) : DirectedGraph α β :=
  { nodes := [], edges := [], adjacencyList := [], reverseAdjacencyList := [],
    edgeIndex := [], nextEdgeId := 0, options := opts }

/-- Errors raised by the engine's mutating operations. -/
inductive GraphError
  | nodeExists (id : NodeId)
  | sourceMissing (id : NodeId)
  | targetMissing (id : NodeId)
  | selfLoopNotAllowed (id : NodeId)
  | edgeExists (key : List Char)
  | invariantBroken (fromId toId : NodeId)
deriving DecidableEq

/-- Usage errors are every error category except internal invariant
violations. -/
def GraphError.isUsage : GraphError → Bool
  | .invariantBroken _ _ => false
  | _ => true

/-- Successor lookup (`getSuccessors`): empty for unknown nodes. -/
def DirectedGraph.getSuccessors {α β : Type} (g : DirectedGraph α β) (nodeId : NodeId) :
    List NodeId :=
  (alookup g.adjacencyList nodeId).getD []

/-- Predecessor lookup (`getPredecessors`): empty for unknown nodes. -/
def DirectedGraph.getPredecessors {α β : Type} (g : DirectedGraph α β) (nodeId : NodeId) :
    List NodeId :=
  (alookup g.reverseAdjacencyList nodeId).getD []

/-- Edge existence test (`hasEdge`): a non-empty bucket under the pair key. -/
def DirectedGraph.hasEdge {α β : Type} (g : DirectedGraph α β) (fromId toId : NodeId) :
    Bool :=
  match alookup g.edgeIndex (getEdgeKey fromId toId) with
  | none => false
  | some es => decide (0 < es.length)

/-- Post-insertion adjacency re-validation (`validateEdgeInvariants`),
expressed as a boolean check: `true` means both indices mirror the edge. -/
def DirectedGraph.validateEdgeInvariantsOk {α β : Type} (g : DirectedGraph α β)
    (fromId toId : NodeId) : Bool :=
  (match alookup g.adjacencyList fromId with
   | none => false
   | some s => decide (toId ∈ s)) &&
  (match alookup g.reverseAdjacencyList toId with
   | none => false
   | some s => decide (fromId ∈ s))

/-- Add a node (`addNode`).  Returns the resulting state paired with the
outcome; on error the state component is the state at the time of the throw. -/
def DirectedGraph.addNode {α β : Type} (g : DirectedGraph α β) (id : NodeId)
    (metadata : Option α) : DirectedGraph α β × Except GraphError Unit :=
  if (alookup g.nodes id).isSome then
    (g, .error (.nodeExists id))
  else
    ({ g with
        nodes := aset g.nodes id ⟨id, metadata⟩,
        adjacencyList := aset g.adjacencyList id [],
        reverseAdjacencyList := aset g.reverseAdjacencyList id [] }, .ok ())

/-- Add an edge (`addEdge`).  All mutation steps are threaded in source
order, so the state returned alongside an error is exactly the state the
JS object holds when the corresponding exception is thrown. -/
def DirectedGraph.addEdge {α β : Type} (g : DirectedGraph α β) (fromId toId : NodeId)
    (metadata : Option β) : DirectedGraph α β × Except GraphError EdgeId :=
  if (alookup g.nodes fromId).isNone then (g, .error (.sourceMissing fromId)) else
  if (alookup g.nodes toId).isNone then (g, .error (.targetMissing toId)) else
  if ¬g.options.allowSelfLoops ∧ fromId = toId then
    (g, .error (.selfLoopNotAllowed fromId)) else
  let edgeKey := getEdgeKey fromId toId
  if ¬g.options.allowMultiEdges ∧ (alookup g.edgeIndex edgeKey).isSome then
    (g, .error (.edgeExists edgeKey)) else
  let edgeId := if g.options.allowMultiEdges
    then edgeKey ++ '#' :: natStr g.nextEdgeId else edgeKey
  let g1 := if g.options.allowMultiEdges then { g with nextEdgeId := g.nextEdgeId + 1 } else g
  let g2 := { g1 with edges := aset g1.edges edgeId ⟨edgeId, fromId, toId, metadata⟩ }
  let bucket := (alookup g2.edgeIndex edgeKey).getD []
  let g3 := { g2 with edgeIndex := aset g2.edgeIndex edgeKey (sadd bucket edgeId) }
  let g4 := { g3 with adjacencyList :=
    (match alookup g3.adjacencyList fromId with
     | some s => aset g3.adjacencyList fromId (sadd s toId)
     | none => g3.adjacencyList) }
  let g5 := { g4 with reverseAdjacencyList :=
    (match alookup g4.reverseAdjacencyList toId with
     | some s => aset g4.reverseAdjacencyList toId (sadd s fromId)
     | none => g4.reverseAdjacencyList) }
  if g5.options.validateOnConstruction ∧ ¬g5.validateEdgeInvariantsOk fromId toId then
    (g5, .error (.invariantBroken fromId toId))
  else (g5, .ok edgeId)

/-! Decimal-representation lemmas used for edge-key injectivity. -/

/-- Digit characters are never the colon separator. -/
theorem digitChar_ne_colon (d : Nat) : digitChar d ≠ ':' := by
  unfold digitChar; split <;> decide

/-- Digit characters are never the pipe separator. -/
theorem digitChar_ne_pipe (d : Nat) : digitChar d ≠ '|' := by
  unfold digitChar; split <;> decide

theorem digitChar_toNat (d : Nat) (h : d < 10) : (digitChar d).toNat = 48 + d := by
  interval_cases d <;> decide

/-- Decode a list of decimal digit characters back to a number. -/
def decDigits (l : List Char) : Nat :=
  l.foldl (fun a c => a * 10 + (c.toNat - 48)) 0

theorem decDigits_natStr (n : Nat) : decDigits (natStr n) = n := by
  induction n using Nat.strong_induction_on with
  | _ n ih =>
    rw [natStr_eq]
    split
    · next h =>
      simp [decDigits, List.foldl, digitChar_toNat n h]
    · next h =>
      have hlt : n / 10 < n := Nat.div_lt_self (by omega) (by omega)
      have hmod : n % 10 < 10 := Nat.mod_lt _ (by omega)
      unfold decDigits
      rw [List.foldl_append]
      have := ih (n / 10) hlt
      unfold decDigits at this
      rw [this]
      simp [List.foldl, digitChar_toNat _ hmod]
      omega

theorem natStr_inj {m n : Nat} (h : natStr m = natStr n) : m = n := by
  have hm := decDigits_natStr m
  rw [h, decDigits_natStr n] at hm
  exact hm.symm

theorem colon_not_mem_natStr (n : Nat) : ':' ∉ natStr n := by
  induction n using Nat.strong_induction_on with
  | _ n ih =>
    rw [natStr_eq]
    split
    · simp
      exact fun hc => digitChar_ne_colon n hc.symm
    · next h =>
      have hlt : n / 10 < n := Nat.div_lt_self (by omega) (by omega)
      simp
      refine ⟨ih _ hlt, ?_⟩
      exact fun hc => digitChar_ne_colon (n % 10) hc.symm

/-- Splitting a list at the first occurrence of a separator is unambiguous. -/
theorem append_sep_inj {sep : Char} :
    ∀ (xs xs' ys ys' : List Char), sep ∉ xs → sep ∉ xs' →
      xs ++ sep :: ys = xs' ++ sep :: ys' → xs = xs' ∧ ys = ys' := by
  intro xs
  induction xs with
  | nil =>
    intro xs' ys ys' hx hx' h
    cases xs' with
    | nil => simpa using h
    | cons b bs =>
      simp at h
      exact absurd (h.1 ▸ List.mem_cons_self b bs) (h.1 ▸ hx')
  | cons a as ih =>
    intro xs' ys ys' hx hx' h
    cases xs' with
    | nil =>
      simp at h
      exact absurd (h.1 ▸ List.mem_cons_self a as) (h.1 ▸ hx)
    | cons b bs =>
      simp at h
      obtain ⟨rfl, h2⟩ := h
      have := ih bs ys ys' (fun hm => hx (List.mem_cons_of_mem _ hm))
        (fun hm => hx' (List.mem_cons_of_mem _ hm)) h2
      exact ⟨by rw [this.1], this.2⟩

/-- The edge-key encoding is injective on ordered pairs of node ids. -/
theorem getEdgeKey_inj {a b c d : NodeId} (h : getEdgeKey a b = getEdgeKey c d) :
    a = c ∧ b = d := by
  unfold getEdgeKey at h
  obtain ⟨hlen, hrest⟩ := append_sep_inj _ _ _ _
    (colon_not_mem_natStr a.length) (colon_not_mem_natStr c.length) h
  have hl : a.length = c.length := natStr_inj hlen
  obtain ⟨hac, htail⟩ := List.append_inj hrest hl
  have htail2 : natStr b.length ++ ':' :: b = natStr d.length ++ ':' :: d :=
    List.cons_injective htail
  obtain ⟨hbl, hbd⟩ := append_sep_inj _ _ _ _
    (colon_not_mem_natStr b.length) (colon_not_mem_natStr d.length) htail2
  exact ⟨hac, hbd⟩

/-- C6: the edge-key encoding is injective on ordered pairs of node-id
strings: distinct pairs always receive distinct keys. -/
theorem getEdgeKey_injective (a b c d : NodeId) (h : (a, b) ≠ (c, d)) :
    getEdgeKey a b ≠ getEdgeKey c d := by
  intro hk
  obtain ⟨hac, hbd⟩ := getEdgeKey_inj hk
  exact h (by rw [hac, hbd])

/-- Witness for C6 at a concrete pair of distinct ordered pairs. -/
theorem getEdgeKey_injective_witness :
    ((['a'], ['b']) ≠ (['a'], ['c'])) ∧
      getEdgeKey ['a'] ['b'] ≠ getEdgeKey ['a'] ['c'] :=
  ⟨by decide, getEdgeKey_injective ['a'] ['b'] ['a'] ['c'] (by decide)⟩

/-- Concrete two-node multi-edge graph used by several witnesses. -/
def multiGraphAB : DirectedGraph Unit Unit :=
  (((DirectedGraph.mk0 Unit Unit ⟨true, true, true⟩).addNode ['a'] none).1.addNode
    ['b'] none).1

/-- Counterexample for C4: in multi-edge mode the very first edge of a pair
already carries a numeric suffix, so its identifier is not the bare
ordered-pair encoding. -/
theorem addEdge_first_edge_has_suffix :
    ((multiGraphAB.addEdge ['a'] ['b'] none).2 =
      Except.ok (getEdgeKey ['a'] ['b'] ++ '#' :: natStr 0)) ∧
    getEdgeKey ['a'] ['b'] ++ '#' :: natStr 0 ≠ getEdgeKey ['a'] ['b'] := by
  constructor
  · rfl
  · decide

/-- C4 (amended): under multi-edge mode every successful `addEdge` call,
including the first edge of a pair, returns the ordered-pair encoding
followed by a "#" suffix holding the current value of a single global
counter, and that counter increases by one per added edge. -/
theorem addEdge_multi_id {α β : Type} (g : DirectedGraph α β) (f t : NodeId)
    (md : Option β) (e : EdgeId)
    (hm : g.options.allowMultiEdges = true)
    (h : (g.addEdge f t md).2 = .ok e) :
    e = getEdgeKey f t ++ '#' :: natStr g.nextEdgeId ∧
      (g.addEdge f t md).1.nextEdgeId = g.nextEdgeId + 1 := by
  unfold DirectedGraph.addEdge at h ⊢
  split at h
  · exact absurd h (by simp)
  next h1 =>
  split at h
  · exact absurd h (by simp)
  next h2 =>
  split at h
  · exact absurd h (by simp)
  next h3 =>
  rw [if_neg h1, if_neg h2, if_neg h3]
  have h4 : ¬(¬g.options.allowMultiEdges = true ∧
      (alookup g.edgeIndex (getEdgeKey f t)).isSome = true) := by simp [hm]
  dsimp only at h ⊢
  rw [if_neg h4] at h ⊢
  simp only [hm, eq_self_iff_true, if_true] at h ⊢
  split at h
  · exact absurd h (by simp)
  · next h5 =>
    rw [if_neg h5]
    simp only [Except.ok.injEq] at h
    exact ⟨h.symm, rfl⟩

/-- Witness for C4's amended theorem at a concrete multi-edge graph. -/
theorem addEdge_multi_id_witness :
    (multiGraphAB.options.allowMultiEdges = true ∧
      (multiGraphAB.addEdge ['a'] ['b'] none).2 =
        .ok (getEdgeKey ['a'] ['b'] ++ '#' :: natStr 0)) ∧
    (getEdgeKey ['a'] ['b'] ++ '#' :: natStr 0 =
        getEdgeKey ['a'] ['b'] ++ '#' :: natStr multiGraphAB.nextEdgeId ∧
      (multiGraphAB.addEdge ['a'] ['b'] none).1.nextEdgeId =
        multiGraphAB.nextEdgeId + 1) :=
  ⟨⟨rfl, rfl⟩, addEdge_multi_id multiGraphAB ['a'] ['b'] none _ rfl rfl⟩

/-- C5: whenever `addNode` fails, or `addEdge` fails with a usage error, the
entire engine state is returned exactly as it was before the call. -/
theorem mutation_atomic {α β : Type} (g : DirectedGraph α β) (id f t : NodeId)
    (mn : Option α) (me : Option β) :
    (∀ e, (g.addNode id mn).2 = .error e → e.isUsage = true →
      (g.addNode id mn).1 = g) ∧
    (∀ e', (g.addEdge f t me).2 = .error e' → e'.isUsage = true →
      (g.addEdge f t me).1 = g) := by
  constructor
  · intro e hn _
    unfold DirectedGraph.addNode at hn ⊢
    split at hn
    · next hc => rw [if_pos hc]
    · exact absurd hn (by simp)
  · intro e' he hu
    unfold DirectedGraph.addEdge at he ⊢
    split at he
    · next hc => rw [if_pos hc]
    next h1 =>
    rw [if_neg h1]
    split at he
    · next hc => rw [if_pos hc]
    next h2 =>
    rw [if_neg h2]
    split at he
    · next hc => rw [if_pos hc]
    next h3 =>
    rw [if_neg h3]
    dsimp only at he ⊢
    split at he
    · next hc => rw [if_pos hc]
    next h4 =>
    rw [if_neg h4]
    split at he
    all_goals
      split at he
      · simp only [Except.error.injEq] at he
        subst he
        exact absurd hu (by simp [GraphError.isUsage])
      · exact absurd he (by simp)

/-- Witness for C5 at a concrete graph: a duplicate node id and a duplicate
single-mode edge both fail and leave the state untouched. -/
def singleGraphAB : DirectedGraph Unit Unit :=
  ((((DirectedGraph.mk0 Unit Unit defaultGraphOptions).addNode ['a'] none).1.addNode
    ['b'] none).1.addEdge ['a'] ['b'] none).1

theorem mutation_atomic_witness :
    ((singleGraphAB.addNode ['a'] none).2 =
        .error (.nodeExists ['a']) ∧
      (singleGraphAB.addEdge ['a'] ['b'] none).2 =
        .error (.edgeExists (getEdgeKey ['a'] ['b'])) ∧
      (GraphError.edgeExists (getEdgeKey ['a'] ['b'])).isUsage = true ∧
      ((DirectedGraph.mk0 Unit Unit defaultGraphOptions).addEdge
          ['a'] ['b'] none).2 = .error (.sourceMissing ['a']) ∧
      (GraphError.sourceMissing ['a']).isUsage = true) ∧
    ((singleGraphAB.addNode ['a'] none).1 = singleGraphAB ∧
      (singleGraphAB.addEdge ['a'] ['b'] none).1 = singleGraphAB ∧
      ((DirectedGraph.mk0 Unit Unit defaultGraphOptions).addEdge
          ['a'] ['b'] none).1 = DirectedGraph.mk0 Unit Unit defaultGraphOptions) :=
  ⟨⟨rfl, rfl, rfl, rfl, rfl⟩,
    ⟨(mutation_atomic singleGraphAB ['a'] ['a'] ['b'] none none).1
        (.nodeExists ['a']) rfl rfl,
      (mutation_atomic singleGraphAB ['a'] ['a'] ['b'] none none).2
        (.edgeExists (getEdgeKey ['a'] ['b'])) rfl rfl,
      (mutation_atomic (DirectedGraph.mk0 Unit Unit defaultGraphOptions)
          ['a'] ['a'] ['b'] none none).2 (.sourceMissing ['a']) rfl rfl⟩⟩

/-! findAllPaths: exhaustive DFS enumeration of simple paths. -/

mutual
/-- Inner recursive `dfs` of `findAllPaths`, threading the `visited` set and
the accumulated `paths` exactly as the JS closure mutates them. -/
def findAllPathsDfs (toId : NodeId) (succ : NodeId → List NodeId) (maxDepth : Int)
    (u : NodeId) (path : List NodeId) (depth : Int)
    (visited : List NodeId) (paths : List (List NodeId)) :
    List NodeId × List (List NodeId) :=
  if depth > maxDepth then (visited, paths)
  else if u = toId then (visited, paths ++ [path])
  else findAllPathsDfsList toId succ maxDepth u path depth visited paths (succ u)
termination_by ((maxDepth + 2 - depth).toNat, 0)
decreasing_by simp [Prod.lex_iff]; omega

/-- Iteration of the `for (const v of getSuccessors(u))` loop inside `dfs`. -/
def findAllPathsDfsList (toId : NodeId) (succ : NodeId → List NodeId) (maxDepth : Int)
    (u : NodeId) (path : List NodeId) (depth : Int)
    (visited : List NodeId) (paths : List (List NodeId)) (vs : List NodeId) :
    List NodeId × List (List NodeId) :=
  match vs with
  | [] => (visited, paths)
  | v :: rest =>
    if v ∈ visited then
      findAllPathsDfsList toId succ maxDepth u path depth visited paths rest
    else
      let r := findAllPathsDfs toId succ maxDepth v (path ++ [v]) (depth + 1)
        (sadd visited v) paths
      findAllPathsDfsList toId succ maxDepth u path depth (r.1.erase v) r.2 rest
termination_by ((maxDepth + 1 - depth).toNat, vs.length + 1)
decreasing_by all_goals simp [Prod.lex_iff] <;> omega
end

/-- Enumerate all simple paths between two nodes, bounded by an edge-count
depth ceiling; negative bounds are an invalid-argument failure. -/
def findAllPaths (fromId toId : NodeId) (succ : NodeId → List NodeId)
    (maxDepth : Int) : Except Unit (List (List NodeId)) :=
  if maxDepth < 0 then .error ()
  else .ok (findAllPathsDfs toId succ maxDepth fromId [fromId] 0 [fromId] []).2

/-- C10: with any non-negative depth bound, `findAllPaths` from a node to
itself returns exactly the trivial single-node path; cycles back to the
start are never enumerated. -/
theorem findAllPaths_self (fromId : NodeId) (succ : NodeId → List NodeId)
    (maxDepth : Int) (h : 0 ≤ maxDepth) :
    findAllPaths fromId fromId succ maxDepth = .ok [[fromId]] := by
  unfold findAllPaths
  rw [if_neg (by omega)]
  unfold findAllPathsDfs
  rw [if_neg (by omega), if_pos rfl]
  rfl

/-- Witness for C10 on a concrete successor function containing a cycle
through the start node. -/
theorem findAllPaths_self_witness :
    (0 : Int) ≤ 5 ∧
      findAllPaths ['a'] ['a']
        (fun v => if v = ['a'] then [['b']] else [['a']]) 5 = .ok [[['a']]] :=
  ⟨by omega, findAllPaths_self ['a'] _ 5 (by omega)⟩

/-! Association-list and set lemmas shared by the proofs below. -/

theorem alookup_aset {κ ν : Type} [DecidableEq κ] (m : List (κ × ν)) (k : κ) (v : ν)
    (x : κ) : alookup (aset m k v) x = if k = x then some v else alookup m x := by
  induction m with
  | nil => simp [aset, alookup]
  | cons p rest ih =>
    obtain ⟨pk, pv⟩ := p
    by_cases hk : pk = k
    · subst hk
      by_cases hx : pk = x
      · subst hx
        simp [aset, alookup]
      · simp [aset, alookup, hx]
    · by_cases hx : pk = x
      · subst hx
        simp [aset, hk, alookup]
        rw [if_neg (fun hh => hk hh.symm)]
      · simp [aset, hk, alookup, hx, ih]

theorem alookup_aset_self {κ ν : Type} [DecidableEq κ] (m : List (κ × ν)) (k : κ)
    (v : ν) : alookup (aset m k v) k = some v := by
  rw [alookup_aset]
  simp

theorem alookup_aset_ne {κ ν : Type} [DecidableEq κ] (m : List (κ × ν)) (k : κ)
    (v : ν) (x : κ) (h : k ≠ x) : alookup (aset m k v) x = alookup m x := by
  rw [alookup_aset, if_neg h]

theorem mem_sadd {α : Type} [DecidableEq α] (s : List α) (x y : α) :
    y ∈ sadd s x ↔ y = x ∨ y ∈ s := by
  unfold sadd
  split
  · next h =>
    constructor
    · exact fun hy => Or.inr hy
    · rintro (rfl | hy)
      · exact h
      · exact hy
  · simp
    tauto

theorem sadd_nodup {α : Type} [DecidableEq α] (s : List α) (x : α) (h : s.Nodup) :
    (sadd s x).Nodup := by
  unfold sadd
  split
  · exact h
  · next hx =>
    refine List.Nodup.append h (List.nodup_singleton x) ?_
    intro a ha hb
    simp at hb
    subst hb
    exact hx ha

/-! isBipartite: symmetrized adjacency construction followed by BFS
two-colouring.  A result of `.error` models a JS runtime crash on a
non-existent map entry or, in the BFS phase, fuel exhaustion. -/

/-- Result record of `isBipartite`. -/
structure BipartiteResult where
  isBipartite : Bool
  partition : Option (List NodeId × List NodeId)
deriving DecidableEq

/-- Inner loop of the neighbour-building phase: `for (const v of
getSuccessors(u))`.  Returns `.ok none` for the early non-bipartite return on
a self-loop, `.ok (some nb)` to continue with the updated neighbour map. -/
def bipBuildInner (u : NodeId) : List NodeId → List (NodeId × List NodeId) →
    Except Unit (Option (List (NodeId × List NodeId)))
  | [], nb => .ok (some nb)
  | v :: vs, nb =>
    match alookup nb u with
    | none => .error ()
    | some su =>
      let nb1 := aset nb u (sadd su v)
      let nb2 := match alookup nb1 v with
        | none => nb1
        | some sv => aset nb1 v (sadd sv u)
      if u = v then .ok none
      else bipBuildInner u vs nb2

/-- Outer loop of the neighbour-building phase over the node list. -/
def bipBuild (succ : NodeId → List NodeId) :
    List NodeId → List (NodeId × List NodeId) →
    Except Unit (Option (List (NodeId × List NodeId)))
  | [], nb => .ok (some nb)
  | u :: us, nb =>
    match bipBuildInner u (succ u) nb with
    | .error e => .error e
    | .ok none => .ok none
    | .ok (some nb') => bipBuild succ us nb'

/-- BFS colouring state: queue, colour map, and the two partition sets. -/
structure BipBfsState where
  q : List NodeId
  color : List (NodeId × Nat)
  setA : List NodeId
  setB : List NodeId

/-- Inner loop over the neighbours of the dequeued node `u` with colour
`cu`; `none` is the non-bipartite early return. -/
def bipBfsInner (cu : Nat) : List NodeId → BipBfsState → Option BipBfsState
  | [], st => some st
  | v :: vs, st =>
    match alookup st.color v with
    | none =>
      let cv := 1 - cu
      bipBfsInner cu vs
        { q := st.q ++ [v], color := aset st.color v cv,
          setA := if cv = 0 then sadd st.setA v else st.setA,
          setB := if cv = 0 then st.setB else sadd st.setB v }
    | some cv =>
      if cv = cu then none
      else bipBfsInner cu vs st

/-- The `while (head < q.length)` colouring loop, fuelled. -/
def bipBfsLoop (nb : List (NodeId × List NodeId)) :
    Nat → Nat → BipBfsState → Except Unit (Option BipBfsState)
  | 0, _, _ => .error ()
  | fuel + 1, head, st =>
    if head < st.q.length then
      let u := st.q.getD head []
      match alookup st.color u with
      | none => .error ()
      | some cu =>
        match alookup nb u with
        | none => .error ()
        | some neigh =>
          match bipBfsInner cu neigh st with
          | none => .ok none
          | some st' => bipBfsLoop nb fuel (head + 1) st'
    else .ok (some st)

/-- Per-component scan: start a BFS at every not-yet-coloured node. -/
def bipComponents (nb : List (NodeId × List NodeId)) (fuel : Nat) :
    List NodeId → List (NodeId × Nat) → List NodeId → List NodeId →
    Except Unit (Option (List (NodeId × Nat) × List NodeId × List NodeId))
  | [], color, a, b => .ok (some (color, a, b))
  | s :: ss, color, a, b =>
    if (alookup color s).isSome then bipComponents nb fuel ss color a b
    else
      match bipBfsLoop nb fuel 0
        { q := [s], color := aset color s 0, setA := sadd a s, setB := b } with
      | .error e => .error e
      | .ok none => .ok none
      | .ok (some st) => bipComponents nb fuel ss st.color st.setA st.setB

/-- Bipartiteness of the symmetrized graph, mirroring `isBipartite`. -/
def isBipartite (nodes : List NodeId) (succ : NodeId → List NodeId) :
    Except Unit BipartiteResult :=
  let neighbors0 := nodes.foldl (fun nb u => aset nb u []) []
  match bipBuild succ nodes neighbors0 with
  | .error e => .error e
  | .ok none => .ok ⟨false, none⟩
  | .ok (some nb) =>
    let fuel := nodes.length + nb.foldl (fun a p => a + p.2.length) 0 + 1
    match bipComponents nb fuel nodes [] [] [] with
    | .error e => .error e
    | .ok none => .ok ⟨false, none⟩
    | .ok (some (_, a, b)) => .ok ⟨true, some (a, b)⟩

theorem isSome_alookup_aset {κ ν : Type} [DecidableEq κ] {m : List (κ × ν)} {x : κ}
    (k : κ) (v : ν) (h : (alookup m x).isSome = true) :
    (alookup (aset m k v) x).isSome = true := by
  rw [alookup_aset]
  split <;> simp [h]

/-- Neighbour-building inner loop: a self-loop in the remaining successor
list forces the early non-bipartite return, otherwise the loop completes and
only grows the key set of the neighbour map. -/
theorem bipBuildInner_spec (u : NodeId) : ∀ (vs : List NodeId)
    (nb : List (NodeId × List NodeId)), (alookup nb u).isSome = true →
    (u ∈ vs → bipBuildInner u vs nb = .ok none) ∧
    (u ∉ vs → ∃ nb', bipBuildInner u vs nb = .ok (some nb') ∧
      ∀ x, (alookup nb x).isSome = true → (alookup nb' x).isSome = true) := by
  intro vs
  induction vs with
  | nil =>
    intro nb hu
    refine ⟨by simp, fun _ => ⟨nb, rfl, fun x hx => hx⟩⟩
  | cons v vs ih =>
    intro nb hu
    obtain ⟨su, hsu⟩ := Option.isSome_iff_exists.mp hu
    by_cases huv : u = v
    · subst huv
      constructor
      · intro _
        unfold bipBuildInner
        rw [hsu]
        simp
      · intro hmem
        exact absurd (List.mem_cons_self u vs) hmem
    · have hstep : bipBuildInner u (v :: vs) nb =
          bipBuildInner u vs
            (match alookup (aset nb u (sadd su v)) v with
             | none => aset nb u (sadd su v)
             | some sv => aset (aset nb u (sadd su v)) v (sadd sv u)) := by
        unfold bipBuildInner
        rw [hsu]
        simp only [huv, if_false, ite_false]
        cases vs <;> rfl
      set nb2 := (match alookup (aset nb u (sadd su v)) v with
             | none => aset nb u (sadd su v)
             | some sv => aset (aset nb u (sadd su v)) v (sadd sv u)) with hnb2
      have hpres : ∀ x, (alookup nb x).isSome = true →
          (alookup nb2 x).isSome = true := by
        intro x hx
        rw [hnb2]
        split
        · exact isSome_alookup_aset _ _ hx
        · exact isSome_alookup_aset _ _ (isSome_alookup_aset _ _ hx)
      have hu2 : (alookup nb2 u).isSome = true := hpres u hu
      obtain ⟨ih1, ih2⟩ := ih nb2 hu2
      constructor
      · intro hmem
        rcases List.mem_cons.mp hmem with rfl | hmem2
        · exact absurd rfl huv
        · rw [hstep]
          exact ih1 hmem2
      · intro hmem
        have hm2 : u ∉ vs := fun hc => hmem (List.mem_cons_of_mem _ hc)
        obtain ⟨nb', hnb', hp'⟩ := ih2 hm2
        exact ⟨nb', by rw [hstep]; exact hnb', fun x hx => hp' x (hpres x hx)⟩

/-- Neighbour-building outer loop: any self-loop among the listed nodes
yields the early non-bipartite return. -/
theorem bipBuild_selfloop (succ : NodeId → List NodeId) : ∀ (us : List NodeId)
    (nb : List (NodeId × List NodeId)),
    (∀ x ∈ us, (alookup nb x).isSome = true) →
    (∃ u ∈ us, u ∈ succ u) → bipBuild succ us nb = .ok none := by
  intro us
  induction us with
  | nil =>
    intro nb _ hex
    simp at hex
  | cons u us ih =>
    intro nb hall hex
    have hu : (alookup nb u).isSome = true := hall u (List.mem_cons_self u us)
    obtain ⟨h1, h2⟩ := bipBuildInner_spec u (succ u) nb hu
    by_cases hself : u ∈ succ u
    · unfold bipBuild
      rw [h1 hself]
    · obtain ⟨nb', hnb', hp⟩ := h2 hself
      unfold bipBuild
      rw [hnb']
      have hex2 : ∃ w ∈ us, w ∈ succ w := by
        obtain ⟨w, hw, hws⟩ := hex
        rcases List.mem_cons.mp hw with rfl | hw2
        · exact absurd hws hself
        · exact ⟨w, hw2, hws⟩
      exact ih nb' (fun x hx => hp x (hall x (List.mem_cons_of_mem _ hx))) hex2

theorem foldl_aset_pres {κ ν : Type} [DecidableEq κ] (w : ν) :
    ∀ (l : List κ) (init : List (κ × ν)) (x : κ),
    (alookup init x).isSome = true →
    (alookup (l.foldl (fun nb u => aset nb u w) init) x).isSome = true := by
  intro l
  induction l with
  | nil => intro init x h; exact h
  | cons u us ih =>
    intro init x h
    exact ih (aset init u w) x (isSome_alookup_aset _ _ h)

theorem foldl_aset_init {κ ν : Type} [DecidableEq κ] (w : ν) :
    ∀ (l : List κ) (init : List (κ × ν)) (x : κ), x ∈ l →
    (alookup (l.foldl (fun nb u => aset nb u w) init) x).isSome = true := by
  intro l
  induction l with
  | nil => intro init x h; simp at h
  | cons u us ih =>
    intro init x h
    rcases List.mem_cons.mp h with rfl | h2
    · exact foldl_aset_pres w us (aset init x w) x (by rw [alookup_aset_self]; rfl)
    · exact ih (aset init u w) x h2

/-- C8: a self-loop anywhere in the node list makes `isBipartite` return the
non-bipartite result with no partition, straight from the build phase. -/
theorem isBipartite_selfLoop (nodes : List NodeId) (succ : NodeId → List NodeId)
    (h : ∃ u ∈ nodes, u ∈ succ u) :
    isBipartite nodes succ = .ok ⟨false, none⟩ := by
  simp only [isBipartite]
  have hinit : ∀ x ∈ nodes,
      (alookup (nodes.foldl (fun nb u => aset nb u ([] : List NodeId)) []) x).isSome
        = true :=
    fun x hx => foldl_aset_init [] nodes [] x hx
  rw [bipBuild_selfloop succ nodes _ hinit h]

/-- Witness for C8 at a one-node graph with a self-loop. -/
theorem isBipartite_selfLoop_witness :
    (∃ u ∈ [['a']], u ∈ (fun (_ : NodeId) => [['a']]) u) ∧
      isBipartite [['a']] (fun _ => [['a']]) = .ok ⟨false, none⟩ :=
  ⟨⟨['a'], by simp⟩, isBipartite_selfLoop [['a']] (fun _ => [['a']]) ⟨['a'], by simp⟩⟩

/-! longestPathDAG: validation of a caller-supplied topological order
followed by a forward dynamic program. -/

/-- Distinct validation failures of `longestPathDAG`, one per thrown
condition. -/
inductive LPErr
  | undefinedEntry
  | sizeMismatch
  | missingNode
  | backwardEdge
deriving DecidableEq

/-- Result record of `longestPathDAG`. -/
structure LPResult where
  length : Nat
  path : List NodeId
deriving DecidableEq

/-- Position-map construction: throws on an undefined entry, later
occurrences of a node overwrite earlier positions. -/
def lpBuildPos : List (Option NodeId) → Nat → List (NodeId × Nat) →
    Except LPErr (List (NodeId × Nat))
  | [], _, pos => .ok pos
  | none :: _, _, _ => .error .undefinedEntry
  | some node :: rest, i, pos => lpBuildPos rest (i + 1) (aset pos node i)

/-- Edge validation inner loop over the successors of `u`. -/
def lpCheckEdgesInner (pos : List (NodeId × Nat)) (u : NodeId) :
    List NodeId → Except LPErr Unit
  | [] => .ok ()
  | v :: vs =>
    match alookup pos u, alookup pos v with
    | some pu, some pv =>
      if pu ≥ pv then .error .backwardEdge else lpCheckEdgesInner pos u vs
    | _, _ => .error .missingNode

/-- Edge validation outer loop over the node list. -/
def lpCheckEdges (succ : NodeId → List NodeId) (pos : List (NodeId × Nat)) :
    List NodeId → Except LPErr Unit
  | [] => .ok ()
  | u :: us =>
    match lpCheckEdgesInner pos u (succ u) with
    | .error e => .error e
    | .ok () => lpCheckEdges succ pos us

/-- Dynamic-program inner loop: relax every edge out of `u`. -/
def lpDpInner (u : NodeId) (du : Nat) : List NodeId →
    List (NodeId × Nat) × List (NodeId × Option NodeId) →
    List (NodeId × Nat) × List (NodeId × Option NodeId)
  | [], st => st
  | v :: vs, (dist, parent) =>
    let cand := du + 1
    match alookup dist v with
    | none => lpDpInner u du vs (aset dist v cand, aset parent v (some u))
    | some dv =>
      if cand > dv then lpDpInner u du vs (aset dist v cand, aset parent v (some u))
      else lpDpInner u du vs (dist, parent)

/-- Dynamic-program outer loop over the validated order; an undefined entry
cannot reach this loop, it is skipped for totality. -/
def lpDp (succ : NodeId → List NodeId) : List (Option NodeId) →
    List (NodeId × Nat) × List (NodeId × Option NodeId) →
    List (NodeId × Nat) × List (NodeId × Option NodeId)
  | [], st => st
  | none :: rest, st => lpDp succ rest st
  | some u :: rest, (dist, parent) =>
    let st1 := if (alookup dist u).isNone
      then (aset dist u 0, aset parent u none) else (dist, parent)
    let du := (alookup st1.1 u).getD 0
    lpDp succ rest (lpDpInner u du (succ u) st1)

/-- Best-end selection: maximal distance, earliest occurrence wins ties. -/
def lpBest (dist : List (NodeId × Nat)) : List (Option NodeId) → Nat →
    Option NodeId → Nat × Option NodeId
  | [], best, e => (best, e)
  | none :: rest, best, e => lpBest dist rest best e
  | some u :: rest, best, e =>
    let du := (alookup dist u).getD 0
    if du > best then lpBest dist rest du (some u) else lpBest dist rest best e

/-- Fuelled parent-chain walk used for path reconstruction; the fuel cannot
run out on the chains the dynamic program produces, whose positions strictly
decrease. -/
def lpRecon (parent : List (NodeId × Option NodeId)) : Nat → NodeId →
    List NodeId → List NodeId
  | 0, cur, acc => cur :: acc
  | f + 1, cur, acc =>
    match (alookup parent cur).getD none with
    | none => cur :: acc
    | some nxt => lpRecon parent f nxt (cur :: acc)

/-- Longest path in a DAG over a caller-supplied topological order,
mirroring `longestPathDAG`. -/
def longestPathDAG (nodes : List NodeId) (succ : NodeId → List NodeId)
    (topologicalOrder : List (Option NodeId)) : Except LPErr LPResult :=
  match lpBuildPos topologicalOrder 0 [] with
  | .error e => .error e
  | .ok pos =>
    if pos.length ≠ nodes.length then .error .sizeMismatch
    else
      match lpCheckEdges succ pos nodes with
      | .error e => .error e
      | .ok () =>
        let st := lpDp succ topologicalOrder ([], [])
        let endNode : Option NodeId := match topologicalOrder.head? with
          | some (some u) => some u
          | _ => none
        let best0 : Nat := match endNode with
          | some u => (alookup st.1 u).getD 0
          | none => 0
        let be := lpBest st.1 topologicalOrder best0 endNode
        let path : List NodeId := match be.2 with
          | none => []
          | some e => lpRecon st.2 (st.2.length + 1) e []
        .ok ⟨be.1, path⟩

/-- An edge `u → v` violates the supplied order when either endpoint is
missing from it or the source position is not strictly smaller. -/
def LpBad (pos : List (NodeId × Nat)) (u v : NodeId) : Prop :=
  (alookup pos u).isNone = true ∨ (alookup pos v).isNone = true ∨
    (alookup pos v).getD 0 ≤ (alookup pos u).getD 0

theorem lpBuildPos_none : ∀ (order : List (Option NodeId)) (i : Nat)
    (pos : List (NodeId × Nat)), none ∈ order →
    lpBuildPos order i pos = .error .undefinedEntry := by
  intro order
  induction order with
  | nil => intro i pos h; simp at h
  | cons o rest ih =>
    intro i pos h
    cases o with
    | none => rfl
    | some u =>
      have : none ∈ rest := by
        rcases List.mem_cons.mp h with h1 | h2
        · exact absurd h1.symm (by simp)
        · exact h2
      exact ih (i + 1) (aset pos u i) this

theorem lpCheckEdgesInner_bad (pos : List (NodeId × Nat)) (u : NodeId) :
    ∀ vs : List NodeId, (∃ v ∈ vs, LpBad pos u v) →
    ∃ e, lpCheckEdgesInner pos u vs = .error e ∧
      (e = .missingNode ∨ e = .backwardEdge) := by
  intro vs
  induction vs with
  | nil => simp
  | cons v0 vs ih =>
    rintro ⟨v, hv, hbad⟩
    cases hu : alookup pos u with
    | none =>
      refine ⟨.missingNode, ?_, Or.inl rfl⟩
      conv_lhs => rw [lpCheckEdgesInner]
      rw [hu]
    | some pu =>
      cases hv0 : alookup pos v0 with
      | none =>
        refine ⟨.missingNode, ?_, Or.inl rfl⟩
        conv_lhs => rw [lpCheckEdgesInner]
        rw [hu, hv0]
      | some pv0 =>
        by_cases hge : pu ≥ pv0
        · refine ⟨.backwardEdge, ?_, Or.inr rfl⟩
          conv_lhs => rw [lpCheckEdgesInner]
          rw [hu, hv0]
          simp [hge]
        · have hstep : lpCheckEdgesInner pos u (v0 :: vs) =
              lpCheckEdgesInner pos u vs := by
            conv_lhs => rw [lpCheckEdgesInner]
            rw [hu, hv0]
            simp [hge]
          rw [hstep]
          apply ih
          refine ⟨v, ?_, hbad⟩
          rcases List.mem_cons.mp hv with rfl | h2
          · exfalso
            rcases hbad with h | h | h
            · rw [hu] at h; simp at h
            · rw [hv0] at h; simp at h
            · rw [hu, hv0] at h; simp at h; omega
          · exact h2

theorem lpCheckEdgesInner_good (pos : List (NodeId × Nat)) (u : NodeId) :
    ∀ vs : List NodeId, (∀ v ∈ vs, ¬LpBad pos u v) →
    lpCheckEdgesInner pos u vs = .ok () := by
  intro vs
  induction vs with
  | nil => intro _; rfl
  | cons v0 vs ih =>
    intro h
    have hbad0 := h v0 (List.mem_cons_self v0 vs)
    unfold LpBad at hbad0
    push_neg at hbad0
    obtain ⟨h1, h2, h3⟩ := hbad0
    cases hu : alookup pos u with
    | none => rw [hu] at h1; simp at h1
    | some pu =>
      cases hv0 : alookup pos v0 with
      | none => rw [hv0] at h2; simp at h2
      | some pv0 =>
        rw [hu, hv0] at h3
        simp at h3
        conv_lhs => rw [lpCheckEdgesInner]
        rw [hu, hv0]
        dsimp only
        rw [if_neg (by omega)]
        exact ih (fun v hv => h v (List.mem_cons_of_mem _ hv))

theorem lpCheckEdges_bad (succ : NodeId → List NodeId) (pos : List (NodeId × Nat)) :
    ∀ us : List NodeId, (∃ u ∈ us, ∃ v ∈ succ u, LpBad pos u v) →
    ∃ e, lpCheckEdges succ pos us = .error e ∧
      (e = .missingNode ∨ e = .backwardEdge) := by
  intro us
  induction us with
  | nil => simp
  | cons u0 us ih =>
    rintro ⟨u, hu, v, hv, hbad⟩
    by_cases hbad0 : ∃ v ∈ succ u0, LpBad pos u0 v
    · obtain ⟨e, he, hcase⟩ := lpCheckEdgesInner_bad pos u0 (succ u0) hbad0
      refine ⟨e, ?_, hcase⟩
      conv_lhs => rw [lpCheckEdges]
      rw [he]
    · have hok : lpCheckEdgesInner pos u0 (succ u0) = .ok () := by
        apply lpCheckEdgesInner_good
        intro v' hv' hb
        exact hbad0 ⟨v', hv', hb⟩
      have hstep : lpCheckEdges succ pos (u0 :: us) = lpCheckEdges succ pos us := by
        conv_lhs => rw [lpCheckEdges]
        rw [hok]
      rw [hstep]
      apply ih
      rcases List.mem_cons.mp hu with rfl | h2
      · exact absurd ⟨v, hv, hbad⟩ hbad0
      · exact ⟨u, h2, v, hv, hbad⟩

theorem lpCheckEdges_good (succ : NodeId → List NodeId) (pos : List (NodeId × Nat)) :
    ∀ us : List NodeId, (∀ u ∈ us, ∀ v ∈ succ u, ¬LpBad pos u v) →
    lpCheckEdges succ pos us = .ok () := by
  intro us
  induction us with
  | nil => intro _; rfl
  | cons u0 us ih =>
    intro h
    have hok : lpCheckEdgesInner pos u0 (succ u0) = .ok () :=
      lpCheckEdgesInner_good pos u0 (succ u0) (h u0 (List.mem_cons_self u0 us))
    conv_lhs => rw [lpCheckEdges]
    rw [hok]
    exact ih (fun u hu => h u (List.mem_cons_of_mem _ hu))

/-- C3 (amended): `longestPathDAG` validates in a fixed sequence with a
distinct error for each condition: an undefined order entry, then an order
size mismatch, then edge checks that fail when an endpoint is missing from
the order or the source position is not strictly before the target.  An
order whose node set differs from the input node set but has the same size
fails only when some validated edge touches a missing node; otherwise the
call succeeds. -/
theorem longestPathDAG_validation (nodes : List NodeId)
    (succ : NodeId → List NodeId) (order : List (Option NodeId)) :
    (none ∈ order → longestPathDAG nodes succ order = .error .undefinedEntry) ∧
    (∀ pos, lpBuildPos order 0 [] = .ok pos →
      (pos.length ≠ nodes.length →
        longestPathDAG nodes succ order = .error .sizeMismatch) ∧
      (pos.length = nodes.length →
        ((∃ u ∈ nodes, ∃ v ∈ succ u, LpBad pos u v) →
          ∃ e, longestPathDAG nodes succ order = .error e ∧
            (e = .missingNode ∨ e = .backwardEdge)) ∧
        ((∀ u ∈ nodes, ∀ v ∈ succ u, ¬LpBad pos u v) →
          ∃ r, longestPathDAG nodes succ order = .ok r))) := by
  constructor
  · intro hnone
    unfold longestPathDAG
    rw [lpBuildPos_none order 0 [] hnone]
  · intro pos hpos
    constructor
    · intro hne
      unfold longestPathDAG
      rw [hpos]
      simp [hne]
    · intro heq
      constructor
      · intro hex
        obtain ⟨e, he, hcase⟩ := lpCheckEdges_bad succ pos nodes hex
        refine ⟨e, ?_, hcase⟩
        unfold longestPathDAG
        rw [hpos]
        simp [heq, he]
      · intro hgood
        have hok := lpCheckEdges_good succ pos nodes hgood
        unfold longestPathDAG
        rw [hpos]
        simp [heq, hok]

/-- Counterexample for C3's final universal: nodes `["a"]` with no edges and
order `["b"]` have different node sets of equal size, yet the call succeeds. -/
theorem longestPathDAG_mismatch_counterexample :
    (['b'] : NodeId) ≠ ['a'] ∧
      longestPathDAG [['a']] (fun _ => []) [some ['b']] = .ok ⟨0, [['b']]⟩ := by
  constructor
  · decide
  · rfl

/-- Witness for C3's amended theorem: an order containing an undefined entry
fails with the undefined-entry condition. -/
theorem longestPathDAG_validation_witness :
    (none ∈ [none, some ['a']]) ∧
      longestPathDAG [['a']] (fun _ => []) [none, some ['a']] =
        .error .undefinedEntry :=
  ⟨by simp,
    (longestPathDAG_validation [['a']] (fun _ => []) [none, some ['a']]).1 (by simp)⟩

/-! BFS reachability and shortest path over an abstract successor function.
The unbounded `while` loops take an explicit fuel argument; an outer `none`
result means that the fuel ran out before the JS loop would have returned. -/

/-- Reachability in exactly `n` successor steps. -/
inductive ReachN (succ : NodeId → List NodeId) (fromId : NodeId) :
    NodeId → Nat → Prop
  | refl : ReachN succ fromId fromId 0
  | step {v w : NodeId} {n : Nat} :
      ReachN succ fromId v n → w ∈ succ v → ReachN succ fromId w (n + 1)

/-- Reachability in any number of successor steps. -/
def Reaches (succ : NodeId → List NodeId) (fromId toId : NodeId) : Prop :=
  ∃ n, ReachN succ fromId toId n

/-- Inner loop of `isReachable` over the successors of a dequeued node:
`none` models the `return true` on discovering the target. -/
def isReachableInner (toId : NodeId) : List NodeId → List NodeId → List NodeId →
    Option (List NodeId × List NodeId)
  | [], seen, q => some (seen, q)
  | v :: vs, seen, q =>
    if v ∈ seen then isReachableInner toId vs seen q
    else if v = toId then none
    else isReachableInner toId vs (sadd seen v) (q ++ [v])

/-- The fuelled `while (head < q.length)` loop of `isReachable`. -/
def isReachableLoop (succ : NodeId → List NodeId) (toId : NodeId) :
    Nat → List NodeId → List NodeId → Nat → Option Bool
  | 0, _, _, _ => none
  | fuel + 1, seen, q, head =>
    if head < q.length then
      match isReachableInner toId (succ (q.getD head [])) seen q with
      | none => some true
      | some (seen', q') => isReachableLoop succ toId fuel seen' q' (head + 1)
    else some false

/-- Breadth-first reachability, mirroring `isReachable`. -/
def isReachable (fromId toId : NodeId) (succ : NodeId → List NodeId)
    (fuel : Nat) : Option Bool :=
  if fromId = toId then some true
  else isReachableLoop succ toId fuel [fromId] [fromId] 0

/-- Fuelled parent-chain reconstruction of `shortestPath` (the
`while (cur !== undefined)` loop with `unshift`). -/
def spRecon (parent : List (NodeId × NodeId)) : Nat → NodeId → List NodeId →
    List NodeId
  | 0, cur, acc => cur :: acc
  | f + 1, cur, acc =>
    match alookup parent cur with
    | none => cur :: acc
    | some u => spRecon parent f u (cur :: acc)

/-- Inner loop of `shortestPath` over the successors of the dequeued node
`u`: `.inr p` models the early return of the reconstructed path. -/
def shortestPathInner (toId u : NodeId) : List NodeId →
    List NodeId × List (NodeId × NodeId) × List NodeId →
    (List NodeId × List (NodeId × NodeId) × List NodeId) ⊕ List NodeId
  | [], st => .inl st
  | v :: vs, (seen, parent, q) =>
    if v ∈ seen then shortestPathInner toId u vs (seen, parent, q)
    else
      let seen1 := sadd seen v
      let parent1 := aset parent v u
      if v = toId then .inr (spRecon parent1 (parent1.length + 1) toId [])
      else shortestPathInner toId u vs (seen1, parent1, q ++ [v])

/-- The fuelled `while (head < q.length)` loop of `shortestPath`. -/
def shortestPathLoop (succ : NodeId → List NodeId) (toId : NodeId) :
    Nat → List NodeId → List (NodeId × NodeId) → List NodeId → Nat →
    Option (Option (List NodeId))
  | 0, _, _, _, _ => none
  | fuel + 1, seen, parent, q, head =>
    if head < q.length then
      match shortestPathInner toId (q.getD head []) (succ (q.getD head []))
        (seen, parent, q) with
      | .inr p => some (some p)
      | .inl (seen', parent', q') =>
        shortestPathLoop succ toId fuel seen' parent' q' (head + 1)
    else some none

/-- Unweighted BFS shortest path, mirroring `shortestPath`.  The outer
`Option` is fuel exhaustion, the inner `Option` is the JS `null` result. -/
def shortestPath (fromId toId : NodeId) (succ : NodeId → List NodeId)
    (fuel : Nat) : Option (Option (List NodeId)) :=
  if fromId = toId then some (some [fromId])
  else shortestPathLoop succ toId fuel [fromId] [] [fromId] 0

theorem getD_mem_of_lt {q : List NodeId} {i : Nat} (h : i < q.length) :
    q.getD i [] ∈ q := by
  rw [List.getD_eq_getElem _ _ h]
  exact List.getElem_mem h

/-- Inner-loop specification for `isReachable`: discovering the target is
sound, and completing the scan marks every listed successor as seen while
only growing the seen set and the queue. -/
theorem irInner_spec (fromId toId u : NodeId) (succ : NodeId → List NodeId)
    (hu : Reaches succ fromId u) :
    ∀ (vs seen q : List NodeId),
    (∀ v ∈ vs, v ∈ succ u) →
    (∀ x, x ∈ seen ↔ x ∈ q) →
    (∀ x ∈ q, Reaches succ fromId x) →
    toId ∉ seen →
    (isReachableInner toId vs seen q = none → Reaches succ fromId toId) ∧
    (∀ seen' q', isReachableInner toId vs seen q = some (seen', q') →
      (∀ x, x ∈ seen' ↔ x ∈ q') ∧ (∀ x ∈ q', Reaches succ fromId x) ∧
      (∀ v ∈ vs, v ∈ seen') ∧ (∀ x ∈ seen, x ∈ seen') ∧
      (∃ d, q' = q ++ d) ∧ toId ∉ seen') := by
  intro vs
  induction vs with
  | nil =>
    intro seen q _ hsq hr hto
    constructor
    · intro h
      exact absurd h (by simp [isReachableInner])
    · intro seen' q' h
      simp only [isReachableInner, Option.some.injEq, Prod.mk.injEq] at h
      obtain ⟨rfl, rfl⟩ := h
      exact ⟨hsq, hr, by simp, fun x hx => hx, ⟨[], by simp⟩, hto⟩
  | cons v vs ih =>
    intro seen q hvs hsq hr hto
    by_cases hv : v ∈ seen
    · have hstep : isReachableInner toId (v :: vs) seen q =
          isReachableInner toId vs seen q := by
        conv_lhs => rw [isReachableInner]
        rw [if_pos hv]
      rw [hstep]
      obtain ⟨c1, c2⟩ := ih seen q (fun w hw => hvs w (List.mem_cons_of_mem _ hw))
        hsq hr hto
      refine ⟨c1, ?_⟩
      intro seen' q' h
      obtain ⟨d1, d2, d3, d4, d5, d6⟩ := c2 seen' q' h
      refine ⟨d1, d2, ?_, d4, d5, d6⟩
      intro w hw
      rcases List.mem_cons.mp hw with rfl | hw2
      · exact d4 w hv
      · exact d3 w hw2
    · by_cases hvt : v = toId
      · subst hvt
        have hdone : isReachableInner v (v :: vs) seen q = none := by
          conv_lhs => rw [isReachableInner]
          rw [if_neg hv, if_pos rfl]
        rw [hdone]
        constructor
        · intro _
          obtain ⟨n, hn⟩ := hu
          exact ⟨n + 1, hn.step (hvs v (List.mem_cons_self v vs))⟩
        · intro seen' q' h
          cases h
      · have hstep : isReachableInner toId (v :: vs) seen q =
            isReachableInner toId vs (sadd seen v) (q ++ [v]) := by
          conv_lhs => rw [isReachableInner]
          rw [if_neg hv, if_neg hvt]
        rw [hstep]
        have hsq2 : ∀ x, x ∈ sadd seen v ↔ x ∈ q ++ [v] := by
          intro x
          rw [mem_sadd]
          simp [hsq x]
          tauto
        have hr2 : ∀ x ∈ q ++ [v], Reaches succ fromId x := by
          intro x hx
          rcases List.mem_append.mp hx with hx1 | hx2
          · exact hr x hx1
          · simp at hx2
            subst hx2
            obtain ⟨n, hn⟩ := hu
            exact ⟨n + 1, hn.step (hvs x (List.mem_cons_self x vs))⟩
        have hto2 : toId ∉ sadd seen v := by
          rw [mem_sadd]
          rintro (h1 | h2)
          · exact hvt h1.symm
          · exact hto h2
        obtain ⟨c1, c2⟩ := ih (sadd seen v) (q ++ [v])
          (fun w hw => hvs w (List.mem_cons_of_mem _ hw)) hsq2 hr2 hto2
        refine ⟨c1, ?_⟩
        intro seen' q' h
        obtain ⟨d1, d2, d3, d4, ⟨d, hd⟩, d6⟩ := c2 seen' q' h
        refine ⟨d1, d2, ?_, ?_, ⟨[v] ++ d, by rw [hd]; simp⟩, d6⟩
        · intro w hw
          rcases List.mem_cons.mp hw with rfl | hw2
          · exact d4 w (by rw [mem_sadd]; exact Or.inl rfl)
          · exact d3 w hw2
        · intro x hx
          exact d4 x (by rw [mem_sadd]; exact Or.inr hx)

/-- Loop specification for `isReachable`: on any terminating run, `true`
means the target is reachable and `false` means it is not. -/
theorem irLoop_spec (fromId toId : NodeId) (succ : NodeId → List NodeId) :
    ∀ (fuel : Nat) (seen q : List NodeId) (head : Nat) (b : Bool),
    (∀ x, x ∈ seen ↔ x ∈ q) → head ≤ q.length →
    (∀ x ∈ q, Reaches succ fromId x) → fromId ∈ q → toId ∉ seen →
    (∀ i, i < head → ∀ w ∈ succ (q.getD i []), w ∈ seen) →
    isReachableLoop succ toId fuel seen q head = some b →
    (b = true → Reaches succ fromId toId) ∧
    (b = false → ¬Reaches succ fromId toId) := by
  intro fuel
  induction fuel with
  | zero => intro seen q head b _ _ _ _ _ _ h; cases h
  | succ fuel ih =>
    intro seen q head b hsq hhead hr hfrom hto hclosed h
    unfold isReachableLoop at h
    split at h
    · next hlt =>
      have humem : q.getD head [] ∈ q := getD_mem_of_lt hlt
      obtain ⟨c1, c2⟩ := irInner_spec fromId toId (q.getD head []) succ
        (hr _ humem) (succ (q.getD head [])) seen q (fun v hv => hv) hsq hr hto
      cases hinner : isReachableInner toId (succ (q.getD head [])) seen q with
      | none =>
        rw [hinner] at h
        simp at h
        subst h
        exact ⟨fun _ => c1 hinner, by simp⟩
      | some sq =>
        obtain ⟨seen', q'⟩ := sq
        rw [hinner] at h
        obtain ⟨d1, d2, d3, d4, ⟨d, hd⟩, d6⟩ := c2 seen' q' hinner
        refine ih seen' q' (head + 1) b d1 ?_ d2 ?_ d6 ?_ h
        · have : q.length ≤ q'.length := by rw [hd]; simp
          omega
        · exact (d1 fromId).mp (d4 fromId ((hsq fromId).mpr hfrom))
        · intro i hi w hw
          by_cases hih : i < head
          · apply d4
            apply hclosed i hih
            have : q'.getD i [] = q.getD i [] := by
              rw [hd]
              exact List.getD_append _ _ _ _ (by omega)
            rwa [this] at hw
          · have hieq : i = head := by omega
            subst hieq
            have : q'.getD i [] = q.getD i [] := by
              rw [hd]
              exact List.getD_append _ _ _ _ hlt
            rw [this] at hw
            exact d3 w hw
    · next hge =>
      simp at h
      subst h
      refine ⟨by simp, fun _ => ?_⟩
      have hall : ∀ n x, ReachN succ fromId x n → x ∈ seen := by
        intro n
        induction n with
        | zero =>
          intro x hx
          cases hx
          exact (hsq fromId).mpr hfrom
        | succ n ihn =>
          intro x hx
          cases hx with
          | step hy hw =>
            rename_i y
            have hy2 : y ∈ q := (hsq y).mp (ihn y hy)
            obtain ⟨i, hi, hiy⟩ := List.getElem_of_mem hy2
            have hie : q.getD i [] = y := by
              rw [List.getD_eq_getElem _ _ hi, hiy]
            have hih : i < head := by omega
            have := hclosed i hih x
            rw [hie] at this
            exact this hw
      rintro ⟨n, hn⟩
      exact hto (hall n toId hn)

/-- Correctness of `isReachable` on terminating runs: the boolean result is
`true` exactly when the target is reachable. -/
theorem isReachable_correct (fromId toId : NodeId) (succ : NodeId → List NodeId)
    (fuel : Nat) (b : Bool) (h : isReachable fromId toId succ fuel = some b) :
    (b = true ↔ Reaches succ fromId toId) := by
  unfold isReachable at h
  split at h
  · next heq =>
    subst heq
    simp at h
    subst h
    simpa using ⟨0, ReachN.refl⟩
  · next hne =>
    have h3 : ∀ x ∈ [fromId], Reaches succ fromId x := by
      intro x hx
      simp at hx
      subst hx
      exact ⟨0, ReachN.refl⟩
    have h5 : toId ∉ [fromId] := by
      intro hc
      simp at hc
      exact hne hc.symm
    obtain ⟨c1, c2⟩ := irLoop_spec fromId toId succ fuel [fromId] [fromId] 0 b
      (by simp) (by simp) h3 (by simp) h5 (by omega) h
    constructor
    · exact c1
    · intro hr
      cases b with
      | true => rfl
      | false => exact absurd hr (c2 rfl)

theorem aset_length_new {κ ν : Type} [DecidableEq κ] (m : List (κ × ν)) (k : κ)
    (v : ν) (h : alookup m k = none) : (aset m k v).length = m.length + 1 := by
  induction m with
  | nil => rfl
  | cons p rest ih =>
    obtain ⟨pk, pv⟩ := p
    by_cases hp : pk = k
    · subst hp
      simp [alookup] at h
    · simp only [alookup, if_neg hp] at h
      simp [aset, hp, ih h]

/-- Crossing-the-frontier argument for BFS optimality: at the moment an
unseen target is discovered from the node `u` currently being processed, the
parent depth of `u` plus one is a lower bound for the length of every walk
from the source to the target. -/
theorem sp_cross (fromId toId u : NodeId) (succ : NodeId → List NodeId)
    (seen q : List NodeId) (head : Nat) (dm : NodeId → Nat)
    (hsq : ∀ x, x ∈ seen ↔ x ∈ q)
    (hnodup : q.Nodup)
    (hlt : head < q.length)
    (hu : q.getD head [] = u)
    (hfrom : fromId ∈ q) (hdm0 : dm fromId = 0)
    (hmono : ∀ i j, i ≤ j → j < q.length → dm (q.getD i []) ≤ dm (q.getD j []))
    (hband : ∀ j, j < q.length → dm (q.getD j []) ≤ dm u + 1)
    (hopt : ∀ i, i < head → ∀ w ∈ succ (q.getD i []),
      w ∈ seen ∧ dm w ≤ dm (q.getD i []) + 1)
    (hto : toId ∉ seen) :
    ∀ n, ReachN succ fromId toId n → dm u + 1 ≤ n := by
  have hidx : ∀ y ∈ q, ∃ j, j < q.length ∧ q.getD j [] = y := by
    intro y hy
    obtain ⟨j, hj, hjy⟩ := List.getElem_of_mem hy
    exact ⟨j, hj, by rw [List.getD_eq_getElem _ _ hj, hjy]⟩
  have hunproc : ∀ y ∈ seen, (¬∃ i, i < head ∧ q.getD i [] = y) → dm u ≤ dm y := by
    intro y hy hnp
    obtain ⟨j, hj, hjy⟩ := hidx y ((hsq y).mp hy)
    have hjge : head ≤ j := by
      by_contra hc
      exact hnp ⟨j, by omega, hjy⟩
    have := hmono head j hjge hj
    rw [hu, hjy] at this
    exact this
  have hseenband : ∀ x ∈ seen, dm x ≤ dm u + 1 := by
    intro x hx
    obtain ⟨j, hj, hjx⟩ := hidx x ((hsq x).mp hx)
    have := hband j hj
    rwa [hjx] at this
  have claim : ∀ n x, ReachN succ fromId x n →
      (x ∈ seen → dm x ≤ n) ∧
      (x ∉ seen → 1 ≤ n ∧ ∃ w, w ∈ seen ∧
        (¬∃ i, i < head ∧ q.getD i [] = w) ∧ dm w ≤ n - 1) := by
    intro n
    induction n with
    | zero =>
      intro x hx
      cases hx
      constructor
      · intro _
        omega
      · intro hc
        exact absurd ((hsq fromId).mpr hfrom) hc
    | succ n ihn =>
      intro x hx
      cases hx with
      | step hy hw =>
        rename_i y
        obtain ⟨ihL, ihR⟩ := ihn y hy
        constructor
        · intro hxs
          by_cases hys : y ∈ seen
          · by_cases hproc : ∃ i, i < head ∧ q.getD i [] = y
            · obtain ⟨i, hi, hiy⟩ := hproc
              have := (hopt i hi x (by rw [hiy]; exact hw)).2
              rw [hiy] at this
              have hyn := ihL hys
              omega
            · have h1 := hunproc y hys hproc
              have h2 := hseenband x hxs
              have hyn := ihL hys
              omega
          · obtain ⟨hn1, w, hws, hwp, hwd⟩ := ihR hys
            have h1 := hunproc w hws hwp
            have h2 := hseenband x hxs
            omega
        · intro hxs
          refine ⟨by omega, ?_⟩
          by_cases hys : y ∈ seen
          · by_cases hproc : ∃ i, i < head ∧ q.getD i [] = y
            · obtain ⟨i, hi, hiy⟩ := hproc
              have := (hopt i hi x (by rw [hiy]; exact hw)).1
              exact absurd this hxs
            · exact ⟨y, hys, hproc, by have := ihL hys; omega⟩
          · obtain ⟨hn1, w, hws, hwp, hwd⟩ := ihR hys
            exact ⟨w, hws, hwp, by omega⟩
  intro n hn
  obtain ⟨hn1, w, hws, hwp, hwd⟩ := (claim n toId hn).2 hto
  have := hunproc w hws hwp
  omega

/-- Length of the reconstructed parent chain: one more than the ghost depth
of the starting node, plus the accumulator. -/
theorem spRecon_length (parent : List (NodeId × NodeId)) (fromId : NodeId)
    (dm : NodeId → Nat) (S : NodeId → Prop)
    (hfromNone : alookup parent fromId = none)
    (hdm0 : dm fromId = 0)
    (hstruct : ∀ v, S v → v ≠ fromId →
      ∃ w, alookup parent v = some w ∧ S w ∧ dm v = dm w + 1) :
    ∀ k v, dm v ≤ k → S v → ∀ fuel, dm v ≤ fuel → ∀ acc,
      (spRecon parent fuel v acc).length = dm v + 1 + acc.length := by
  intro k
  induction k with
  | zero =>
    intro v hvk hS fuel hfuel acc
    by_cases hvf : v = fromId
    · subst hvf
      cases fuel with
      | zero => simp [spRecon]; omega
      | succ f =>
        unfold spRecon
        rw [hfromNone]
        simp
        omega
    · obtain ⟨w, hpw, hSw, hd⟩ := hstruct v hS hvf
      omega
  | succ k ihk =>
    intro v hvk hS fuel hfuel acc
    by_cases hvf : v = fromId
    · subst hvf
      cases fuel with
      | zero => simp [spRecon]; omega
      | succ f =>
        unfold spRecon
        rw [hfromNone]
        simp
        omega
    · obtain ⟨w, hpw, hSw, hd⟩ := hstruct v hS hvf
      cases fuel with
      | zero => omega
      | succ f =>
        unfold spRecon
        rw [hpw]
        have := ihk w (by omega) hSw f (by omega) (v :: acc)
        rw [this]
        simp
        omega

theorem getD_snoc_last (q : List NodeId) (v : NodeId) :
    (q ++ [v]).getD q.length [] = v := by
  rw [List.getD_eq_getElem _ _ (by simp)]
  simp

theorem getD_snoc_lt (q : List NodeId) (v : NodeId) {j : Nat} (h : j < q.length) :
    (q ++ [v]).getD j [] = q.getD j [] :=
  List.getD_append _ _ _ _ h

/-- Inner-loop specification for `shortestPath`: discovering the target
returns a path no longer than any walk to the target, and completing the
scan preserves the breadth-first invariants while marking every processed
successor as seen at depth at most one more than the dequeued node. -/
theorem spInner_spec (fromId toId u : NodeId) (succ : NodeId → List NodeId)
    (head : Nat) :
    ∀ (vs seen : List NodeId) (parent : List (NodeId × NodeId))
      (q : List NodeId) (dm : NodeId → Nat),
    (∀ x, x ∈ seen ↔ x ∈ q) →
    q.Nodup →
    head < q.length →
    q.getD head [] = u →
    fromId ∈ q → dm fromId = 0 → alookup parent fromId = none →
    (∀ v ∈ q, v ≠ fromId → ∃ w, alookup parent v = some w ∧ w ∈ q ∧
      v ∈ succ w ∧ dm v = dm w + 1) →
    (∀ i j, i ≤ j → j < q.length → dm (q.getD i []) ≤ dm (q.getD j [])) →
    (∀ j, j < q.length → dm (q.getD j []) ≤ dm u + 1) →
    (∀ i, i < head → ∀ w ∈ succ (q.getD i []),
      w ∈ seen ∧ dm w ≤ dm (q.getD i []) + 1) →
    toId ∉ seen →
    (∀ x, (alookup parent x).isSome = true → x ∈ seen) →
    (∀ v ∈ q, dm v ≤ parent.length) →
    (∀ x ∈ q, Reaches succ fromId x) →
    (∀ v ∈ vs, v ∈ succ u) →
    (∀ p, shortestPathInner toId u vs (seen, parent, q) = .inr p →
      Reaches succ fromId toId ∧
        ∀ n, ReachN succ fromId toId n → p.length ≤ n + 1) ∧
    (∀ seen' parent' q',
      shortestPathInner toId u vs (seen, parent, q) = .inl (seen', parent', q') →
      ∃ dm' : NodeId → Nat,
        (∀ x, x ∈ seen' ↔ x ∈ q') ∧ q'.Nodup ∧ (∃ d, q' = q ++ d) ∧
        head < q'.length ∧ q'.getD head [] = u ∧
        fromId ∈ q' ∧ dm' fromId = 0 ∧ alookup parent' fromId = none ∧
        (∀ v ∈ q', v ≠ fromId → ∃ w, alookup parent' v = some w ∧ w ∈ q' ∧
          v ∈ succ w ∧ dm' v = dm' w + 1) ∧
        (∀ i j, i ≤ j → j < q'.length →
          dm' (q'.getD i []) ≤ dm' (q'.getD j [])) ∧
        (∀ j, j < q'.length → dm' (q'.getD j []) ≤ dm' u + 1) ∧
        (∀ i, i < head → ∀ w ∈ succ (q'.getD i []),
          w ∈ seen' ∧ dm' w ≤ dm' (q'.getD i []) + 1) ∧
        toId ∉ seen' ∧
        (∀ x, (alookup parent' x).isSome = true → x ∈ seen') ∧
        (∀ v ∈ q', dm' v ≤ parent'.length) ∧
        (∀ x ∈ q', Reaches succ fromId x) ∧
        (∀ w ∈ vs, w ∈ seen' ∧ dm' w ≤ dm' u + 1) ∧
        (∀ x ∈ seen, x ∈ seen') ∧ (∀ x ∈ seen, dm' x = dm x)) := by
  intro vs
  induction vs with
  | nil =>
    intro seen parent q dm hsq hnodup hlt hu hfrom hdm0 hpfrom hstruct hmono
      hband hopt hto hpdom hdlen hreach hvs
    constructor
    · intro p hp
      exact absurd hp (by simp [shortestPathInner])
    · intro seen' parent' q' h
      simp only [shortestPathInner, Sum.inl.injEq, Prod.mk.injEq] at h
      obtain ⟨rfl, rfl, rfl⟩ := h
      exact ⟨dm, hsq, hnodup, ⟨[], by simp⟩, hlt, hu, hfrom, hdm0, hpfrom,
        hstruct, hmono, hband, hopt, hto, hpdom, hdlen, hreach, by simp,
        fun x hx => hx, fun x _ => rfl⟩
  | cons v vs ih =>
    intro seen parent q dm hsq hnodup hlt hu hfrom hdm0 hpfrom hstruct hmono
      hband hopt hto hpdom hdlen hreach hvs
    have hidx : ∀ y ∈ q, ∃ j, j < q.length ∧ q.getD j [] = y := by
      intro y hy
      obtain ⟨j, hj, hjy⟩ := List.getElem_of_mem hy
      exact ⟨j, hj, by rw [List.getD_eq_getElem _ _ hj, hjy]⟩
    have hseenband : ∀ x ∈ seen, dm x ≤ dm u + 1 := by
      intro x hx
      obtain ⟨j, hj, hjx⟩ := hidx x ((hsq x).mp hx)
      have := hband j hj
      rwa [hjx] at this
    have humem : u ∈ q := hu ▸ getD_mem_of_lt hlt
    have huseen : u ∈ seen := (hsq u).mpr humem
    by_cases hv : v ∈ seen
    · have hstep : shortestPathInner toId u (v :: vs) (seen, parent, q) =
          shortestPathInner toId u vs (seen, parent, q) := by
        conv_lhs => rw [shortestPathInner]
        rw [if_pos hv]
      rw [hstep]
      obtain ⟨c1, c2⟩ := ih seen parent q dm hsq hnodup hlt hu hfrom hdm0
        hpfrom hstruct hmono hband hopt hto hpdom hdlen hreach
        (fun w hw => hvs w (List.mem_cons_of_mem _ hw))
      refine ⟨c1, ?_⟩
      intro seen' parent' q' h
      obtain ⟨dm', d1, d2, d3, d4, d5, d6, d7, d8, d9, d10, d11, d12, d13,
        d14, d15, d16, d17, d18, d19⟩ := c2 seen' parent' q' h
      refine ⟨dm', d1, d2, d3, d4, d5, d6, d7, d8, d9, d10, d11, d12, d13,
        d14, d15, d16, ?_, d18, d19⟩
      intro w hw
      rcases List.mem_cons.mp hw with rfl | hw2
      · refine ⟨d18 w hv, ?_⟩
        rw [d19 w hv, d19 u huseen]
        exact hseenband w hv
      · exact d17 w hw2
    · have hvsucc : v ∈ succ u := hvs v (List.mem_cons_self v vs)
      have hvq : v ∉ q := fun hc => hv ((hsq v).mpr hc)
      have hvfrom : v ≠ fromId := fun hc => hv (hc ▸ (hsq fromId).mpr hfrom)
      have hvu : v ≠ u := fun hc => hv (hc ▸ huseen)
      have hfromv : fromId ≠ v := fun hc => hvfrom hc.symm
      have hun : u ≠ v := fun hc => hvu hc.symm
      have hpv : alookup parent v = none := by
        cases hc : alookup parent v with
        | none => rfl
        | some w =>
          exact absurd (hpdom v (by rw [hc]; rfl)) hv
      have hreachv : Reaches succ fromId v := by
        obtain ⟨n, hn⟩ := hreach u humem
        exact ⟨n + 1, hn.step hvsucc⟩
      by_cases hvt : v = toId
      · subst hvt
        have hstep : shortestPathInner v u (v :: vs) (seen, parent, q) =
            .inr (spRecon (aset parent v u) ((aset parent v u).length + 1)
              v []) := by
          conv_lhs => rw [shortestPathInner]
          rw [if_neg hv]
          simp
        rw [hstep]
        constructor
        · intro p hp
          simp only [Sum.inr.injEq] at hp
          subst hp
          refine ⟨hreachv, ?_⟩
          intro n hn
          have hcross := sp_cross fromId v u succ seen q head dm hsq hnodup
            hlt hu hfrom hdm0 hmono hband hopt hv n hn
          have hlen : (spRecon (aset parent v u) ((aset parent v u).length + 1)
              v []).length =
              (if v = v then dm u + 1 else dm v) + 1 + ([] : List NodeId).length := by
            apply spRecon_length (aset parent v u) fromId
              (fun x => if x = v then dm u + 1 else dm x)
              (fun x => x ∈ q ∨ x = v)
            · rw [alookup_aset_ne _ _ _ _ hvfrom]
              exact hpfrom
            · rw [if_neg hfromv]
              exact hdm0
            · intro x hS hxf
              rcases hS with hxq | rfl
              · have hxv : x ≠ v := fun hc => hvq (hc ▸ hxq)
                obtain ⟨w, hw1, hw2, hw3, hw4⟩ := hstruct x hxq hxf
                have hwv : w ≠ v := fun hc => hvq (hc ▸ hw2)
                refine ⟨w, ?_, Or.inl hw2, ?_⟩
                · rw [alookup_aset_ne _ _ _ _ (fun hc => hxv hc.symm)]
                  exact hw1
                · rw [if_neg hxv, if_neg hwv]
                  exact hw4
              · refine ⟨u, alookup_aset_self _ _ _, Or.inl humem, ?_⟩
                rw [if_pos rfl, if_neg hun]
            · exact Nat.le_refl _
            · exact Or.inr rfl
            · rw [if_pos rfl]
              have h1 : (aset parent v u).length = parent.length + 1 :=
                aset_length_new _ _ _ hpv
              have h2 : dm u ≤ parent.length := hdlen u humem
              omega
          have : (if (v : NodeId) = v then dm u + 1 else dm v) = dm u + 1 := by
            rw [if_pos rfl]
          rw [this] at hlen
          simp at hlen
          omega
        · intro seen' parent' q' h
          cases h
      · have hstep : shortestPathInner toId u (v :: vs) (seen, parent, q) =
            shortestPathInner toId u vs
              (sadd seen v, aset parent v u, q ++ [v]) := by
          conv_lhs => rw [shortestPathInner]
          rw [if_neg hv]
          simp [hvt]
        rw [hstep]
        set dm1 : NodeId → Nat := fun x => if x = v then dm u + 1 else dm x
          with hdm1
        have hdm1v : dm1 v = dm u + 1 := by rw [hdm1]; simp
        have hdm1ne : ∀ x, x ≠ v → dm1 x = dm x := by
          intro x hx
          rw [hdm1]
          simp [hx]
        have hqmem_ne : ∀ x ∈ q, x ≠ v := fun x hx hc => hvq (hc ▸ hx)
        have hplen : (aset parent v u).length = parent.length + 1 :=
          aset_length_new _ _ _ hpv
        have h1' : ∀ x, x ∈ sadd seen v ↔ x ∈ q ++ [v] := by
          intro x
          rw [mem_sadd]
          simp [hsq x]
          tauto
        have h2' : (q ++ [v]).Nodup := by
          refine List.Nodup.append hnodup (List.nodup_singleton v) ?_
          intro a ha hb
          simp at hb
          subst hb
          exact hvq ha
        have h3' : head < (q ++ [v]).length := by simp; omega
        have h4' : (q ++ [v]).getD head [] = u := by
          rw [getD_snoc_lt _ _ hlt]
          exact hu
        have h5' : fromId ∈ q ++ [v] := List.mem_append.mpr (Or.inl hfrom)
        have h6' : dm1 fromId = 0 := by rw [hdm1ne _ hfromv]; exact hdm0
        have h7' : alookup (aset parent v u) fromId = none := by
          rw [alookup_aset_ne _ _ _ _ hvfrom]
          exact hpfrom
        have h8' : ∀ x ∈ q ++ [v], x ≠ fromId →
            ∃ w, alookup (aset parent v u) x = some w ∧ w ∈ q ++ [v] ∧
              x ∈ succ w ∧ dm1 x = dm1 w + 1 := by
          intro x hx hxf
          rcases List.mem_append.mp hx with hxq | hxv
          · obtain ⟨w, hw1, hw2, hw3, hw4⟩ := hstruct x hxq hxf
            refine ⟨w, ?_, List.mem_append.mpr (Or.inl hw2), hw3, ?_⟩
            · rw [alookup_aset_ne _ _ _ _
                (fun hc => hqmem_ne x hxq hc.symm)]
              exact hw1
            · rw [hdm1ne _ (hqmem_ne x hxq), hdm1ne _ (hqmem_ne w hw2)]
              exact hw4
          · simp at hxv
            subst hxv
            refine ⟨u, alookup_aset_self _ _ _,
              List.mem_append.mpr (Or.inl humem), hvsucc, ?_⟩
            rw [hdm1v, hdm1ne _ hun]
        have hgd : ∀ j, j < q.length → (q ++ [v]).getD j [] = q.getD j [] :=
          fun j hj => getD_snoc_lt _ _ hj
        have hgdmem : ∀ j, j < q.length → q.getD j [] ∈ q :=
          fun j hj => getD_mem_of_lt hj
        have h9' : ∀ i j, i ≤ j → j < (q ++ [v]).length →
            dm1 ((q ++ [v]).getD i []) ≤ dm1 ((q ++ [v]).getD j []) := by
          intro i j hij hj
          simp at hj
          by_cases hjq : j < q.length
          · rw [hgd i (by omega), hgd j hjq,
              hdm1ne _ (hqmem_ne _ (hgdmem i (by omega))),
              hdm1ne _ (hqmem_ne _ (hgdmem j hjq))]
            exact hmono i j hij hjq
          · have hje : j = q.length := by omega
            subst hje
            rw [getD_snoc_last, hdm1v]
            by_cases hiq : i < q.length
            · rw [hgd i hiq, hdm1ne _ (hqmem_ne _ (hgdmem i hiq))]
              exact hband i hiq
            · have hie : i = q.length := by omega
              subst hie
              rw [getD_snoc_last, hdm1v]
        have h10' : ∀ j, j < (q ++ [v]).length →
            dm1 ((q ++ [v]).getD j []) ≤ dm1 u + 1 := by
          intro j hj
          simp at hj
          rw [hdm1ne _ hun]
          by_cases hjq : j < q.length
          · rw [hgd j hjq, hdm1ne _ (hqmem_ne _ (hgdmem j hjq))]
            exact hband j hjq
          · have hje : j = q.length := by omega
            subst hje
            rw [getD_snoc_last, hdm1v]
        have h11' : ∀ i, i < head → ∀ w ∈ succ ((q ++ [v]).getD i []),
            w ∈ sadd seen v ∧ dm1 w ≤ dm1 ((q ++ [v]).getD i []) + 1 := by
          intro i hi w hw
          rw [hgd i (by omega)] at hw ⊢
          obtain ⟨hw1, hw2⟩ := hopt i hi w hw
          have hwv : w ≠ v := fun hc => hv (hc ▸ hw1)
          refine ⟨(mem_sadd _ _ _).mpr (Or.inr hw1), ?_⟩
          rw [hdm1ne _ hwv, hdm1ne _ (hqmem_ne _ (hgdmem i (by omega)))]
          exact hw2
        have h12' : toId ∉ sadd seen v := by
          rw [mem_sadd]
          rintro (h1 | h2)
          · exact hvt h1.symm
          · exact hto h2
        have h13' : ∀ x, (alookup (aset parent v u) x).isSome = true →
            x ∈ sadd seen v := by
          intro x hx
          by_cases hxv : x = v
          · subst hxv
            rw [mem_sadd]
            exact Or.inl rfl
          · rw [alookup_aset_ne _ _ _ _ (fun hc => hxv hc.symm)] at hx
            rw [mem_sadd]
            exact Or.inr (hpdom x hx)
        have h14' : ∀ x ∈ q ++ [v], dm1 x ≤ (aset parent v u).length := by
          intro x hx
          rw [hplen]
          rcases List.mem_append.mp hx with hxq | hxv
          · rw [hdm1ne _ (hqmem_ne x hxq)]
            have := hdlen x hxq
            omega
          · simp at hxv
            subst hxv
            rw [hdm1v]
            have := hdlen u humem
            omega
        have h15' : ∀ x ∈ q ++ [v], Reaches succ fromId x := by
          intro x hx
          rcases List.mem_append.mp hx with hxq | hxv
          · exact hreach x hxq
          · simp at hxv
            subst hxv
            exact hreachv
        obtain ⟨c1, c2⟩ := ih (sadd seen v) (aset parent v u) (q ++ [v]) dm1
          h1' h2' h3' h4' h5' h6' h7' h8' h9' h10' h11' h12' h13' h14' h15'
          (fun w hw => hvs w (List.mem_cons_of_mem _ hw))
        refine ⟨c1, ?_⟩
        intro seen' parent' q' h
        obtain ⟨dm', d1, d2, ⟨d, hd⟩, d4, d5, d6, d7, d8, d9, d10, d11, d12,
          d13, d14, d15, d16, d17, d18, d19⟩ := c2 seen' parent' q' h
        have hsmono : ∀ x ∈ seen, x ∈ sadd seen v :=
          fun x hx => (mem_sadd _ _ _).mpr (Or.inr hx)
        have hdmagree : ∀ x ∈ seen, dm' x = dm x := by
          intro x hx
          rw [d19 x (hsmono x hx)]
          exact hdm1ne x (fun hc => hv (hc ▸ hx))
        refine ⟨dm', d1, d2, ⟨[v] ++ d, by rw [hd]; simp⟩, d4, d5, d6, d7,
          d8, d9, d10, d11, d12, d13, d14, d15, d16, ?_, ?_, hdmagree⟩
        · intro w hw
          rcases List.mem_cons.mp hw with rfl | hw2
          · refine ⟨d18 w ((mem_sadd _ _ _).mpr (Or.inl rfl)), ?_⟩
            rw [d19 w ((mem_sadd _ _ _).mpr (Or.inl rfl)), hdm1v,
              d19 u (hsmono u huseen), hdm1ne _ hun]
          · exact d17 w hw2
        · intro x hx
          exact d18 x (hsmono x hx)

/-- Loop specification for `shortestPath`: on a terminating run, a returned
path is at most as long (in nodes) as one plus the length of any walk to the
target, and a `null` result means the target is unreachable. -/
theorem spLoop_spec (fromId toId : NodeId) (succ : NodeId → List NodeId) :
    ∀ (fuel : Nat) (seen : List NodeId) (parent : List (NodeId × NodeId))
      (q : List NodeId) (head : Nat) (dm : NodeId → Nat)
      (r : Option (List NodeId)),
    (∀ x, x ∈ seen ↔ x ∈ q) → q.Nodup → head ≤ q.length →
    fromId ∈ q → dm fromId = 0 → alookup parent fromId = none →
    (∀ v ∈ q, v ≠ fromId → ∃ w, alookup parent v = some w ∧ w ∈ q ∧
      v ∈ succ w ∧ dm v = dm w + 1) →
    (∀ i j, i ≤ j → j < q.length → dm (q.getD i []) ≤ dm (q.getD j [])) →
    (head < q.length → ∀ j, j < q.length →
      dm (q.getD j []) ≤ dm (q.getD head []) + 1) →
    (∀ i, i < head → ∀ w ∈ succ (q.getD i []),
      w ∈ seen ∧ dm w ≤ dm (q.getD i []) + 1) →
    toId ∉ seen →
    (∀ x, (alookup parent x).isSome = true → x ∈ seen) →
    (∀ v ∈ q, dm v ≤ parent.length) →
    (∀ x ∈ q, Reaches succ fromId x) →
    shortestPathLoop succ toId fuel seen parent q head = some r →
    (∀ p, r = some p → Reaches succ fromId toId ∧
      ∀ n, ReachN succ fromId toId n → p.length ≤ n + 1) ∧
    (r = none → ¬Reaches succ fromId toId) := by
  intro fuel
  induction fuel with
  | zero =>
    intro seen parent q head dm r _ _ _ _ _ _ _ _ _ _ _ _ _ _ h
    cases h
  | succ fuel ihf =>
    intro seen parent q head dm r hsq hnodup hhead hfrom hdm0 hpfrom hstruct
      hmono hband hopt hto hpdom hdlen hreach h
    unfold shortestPathLoop at h
    split at h
    · next hlt =>
      obtain ⟨c1, c2⟩ := spInner_spec fromId toId (q.getD head []) succ head
        (succ (q.getD head [])) seen parent q dm hsq hnodup hlt rfl hfrom
        hdm0 hpfrom hstruct hmono (hband hlt) hopt hto hpdom hdlen hreach
        (fun v hv => hv)
      cases hinner : shortestPathInner toId (q.getD head [])
          (succ (q.getD head [])) (seen, parent, q) with
      | inr p =>
        rw [hinner] at h
        simp at h
        subst h
        obtain ⟨e1, e2⟩ := c1 p hinner
        constructor
        · intro p' hp'
          simp at hp'
          subst hp'
          exact ⟨e1, e2⟩
        · intro hc
          cases hc
      | inl st =>
        obtain ⟨seen', parent', q'⟩ := st
        rw [hinner] at h
        obtain ⟨dm', d1, d2, ⟨d, hd⟩, d4, d5, d6, d7, d8, d9, d10, d11, d12,
          d13, d14, d15, d16, d17, d18, d19⟩ := c2 seen' parent' q' hinner
        refine ihf seen' parent' q' (head + 1) dm' r d1 d2 ?_ d6 d7 d8 d9 d10
          ?_ ?_ d13 d14 d15 d16 h
        · omega
        · intro hlt2 j hj
          have h1 := d11 j hj
          have h2 : dm' (q.getD head []) ≤ dm' (q'.getD (head + 1) []) := by
            have := d10 head (head + 1) (by omega) hlt2
            rwa [d5] at this
          omega
        · intro i hi w hw
          by_cases hih : i < head
          · exact d12 i hih w hw
          · have hie : i = head := by omega
            subst hie
            rw [d5] at hw
            rw [d5]
            exact d17 w hw
    · next hge =>
      simp at h
      subst h
      constructor
      · intro p hp
        cases hp
      · intro _
        have hall : ∀ n x, ReachN succ fromId x n → x ∈ seen := by
          intro n
          induction n with
          | zero =>
            intro x hx
            cases hx
            exact (hsq fromId).mpr hfrom
          | succ n ihn =>
            intro x hx
            cases hx with
            | step hy hw =>
              rename_i y
              have hy2 : y ∈ q := (hsq y).mp (ihn y hy)
              obtain ⟨i, hi, hiy⟩ := List.getElem_of_mem hy2
              have hie : q.getD i [] = y := by
                rw [List.getD_eq_getElem _ _ hi, hiy]
              have hih : i < head := by omega
              have := (hopt i hih x (by rw [hie]; exact hw)).1
              exact this
        rintro ⟨n, hn⟩
        exact hto (hall n toId hn)

/-- Top-level specification of `shortestPath` on terminating runs: a
returned path has at most one more node than any walk between the
endpoints has edges, and `null` means unreachable. -/
theorem shortestPath_spec (fromId toId : NodeId) (succ : NodeId → List NodeId)
    (fuel : Nat) (r : Option (List NodeId))
    (h : shortestPath fromId toId succ fuel = some r) :
    (∀ p, r = some p → Reaches succ fromId toId ∧
      ∀ n, ReachN succ fromId toId n → p.length ≤ n + 1) ∧
    (r = none → ¬Reaches succ fromId toId) := by
  unfold shortestPath at h
  split at h
  · next heq =>
    subst heq
    simp at h
    subst h
    constructor
    · intro p hp
      simp at hp
      subst hp
      refine ⟨⟨0, ReachN.refl⟩, ?_⟩
      intro n _
      simp
    · intro hc
      cases hc
  · next hne =>
    refine spLoop_spec fromId toId succ fuel [fromId] [] [fromId] 0
      (fun _ => 0) r (by simp) (by simp) (by simp) (by simp) rfl rfl ?_
      (by simp) (by simp) (by omega) ?_ (by simp [alookup]) (by simp) ?_ h
    · intro v hv hvf
      simp at hv
      exact absurd hv hvf
    · intro hc
      simp at hc
      exact hne hc.symm
    · intro x hx
      simp at hx
      subst hx
      exact ⟨0, ReachN.refl⟩

/-- C9: on terminating runs of both algorithms, `shortestPath` returns a
path exactly when `isReachable` returns `true`. -/
theorem shortestPath_iff_isReachable (fromId toId : NodeId)
    (succ : NodeId → List NodeId) (f1 f2 : Nat) (r : Option (List NodeId))
    (b : Bool)
    (h1 : shortestPath fromId toId succ f1 = some r)
    (h2 : isReachable fromId toId succ f2 = some b) :
    (r.isSome = true ↔ b = true) := by
  obtain ⟨c1, c2⟩ := shortestPath_spec fromId toId succ f1 r h1
  have hb := isReachable_correct fromId toId succ f2 b h2
  cases r with
  | none =>
    simp
    cases b with
    | false => rfl
    | true => exact absurd (hb.mp rfl) (c2 rfl)
  | some p =>
    simp
    exact hb.mpr (c1 p rfl).1

/-- Witness for C9 on a concrete two-node graph. -/
theorem shortestPath_iff_isReachable_witness :
    (shortestPath ['a'] ['b'] (fun v => if v = ['a'] then [['b']] else []) 5 =
      some (some [['a'], ['b']]) ∧
     isReachable ['a'] ['b'] (fun v => if v = ['a'] then [['b']] else []) 5 =
      some true) ∧
    ((some [['a'], ['b']] : Option (List NodeId)).isSome = true ↔
      (true : Bool) = true) :=
  ⟨⟨rfl, rfl⟩,
    shortestPath_iff_isReachable ['a'] ['b']
      (fun v => if v = ['a'] then [['b']] else []) 5 5 (some [['a'], ['b']])
      true rfl rfl⟩

/-- Soundness of the `findAllPaths` DFS: every path it records beyond the
incoming accumulator is a genuine walk from the source to the target. -/
theorem findAllPathsDfs_sound (toId : NodeId) (succ : NodeId → List NodeId)
    (maxDepth : Int) (fromId : NodeId) :
    (∀ (u : NodeId) (path : List NodeId) (depth : Int) (visited : List NodeId)
      (paths : List (List NodeId)),
      1 ≤ path.length → ReachN succ fromId u (path.length - 1) →
      ∀ l ∈ (findAllPathsDfs toId succ maxDepth u path depth visited paths).2,
        l ∈ paths ∨ (1 ≤ l.length ∧ ReachN succ fromId toId (l.length - 1))) ∧
    (∀ (u : NodeId) (path : List NodeId) (depth : Int) (visited : List NodeId)
      (paths : List (List NodeId)) (vs : List NodeId),
      1 ≤ path.length → ReachN succ fromId u (path.length - 1) →
      (∀ v ∈ vs, v ∈ succ u) →
      ∀ l ∈ (findAllPathsDfsList toId succ maxDepth u path depth visited paths
        vs).2,
        l ∈ paths ∨ (1 ≤ l.length ∧ ReachN succ fromId toId (l.length - 1))) := by
  apply findAllPathsDfs.mutual_induct toId succ maxDepth
    (fun u path depth visited paths =>
      1 ≤ path.length → ReachN succ fromId u (path.length - 1) →
      ∀ l ∈ (findAllPathsDfs toId succ maxDepth u path depth visited paths).2,
        l ∈ paths ∨ (1 ≤ l.length ∧ ReachN succ fromId toId (l.length - 1)))
    (fun u path depth visited paths vs =>
      1 ≤ path.length → ReachN succ fromId u (path.length - 1) →
      (∀ v ∈ vs, v ∈ succ u) →
      ∀ l ∈ (findAllPathsDfsList toId succ maxDepth u path depth visited paths
        vs).2,
        l ∈ paths ∨ (1 ≤ l.length ∧ ReachN succ fromId toId (l.length - 1)))
  · intro u path depth visited paths hgt hlen hr l hl
    unfold findAllPathsDfs at hl
    rw [if_pos hgt] at hl
    exact Or.inl hl
  · intro path depth visited paths hgt hlen hr l hl
    unfold findAllPathsDfs at hl
    rw [if_neg hgt, if_pos rfl] at hl
    simp at hl
    rcases hl with hl | hl
    · exact Or.inl hl
    · subst hl
      exact Or.inr ⟨hlen, hr⟩
  · intro u path depth visited paths hgt hne ih hlen hr l hl
    unfold findAllPathsDfs at hl
    rw [if_neg hgt, if_neg hne] at hl
    exact ih hlen hr (fun v hv => hv) l hl
  · intro u path depth visited paths hlen hr hvs l hl
    unfold findAllPathsDfsList at hl
    exact Or.inl hl
  · intro u path depth visited paths v rest hv ih hlen hr hvs l hl
    have hstep : findAllPathsDfsList toId succ maxDepth u path depth visited
        paths (v :: rest) =
        findAllPathsDfsList toId succ maxDepth u path depth visited paths
          rest := by
      conv_lhs => rw [findAllPathsDfsList]
      rw [if_pos hv]
    rw [hstep] at hl
    exact ih hlen hr (fun w hw => hvs w (List.mem_cons_of_mem _ hw)) l hl
  · intro u path depth visited paths v rest hv r ih1 ih2 hlen hr hvs l hl
    have hstep : findAllPathsDfsList toId succ maxDepth u path depth visited
        paths (v :: rest) =
        findAllPathsDfsList toId succ maxDepth u path depth (r.1.erase v) r.2
          rest := by
      conv_lhs => rw [findAllPathsDfsList]
      rw [if_neg hv]
    rw [hstep] at hl
    have hrv : ReachN succ fromId v ((path ++ [v]).length - 1) := by
      have h1 : (path ++ [v]).length - 1 = (path.length - 1) + 1 := by
        simp
        omega
      rw [h1]
      exact hr.step (hvs v (List.mem_cons_self v rest))
    have := ih2 hlen hr (fun w hw => hvs w (List.mem_cons_of_mem _ hw)) l hl
    rcases this with hl2 | hgood
    · exact ih1 (by simp) hrv l hl2
    · exact Or.inr hgood

/-- Every path returned by `findAllPaths` is a walk from the source to the
target with one fewer edge than it has nodes. -/
theorem findAllPaths_sound (fromId toId : NodeId) (succ : NodeId → List NodeId)
    (maxDepth : Int) (l : List (List NodeId))
    (h : findAllPaths fromId toId succ maxDepth = .ok l) :
    ∀ q ∈ l, 1 ≤ q.length ∧ ReachN succ fromId toId (q.length - 1) := by
  unfold findAllPaths at h
  split at h
  · cases h
  · simp only [Except.ok.injEq] at h
    subst h
    intro q hq
    have := (findAllPathsDfs_sound toId succ maxDepth fromId).1 fromId [fromId]
      0 [fromId] [] (by simp) (by simpa using ReachN.refl) q hq
    rcases this with h1 | h2
    · simp at h1
    · exact h2

/-- C7: on terminating runs, a path returned by `shortestPath` is never
longer than any path enumerated by `findAllPaths` for the same endpoints. -/
theorem shortestPath_le_findAllPaths (fromId toId : NodeId)
    (succ : NodeId → List NodeId) (maxDepth : Int) (fuel : Nat)
    (p q : List NodeId) (l : List (List NodeId))
    (hmd : 0 ≤ maxDepth)
    (h1 : shortestPath fromId toId succ fuel = some (some p))
    (h2 : findAllPaths fromId toId succ maxDepth = .ok l)
    (hq : q ∈ l) : p.length ≤ q.length := by
  obtain ⟨c1, _⟩ := shortestPath_spec fromId toId succ fuel (some p) h1
  obtain ⟨e1, e2⟩ := c1 p rfl
  obtain ⟨hq1, hq2⟩ := findAllPaths_sound fromId toId succ maxDepth l h2 q hq
  have := e2 (q.length - 1) hq2
  omega

/-- Witness for C7 on a concrete two-node graph. -/
theorem shortestPath_le_findAllPaths_witness :
    ((0 : Int) ≤ 5 ∧
      shortestPath ['a'] ['b'] (fun v => if v = ['a'] then [['b']] else []) 5 =
        some (some [['a'], ['b']]) ∧
      findAllPaths ['a'] ['b'] (fun v => if v = ['a'] then [['b']] else []) 5 =
        .ok [[['a'], ['b']]] ∧
      ([['a'], ['b']] : List NodeId) ∈ [[['a'], ['b']]]) ∧
    ([['a'], ['b']] : List NodeId).length ≤ ([['a'], ['b']] : List NodeId).length :=
  ⟨⟨by omega, rfl,
    by simp +decide [findAllPaths, findAllPathsDfs, findAllPathsDfsList, sadd],
    by decide⟩,
    shortestPath_le_findAllPaths ['a'] ['b']
      (fun v => if v = ['a'] then [['b']] else []) 5 5 [['a'], ['b']]
      [['a'], ['b']] [[['a'], ['b']]] (by omega) rfl
      (by simp +decide [findAllPaths, findAllPathsDfs, findAllPathsDfsList, sadd])
      (by decide)⟩

/-! Engine analyses: well-formedness of API-built graphs, Kahn topological
sort, and Tarjan strongly-connected components. -/

/-- Node keys of the engine's node map, in insertion order. -/
def DirectedGraph.nodeKeys {α β : Type} (g : DirectedGraph α β) : List NodeId :=
  g.nodes.map Prod.fst

/-- Successors as stored, defaulting to empty. -/
def adjOfG {α β : Type} (g : DirectedGraph α β) (u : NodeId) : List NodeId :=
  (alookup g.adjacencyList u).getD []

/-- Well-formedness invariants the engine maintains on every state reachable
through its public constructor and mutators. -/
structure Wf {α β : Type} (g : DirectedGraph α β) : Prop where
  keysNodup : g.nodeKeys.Nodup
  adjDom : ∀ k, (alookup g.adjacencyList k).isSome = true ↔ k ∈ g.nodeKeys
  radjDom : ∀ k, (alookup g.reverseAdjacencyList k).isSome = true ↔ k ∈ g.nodeKeys
  adjVals : ∀ u s, alookup g.adjacencyList u = some s →
    s.Nodup ∧ ∀ v ∈ s, v ∈ g.nodeKeys
  radjVals : ∀ u s, alookup g.reverseAdjacencyList u = some s →
    s.Nodup ∧ ∀ v ∈ s, v ∈ g.nodeKeys
  mirror : ∀ u v, v ∈ adjOfG g u ↔ u ∈ (alookup g.reverseAdjacencyList v).getD []
  edgeIdx : ∀ u v, g.hasEdge u v = true ↔ v ∈ adjOfG g u
  edgesOk : ∀ p ∈ g.edges, p.2.toId ∈ adjOfG g p.2.fromId ∧
    p.2.fromId ∈ g.nodeKeys ∧ p.2.toId ∈ g.nodeKeys

/-- Graph states reachable through the public API. -/
inductive Built {α β : Type} : DirectedGraph α β → Prop
  | base (opts : GraphOptions) : Built (DirectedGraph.mk0 α β opts)
  | node {g : DirectedGraph α β} (id : NodeId) (md : Option α) :
      Built g → Built (g.addNode id md).1
  | edge {g : DirectedGraph α β} (f t : NodeId) (md : Option β) :
      Built g → Built (g.addEdge f t md).1

/-- A strongly connected component record. -/
structure SCC where
  id : Nat
  nodes : List NodeId
  isAcyclic : Bool
deriving DecidableEq

/-- Tarjan traversal state. -/
structure TarjanSt where
  index : List (NodeId × Nat)
  lowlink : List (NodeId × Nat)
  onStack : List NodeId
  stack : List NodeId
  current : Nat
  sccs : List SCC
deriving DecidableEq

/-- Pop the stack down to and including `v` (stack top is the list head). -/
def popUntil (v : NodeId) : List NodeId → List NodeId × List NodeId
  | [] => ([], [])
  | w :: rest =>
    if w = v then ([w], rest)
    else
      let pr := popUntil v rest
      (w :: pr.1, pr.2)

mutual
/-- Tarjan `strongConnect`, fuelled on recursion depth.  The non-null map
accesses of the source are modelled with a default of `0`, which the
invariants show is never used. -/
def strongConnect (succ : NodeId → List NodeId) (hasE : NodeId → NodeId → Bool) :
    Nat → NodeId → TarjanSt → Option TarjanSt
  | 0, _, _ => none
  | fuel + 1, v, s =>
    let s1 : TarjanSt := { s with
      index := aset s.index v s.current,
      lowlink := aset s.lowlink v s.current,
      current := s.current + 1,
      stack := v :: s.stack,
      onStack := sadd s.onStack v }
    match processSuccs succ hasE fuel v (succ v) s1 with
    | none => none
    | some s2 =>
      if alookup s2.lowlink v = alookup s2.index v then
        let pr := popUntil v s2.stack
        let scc : SCC := { id := s2.sccs.length, nodes := pr.1,
                           isAcyclic := decide (pr.1.length = 1) && !(hasE v v) }
        some { s2 with
          stack := pr.2,
          onStack := pr.1.foldl (fun os w => os.erase w) s2.onStack,
          sccs := s2.sccs ++ [scc] }
      else some s2
termination_by fuel v s => (fuel, 0)

/-- The `for (const successor of successors)` loop of `strongConnect`. -/
def processSuccs (succ : NodeId → List NodeId) (hasE : NodeId → NodeId → Bool) :
    Nat → NodeId → List NodeId → TarjanSt → Option TarjanSt
  | _, _, [], s => some s
  | fuel, v, w :: ws, s =>
    if (alookup s.index w).isNone then
      match strongConnect succ hasE fuel w s with
      | none => none
      | some s' =>
        let ll := aset s'.lowlink v
          (min ((alookup s'.lowlink v).getD 0) ((alookup s'.lowlink w).getD 0))
        processSuccs succ hasE fuel v ws { s' with lowlink := ll }
    else if w ∈ s.onStack then
      let ll := aset s.lowlink v
        (min ((alookup s.lowlink v).getD 0) ((alookup s.index w).getD 0))
      processSuccs succ hasE fuel v ws { s with lowlink := ll }
    else processSuccs succ hasE fuel v ws s
termination_by fuel v ws s => (fuel, ws.length + 1)
end

/-- Root loop of `findSCCs` over the node keys. -/
def findSCCsLoop (succ : NodeId → List NodeId) (hasE : NodeId → NodeId → Bool)
    (fuel : Nat) : List NodeId → TarjanSt → Option TarjanSt
  | [], s => some s
  | k :: ks, s =>
    if (alookup s.index k).isNone then
      match strongConnect succ hasE fuel k s with
      | none => none
      | some s' => findSCCsLoop succ hasE fuel ks s'
    else findSCCsLoop succ hasE fuel ks s

/-- Tarjan SCC computation, mirroring `findSCCs`; `none` only when the fuel
bound is exceeded, which the sufficiency lemma rules out. -/
def DirectedGraph.findSCCs {α β : Type} (g : DirectedGraph α β) :
    Option (List SCC) :=
  match findSCCsLoop g.getSuccessors g.hasEdge (g.nodeKeys.length + 1)
    g.nodeKeys ⟨[], [], [], [], 0, []⟩ with
  | none => none
  | some s => some s.sccs

/-- Decrement pass of Kahn's algorithm over the successors of the dequeued
node, pushing nodes whose in-degree reaches zero. -/
def kahnDecr {K : Type} [DecidableEq K] :
    List (K × Int) → List K → List K → List (K × Int) × List K
  | inDeg, q, [] => (inDeg, q)
  | inDeg, q, v :: vs =>
    let nd := (alookup inDeg v).getD 0 - 1
    kahnDecr (aset inDeg v nd) (if nd = 0 then q ++ [v] else q) vs

/-- The fuelled pointer-queue loop of Kahn's algorithm, generic in the key
type so that it serves both the node-level and the component-level sort. -/
def kahnLoop {K : Type} [DecidableEq K] (adjOf : K → List K) (d : K) :
    Nat → List (K × Int) → List K → Nat → List K → Option (List K)
  | 0, _, _, _, _ => none
  | fuel + 1, inDeg, q, head, result =>
    if head < q.length then
      let u := q.getD head d
      let dq := kahnDecr inDeg q (adjOf u)
      kahnLoop adjOf d fuel dq.1 dq.2 (head + 1) (result ++ [u])
    else some result

/-- Kahn topological sort, mirroring `topologicalSort`.  The outer `Option`
is fuel exhaustion (ruled out by the sufficiency lemma), the inner one is
the JS `null` result on cyclic graphs. -/
def DirectedGraph.topologicalSort {α β : Type} (g : DirectedGraph α β) :
    Option (Option (List NodeId)) :=
  let inDeg := g.nodeKeys.foldl (fun m k => aset m k
    (((alookup g.reverseAdjacencyList k).map
      (fun s => (s.length : Int))).getD 0)) []
  let queue := (inDeg.filter (fun p => p.2 = 0)).map Prod.fst
  match kahnLoop g.getSuccessors [] (g.nodeKeys.length + 1) inDeg queue 0 [] with
  | none => none
  | some result =>
    some (if result.length = g.nodes.length then some result else none)
/-! Additional association-list and set lemmas for the Kahn and Tarjan
developments. -/

theorem alookup_isSome_iff {κ ν : Type} [DecidableEq κ] (m : List (κ × ν)) (k : κ) :
    (alookup m k).isSome = true ↔ k ∈ m.map Prod.fst := by
  induction m with
  | nil => simp [alookup]
  | cons p rest ih =>
    obtain ⟨pk, pv⟩ := p
    by_cases h : pk = k
    · subst h
      simp [alookup]
    · simp only [alookup, if_neg h, List.map_cons, List.mem_cons, ih]
      constructor
      · exact fun hk => Or.inr hk
      · rintro (hk | hk)
        · exact absurd hk.symm h
        · exact hk

theorem alookup_eq_none_iff {κ ν : Type} [DecidableEq κ] (m : List (κ × ν)) (k : κ) :
    alookup m k = none ↔ k ∉ m.map Prod.fst := by
  rw [← alookup_isSome_iff]
  cases alookup m k <;> simp

theorem aset_keys_new {κ ν : Type} [DecidableEq κ] (m : List (κ × ν)) (k : κ)
    (v : ν) (h : alookup m k = none) :
    (aset m k v).map Prod.fst = m.map Prod.fst ++ [k] := by
  induction m with
  | nil => rfl
  | cons p rest ih =>
    obtain ⟨pk, pv⟩ := p
    simp only [alookup] at h
    by_cases hp : pk = k
    · simp [hp] at h
    · simp only [if_neg hp] at h
      simp [aset, hp, ih h]

theorem aset_keys_mem {κ ν : Type} [DecidableEq κ] (m : List (κ × ν)) (k : κ)
    (v : ν) (h : (alookup m k).isSome = true) :
    (aset m k v).map Prod.fst = m.map Prod.fst := by
  induction m with
  | nil => simp [alookup] at h
  | cons p rest ih =>
    obtain ⟨pk, pv⟩ := p
    by_cases hp : pk = k
    · subst hp
      simp [aset]
    · simp only [alookup, if_neg hp] at h
      simp [aset, hp, ih h]

theorem mem_aset {κ ν : Type} [DecidableEq κ] (m : List (κ × ν)) (k : κ) (v : ν)
    (p : κ × ν) (h : p ∈ aset m k v) : p ∈ m ∨ p = (k, v) := by
  induction m with
  | nil => simpa [aset] using h
  | cons q rest ih =>
    obtain ⟨qk, qv⟩ := q
    by_cases hq : qk = k
    · subst hq
      simp only [aset, if_pos rfl] at h
      rcases List.mem_cons.mp h with rfl | h2
      · exact Or.inr rfl
      · exact Or.inl (List.mem_cons_of_mem _ h2)
    · simp only [aset, if_neg hq] at h
      rcases List.mem_cons.mp h with rfl | h2
      · exact Or.inl (List.mem_cons_self _ _)
      · rcases ih h2 with h3 | h3
        · exact Or.inl (List.mem_cons_of_mem _ h3)
        · exact Or.inr h3

theorem aset_new_eq_append {κ ν : Type} [DecidableEq κ] (m : List (κ × ν)) (k : κ)
    (v : ν) (h : alookup m k = none) : aset m k v = m ++ [(k, v)] := by
  induction m with
  | nil => rfl
  | cons p rest ih =>
    obtain ⟨pk, pv⟩ := p
    simp only [alookup] at h
    by_cases hp : pk = k
    · simp [hp] at h
    · simp only [if_neg hp] at h
      simp [aset, hp, ih h]

theorem alookup_mem {κ ν : Type} [DecidableEq κ] (m : List (κ × ν)) (k : κ) (v : ν)
    (h : alookup m k = some v) : (k, v) ∈ m := by
  induction m with
  | nil => simp [alookup] at h
  | cons p rest ih =>
    obtain ⟨pk, pv⟩ := p
    by_cases hp : pk = k
    · subst hp
      simp [alookup] at h
      subst h
      exact List.mem_cons_self _ _
    · simp only [alookup, if_neg hp] at h
      exact List.mem_cons_of_mem _ (ih h)

theorem alookup_append_left {κ ν : Type} [DecidableEq κ] (m m' : List (κ × ν))
    (k : κ) (v : ν) (h : alookup m k = some v) :
    alookup (m ++ m') k = some v := by
  induction m with
  | nil => simp [alookup] at h
  | cons p rest ih =>
    obtain ⟨pk, pv⟩ := p
    by_cases hp : pk = k
    · subst hp
      simp [alookup] at h
      simp [alookup, h]
    · simp only [alookup, if_neg hp] at h
      simpa [alookup, hp] using ih h

theorem mem_foldl_erase {α : Type} [BEq α] [LawfulBEq α] :
    ∀ (l : List α) (s : List α), s.Nodup →
    (List.foldl (fun os w => os.erase w) s l).Nodup ∧
    ∀ x, x ∈ List.foldl (fun os w => os.erase w) s l ↔ x ∈ s ∧ x ∉ l := by
  intro l
  induction l with
  | nil => intro s hs; exact ⟨hs, by simp⟩
  | cons w ws ih =>
    intro s hs
    obtain ⟨h1, h2⟩ := ih (s.erase w) (hs.erase w)
    refine ⟨h1, fun x => ?_⟩
    rw [List.foldl_cons, h2 x, List.Nodup.mem_erase_iff hs]
    simp only [List.mem_cons]
    constructor
    · rintro ⟨⟨hxw, hxs⟩, hxws⟩
      exact ⟨hxs, fun h => h.elim hxw hxws⟩
    · rintro ⟨hxs, hn⟩
      exact ⟨⟨fun h => hn (Or.inl h), hxs⟩, fun h => hn (Or.inr h)⟩

theorem popUntil_spec (v : NodeId) : ∀ (τ rest : List NodeId), v ∉ τ →
    popUntil v (τ ++ v :: rest) = (τ ++ [v], rest) := by
  intro τ
  induction τ with
  | nil => intro rest _; simp [popUntil]
  | cons w ws ih =>
    intro rest hv
    have hwv : w ≠ v := fun h => hv (h ▸ List.mem_cons_self _ _)
    have h2 := ih rest (fun h => hv (List.mem_cons_of_mem _ h))
    simp only [List.cons_append, popUntil, if_neg hwv]
    rw [show ws.append (v :: rest) = ws ++ v :: rest from rfl, h2]
/-! Generic walks over a successor function, used to state acyclicity for
both the node-level graph and the component-level condensation graph. -/

/-- A walk of exactly `n` steps along `adj`. -/
inductive WalkN {K : Type} (adj : K → List K) : K → K → Nat → Prop
  | refl (v : K) : WalkN adj v v 0
  | step {u v w : K} {n : Nat} :
      WalkN adj u v n → w ∈ adj v → WalkN adj u w (n + 1)

/-- No closed walk with at least one step. -/
def AcyclicF {K : Type} (adj : K → List K) : Prop :=
  ∀ v n, ¬ WalkN adj v v (n + 1)

theorem WalkN_trans {K : Type} {adj : K → List K} {u v w : K} {m n : Nat}
    (h1 : WalkN adj u v m) (h2 : WalkN adj v w n) : WalkN adj u w (m + n) := by
  induction h2 with
  | refl => exact h1
  | step h hw ih => exact (ih.step hw)

theorem WalkN_measure {K : Type} {adj : K → List K} (f : K → Nat)
    (hf : ∀ a b, b ∈ adj a → f b < f a) {u v : K} {n : Nat}
    (h : WalkN adj u v n) : f v + n ≤ f u := by
  induction h with
  | refl => omega
  | step h hw ih =>
    have := hf _ _ hw
    omega

theorem acyclicF_of_measure {K : Type} {adj : K → List K} (f : K → Nat)
    (hf : ∀ a b, b ∈ adj a → f b < f a) : AcyclicF adj := by
  intro v n h
  have := WalkN_measure f hf h
  omega

/-! Kahn's algorithm: spec of the decrement pass and of the pointer-queue
loop, generic in the key type. -/

/-- Number of predecessors of `k` among `allKeys` under `adjOf`. -/
def predCnt {K : Type} [DecidableEq K] (adjOf : K → List K) (allKeys : List K)
    (k : K) : Nat :=
  List.countP (fun j => decide (k ∈ adjOf j)) allKeys

/-- Number of already-processed predecessors of `k`: those in the processed
prefix of the queue. -/
def procCnt {K : Type} [DecidableEq K] (adjOf : K → List K) (q : List K)
    (head : Nat) (k : K) : Nat :=
  List.countP (fun j => decide (k ∈ adjOf j)) (q.take head)

theorem kahnDecr_spec {K : Type} [DecidableEq K] :
    ∀ (vs : List K) (inDeg : List (K × Int)) (q : List K), vs.Nodup →
    (∀ x, alookup (kahnDecr inDeg q vs).1 x =
      if x ∈ vs then some ((alookup inDeg x).getD 0 - 1) else alookup inDeg x) ∧
    (kahnDecr inDeg q vs).2 =
      q ++ vs.filter (fun v => (alookup inDeg v).getD 0 = 1) := by
  intro vs
  induction vs with
  | nil =>
    intro inDeg q _
    exact ⟨fun x => by simp [kahnDecr], by simp [kahnDecr]⟩
  | cons v vs ih =>
    intro inDeg q hnd
    have hv : v ∉ vs := (List.nodup_cons.mp hnd).1
    obtain ⟨ih1, ih2⟩ := ih (aset inDeg v ((alookup inDeg v).getD 0 - 1))
      (if (alookup inDeg v).getD 0 - 1 = 0 then q ++ [v] else q)
      (List.nodup_cons.mp hnd).2
    constructor
    · intro x
      show alookup (kahnDecr (aset inDeg v ((alookup inDeg v).getD 0 - 1)) _ vs).1 x = _
      rw [ih1 x]
      by_cases hxv : x = v
      · subst hxv
        rw [if_neg hv, alookup_aset_self, if_pos (List.mem_cons_self _ _)]
      · rw [alookup_aset_ne _ _ _ _ (fun h => hxv h.symm)]
        by_cases hxvs : x ∈ vs
        · rw [if_pos hxvs, if_pos (List.mem_cons_of_mem _ hxvs)]
        · rw [if_neg hxvs, if_neg (by
            intro h
            rcases List.mem_cons.mp h with h | h
            · exact hxv h
            · exact hxvs h)]
    · show (kahnDecr (aset inDeg v ((alookup inDeg v).getD 0 - 1)) _ vs).2 = _
      rw [ih2]
      have hfc : vs.filter
          (fun w => decide ((alookup (aset inDeg v ((alookup inDeg v).getD 0 - 1)) w).getD 0 = 1)) =
          vs.filter (fun w => decide ((alookup inDeg w).getD 0 = 1)) := by
        apply List.filter_congr
        intro w hw
        have hwv : v ≠ w := fun h => hv (h ▸ hw)
        rw [alookup_aset_ne _ _ _ _ hwv]
      by_cases h0 : (alookup inDeg v).getD 0 - 1 = 0
      · have h1 : (alookup inDeg v).getD 0 = 1 := by omega
        rw [if_pos h0]
        rw [show ((v :: vs).filter (fun w => decide ((alookup inDeg w).getD 0 = 1))) =
          v :: vs.filter (fun w => decide ((alookup inDeg w).getD 0 = 1)) from
          List.filter_cons_of_pos (by simpa using h1)]
        rw [hfc]
        simp
      · have h1 : ¬((alookup inDeg v).getD 0 = 1) := by omega
        rw [if_neg h0]
        rw [show ((v :: vs).filter (fun w => decide ((alookup inDeg w).getD 0 = 1))) =
          vs.filter (fun w => decide ((alookup inDeg w).getD 0 = 1)) from
          List.filter_cons_of_neg (by simpa using h1)]
        rw [hfc]
theorem getD_mem {K : Type} (q : List K) (i : Nat) (d : K) (h : i < q.length) :
    q.getD i d ∈ q := by
  rw [List.getD_eq_getElem _ _ h]
  exact List.getElem_mem h

theorem indexOf_append_left {K : Type} [DecidableEq K] :
    ∀ (l : List K) (t : List K) (x : K), x ∈ l →
    (l ++ t).indexOf x = l.indexOf x := by
  intro l
  induction l with
  | nil => intro t x h; simp at h
  | cons a as ih =>
    intro t x h
    by_cases hax : a = x
    · subst hax
      simp [List.indexOf_cons]
    · rcases List.mem_cons.mp h with rfl | h2
      · exact absurd rfl hax
      · simp [List.indexOf_cons, hax, ih t x h2]

theorem indexOf_append_right {K : Type} [DecidableEq K] :
    ∀ (l : List K) (t : List K) (x : K), x ∉ l →
    (l ++ t).indexOf x = l.length + t.indexOf x := by
  intro l
  induction l with
  | nil => intro t x h; simp
  | cons a as ih =>
    intro t x h
    have hax : a ≠ x := fun hh => h (hh ▸ List.mem_cons_self _ _)
    have h2 : x ∉ as := fun hh => h (List.mem_cons_of_mem _ hh)
    simp only [List.cons_append, List.indexOf_cons, List.length_cons,
      beq_false_of_ne hax, cond_false, ih t x h2]
    omega

theorem indexOf_lt_of_mem_take {K : Type} [DecidableEq K] :
    ∀ (l : List K) (n : Nat) (x : K), x ∈ l.take n → l.indexOf x < n := by
  intro l
  induction l with
  | nil => intro n x h; simp at h
  | cons a as ih =>
    intro n x h
    cases n with
    | zero => simp at h
    | succ n =>
      rw [List.take_succ_cons] at h
      by_cases hax : a = x
      · subst hax
        simp [List.indexOf_cons]
      · rcases List.mem_cons.mp h with rfl | h2
        · exact absurd rfl hax
        · simp only [List.indexOf_cons, beq_false_of_ne hax, cond_false]
          have := ih n x h2
          omega

/-- If a duplicate-free sublist already accounts for the full `countP` of a
duplicate-free superlist, it contains every element of the superlist
satisfying the predicate. -/
theorem mem_of_countP_full {K : Type} [DecidableEq K] (P : K → Bool)
    (sub big : List K) (hsn : sub.Nodup) (hbn : big.Nodup)
    (hss : ∀ x ∈ sub, x ∈ big) (hc : big.countP P ≤ sub.countP P)
    (x : K) (hx : x ∈ big) (hP : P x = true) : x ∈ sub := by
  by_contra hns
  have h1 : (x :: sub).Nodup := List.nodup_cons.mpr ⟨hns, hsn⟩
  have h3 : List.Subperm (x :: sub) big := h1.subperm (by
    intro y hy
    rcases List.mem_cons.mp hy with rfl | h2
    · exact hx
    · exact hss y h2)
  have h4 := List.Subperm.countP_le P h3
  rw [List.countP_cons, hP] at h4
  simp at h4
  omega

/-- Loop invariant of Kahn's pointer-queue loop. -/
structure KInv {K : Type} [DecidableEq K] (adjOf : K → List K) (allKeys : List K)
    (inDeg : List (K × Int)) (q : List K) (head : Nat) : Prop where
  qSub : ∀ x ∈ q, x ∈ allKeys
  qNodup : q.Nodup
  headLe : head ≤ q.length
  cnt : ∀ k ∈ allKeys, alookup inDeg k =
    some ((predCnt adjOf allKeys k : Int) - (procCnt adjOf q head k : Int))
  pending : ∀ k ∈ allKeys, k ∉ q →
    (procCnt adjOf q head k : Int) < (predCnt adjOf allKeys k : Int)
  enq : ∀ k ∈ q, ∀ dd, alookup inDeg k = some dd → dd ≤ 0
  ordered : ∀ k ∈ q, ∀ j ∈ allKeys, k ∈ adjOf j →
    j ∈ q ∧ q.indexOf j < q.indexOf k ∧ q.indexOf j < head

/-- Running the Kahn loop from any invariant state with enough fuel
terminates in a final state satisfying the invariant with the whole queue
processed; the returned list is the final queue. -/
theorem kahnLoop_run {K : Type} [DecidableEq K] (adjOf : K → List K) (d : K)
    (allKeys : List K) (hak : allKeys.Nodup)
    (hadj : ∀ k ∈ allKeys, (adjOf k).Nodup ∧ ∀ w ∈ adjOf k, w ∈ allKeys) :
    ∀ (fuel : Nat) (inDeg : List (K × Int)) (q : List K) (head : Nat),
    KInv adjOf allKeys inDeg q head →
    allKeys.length + 1 ≤ fuel + head →
    ∃ qf inDegf, kahnLoop adjOf d fuel inDeg q head (q.take head) = some qf ∧
      KInv adjOf allKeys inDegf qf qf.length := by
  intro fuel
  induction fuel with
  | zero =>
    intro inDeg q head hI hf
    exfalso
    have h1 : q.length ≤ allKeys.length :=
      (hI.qNodup.subperm hI.qSub).length_le
    have h2 := hI.headLe
    omega
  | succ fuel ih =>
    intro inDeg q head hI hf
    by_cases hlt : head < q.length
    · have hstep : kahnLoop adjOf d (fuel + 1) inDeg q head (q.take head) =
          kahnLoop adjOf d fuel (kahnDecr inDeg q (adjOf (q.getD head d))).1
            (kahnDecr inDeg q (adjOf (q.getD head d))).2 (head + 1)
            (q.take head ++ [q.getD head d]) := by
        show (if head < q.length then _ else _) = _
        rw [if_pos hlt]
      have hu : q.getD head d ∈ q := getD_mem q head d hlt
      have huak : q.getD head d ∈ allKeys := hI.qSub _ hu
      obtain ⟨hund, husub⟩ := hadj _ huak
      obtain ⟨kd1, kd2⟩ := kahnDecr_spec (adjOf (q.getD head d)) inDeg q hund
      set u := q.getD head d with hudef
      set nw := (adjOf u).filter (fun v => decide ((alookup inDeg v).getD 0 = 1)) with hnw
      have hnwsub : ∀ x ∈ nw, x ∈ adjOf u := fun x hx => List.mem_of_mem_filter hx
      have hnwq : ∀ x ∈ nw, x ∉ q := by
        intro x hx hxq
        have h1 : (alookup inDeg x).getD 0 = 1 := by
          have := List.of_mem_filter hx
          simpa using this
        cases hal : alookup inDeg x with
        | none => rw [hal] at h1; simp at h1
        | some dd =>
          have h2 := hI.enq x hxq dd hal
          rw [hal] at h1
          simp at h1
          omega
      have hq1 : (kahnDecr inDeg q (adjOf u)).2 = q ++ nw := kd2
      have htkq : q.take (head + 1) = q.take head ++ [u] := by
        rw [List.take_succ, List.getElem?_eq_getElem hlt]
        have : q[head] = u := by
          rw [hudef, List.getD_eq_getElem _ _ hlt]
        rw [this]
        rfl
      have htk : (q ++ nw).take (head + 1) = q.take head ++ [u] := by
        rw [List.take_append_of_le_length (by omega), htkq]
      have hproc : ∀ k, procCnt adjOf (q ++ nw) (head + 1) k =
          procCnt adjOf q head k + (if k ∈ adjOf u then 1 else 0) := by
        intro k
        unfold procCnt
        rw [htk, htkq.symm, List.take_succ, List.getElem?_eq_getElem hlt,
          List.countP_append]
        have : q[head] = u := by
          rw [hudef, List.getD_eq_getElem _ _ hlt]
        rw [this]
        by_cases h : k ∈ adjOf u <;> simp [h, List.countP_cons]
      have hq1nd : (q ++ nw).Nodup :=
        List.Nodup.append hI.qNodup (hund.filter _) (fun a ha hb => hnwq a hb ha)
      have hIq1 : KInv adjOf allKeys (kahnDecr inDeg q (adjOf u)).1 (q ++ nw)
          (head + 1) := by
        refine ⟨?_, hq1nd, ?_, ?_, ?_, ?_, ?_⟩
        · intro x hx
          rcases List.mem_append.mp hx with hx | hx
          · exact hI.qSub x hx
          · exact husub x (hnwsub x hx)
        · rw [List.length_append]; omega
        · intro k hk
          rw [kd1 k, hproc k]
          by_cases hmem : k ∈ adjOf u
          · rw [if_pos hmem, if_pos hmem, hI.cnt k hk]
            simp only [Option.getD_some, Option.some.injEq]
            push_cast
            ring
          · rw [if_neg hmem, if_neg hmem, hI.cnt k hk]
            simp only [Option.some.injEq]
            push_cast
            ring
        · intro k hk hknq
          have hkq : k ∉ q := fun h => hknq (List.mem_append.mpr (Or.inl h))
          have hknw : k ∉ nw := fun h => hknq (List.mem_append.mpr (Or.inr h))
          have hp := hI.pending k hk hkq
          rw [hproc k]
          by_cases hmem : k ∈ adjOf u
          · rw [if_pos hmem]
            have hne1 : ¬((alookup inDeg k).getD 0 = 1) := by
              intro h1
              exact hknw (List.mem_filter.mpr ⟨hmem, by simpa using h1⟩)
            rw [hI.cnt k hk] at hne1
            simp only [Option.getD_some] at hne1
            push_cast
            omega
          · rw [if_neg hmem]
            push_cast
            omega
        · intro k hkq1 dd hdd
          rw [kd1 k] at hdd
          rcases List.mem_append.mp hkq1 with hkq | hknw
          · by_cases hmem : k ∈ adjOf u
            · rw [if_pos hmem] at hdd
              cases hal : alookup inDeg k with
              | none => rw [hal] at hdd; simp at hdd; omega
              | some d0 =>
                have h2 := hI.enq k hkq d0 hal
                rw [hal] at hdd
                simp at hdd
                omega
            · rw [if_neg hmem] at hdd
              exact hI.enq k hkq dd hdd
          · have h1 : (alookup inDeg k).getD 0 = 1 := by
              have := List.of_mem_filter hknw
              simpa using this
            rw [if_pos (hnwsub k hknw)] at hdd
            simp only [Option.some.injEq] at hdd
            omega
        · intro k hkq1 j hj hkadj
          rcases List.mem_append.mp hkq1 with hkq | hknw
          · obtain ⟨hjq, hji, hjh⟩ := hI.ordered k hkq j hj hkadj
            refine ⟨List.mem_append.mpr (Or.inl hjq), ?_, ?_⟩
            · rw [indexOf_append_left q nw j hjq, indexOf_append_left q nw k hkq]
              exact hji
            · rw [indexOf_append_left q nw j hjq]
              omega
          · have hkval : (alookup inDeg k).getD 0 = 1 := by
              have := List.of_mem_filter hknw
              simpa using this
            have hkak : k ∈ allKeys := husub k (hnwsub k hknw)
            rw [hI.cnt k hkak] at hkval
            simp only [Option.getD_some] at hkval
            have hcn : predCnt adjOf allKeys k = procCnt adjOf q head k + 1 := by
              exact_mod_cast (by omega :
                (predCnt adjOf allKeys k : Int) = (procCnt adjOf q head k : Int) + 1)
            have hpref : ∀ i ∈ allKeys, k ∈ adjOf i → i ∈ q.take head ++ [u] := by
              intro i hi hik
              have hnd2 : (q.take head ++ [u]).Nodup :=
                htkq ▸ ((List.take_sublist _ _).nodup hI.qNodup)
              have hsub2 : ∀ x ∈ q.take head ++ [u], x ∈ allKeys := by
                intro x hx
                rcases List.mem_append.mp hx with hx | hx
                · exact hI.qSub x (List.mem_of_mem_take hx)
                · simp only [List.mem_singleton] at hx
                  subst hx
                  exact huak
              have hcnt2 : allKeys.countP (fun j => decide (k ∈ adjOf j)) ≤
                  (q.take head ++ [u]).countP (fun j => decide (k ∈ adjOf j)) := by
                have e1 : (q.take head ++ [u]).countP
                    (fun j => decide (k ∈ adjOf j)) =
                    procCnt adjOf (q ++ nw) (head + 1) k := by
                  unfold procCnt
                  rw [htk]
                have e2 : procCnt adjOf (q ++ nw) (head + 1) k =
                    procCnt adjOf q head k + 1 := by
                  rw [hproc k, if_pos (hnwsub k hknw)]
                rw [e1, e2]
                show predCnt adjOf allKeys k ≤ _
                omega
              exact mem_of_countP_full _ _ allKeys hnd2 hak hsub2 hcnt2 i hi
                (by simpa using hik)
            have hjpref := hpref j hj hkadj
            rw [← htkq] at hjpref
            have hjq : j ∈ q := List.mem_of_mem_take hjpref
            have hjidx : q.indexOf j < head + 1 :=
              indexOf_lt_of_mem_take q (head + 1) j hjpref
            have hknq : k ∉ q := hnwq k hknw
            refine ⟨List.mem_append.mpr (Or.inl hjq), ?_, ?_⟩
            · rw [indexOf_append_left q nw j hjq, indexOf_append_right q nw k hknq]
              have := List.indexOf_lt_length.mpr hjq
              omega
            · rw [indexOf_append_left q nw j hjq]
              omega
      obtain ⟨qf, inDegf, hrun, hIf⟩ :=
        ih (kahnDecr inDeg q (adjOf u)).1 (q ++ nw) (head + 1) hIq1 (by omega)
      refine ⟨qf, inDegf, ?_, hIf⟩
      rw [hstep]
      rw [hq1]
      rw [htk] at hrun
      exact hrun
    · have hstep : kahnLoop adjOf d (fuel + 1) inDeg q head (q.take head) =
          some (q.take head) := by
        show (if head < q.length then _ else _) = _
        rw [if_neg hlt]
      have hhead : head = q.length := by
        have := hI.headLe
        omega
      refine ⟨q, inDeg, ?_, ?_⟩
      · rw [hstep, hhead]
        simp
      · subst hhead
        exact hI
/-- Counting in the other direction: if a duplicate-free sublist contains
every predicate-satisfying element of a duplicate-free superlist, its count
is at least the superlist's. -/
theorem countP_le_of_covers {K : Type} [DecidableEq K] (P : K → Bool)
    (sub big : List K) (hsn : sub.Nodup) (hbn : big.Nodup)
    (hcov : ∀ x ∈ big, P x = true → x ∈ sub) :
    big.countP P ≤ sub.countP P := by
  rw [List.countP_eq_length_filter, List.countP_eq_length_filter]
  refine List.Subperm.length_le ((hbn.filter P).subperm ?_)
  intro x hx
  exact List.mem_filter.mpr ⟨hcov x (List.mem_of_mem_filter hx)
    (List.of_mem_filter hx), List.of_mem_filter hx⟩

/-- A Kahn run that processed every key certifies acyclicity: the processing
position is strictly increasing along every edge. -/
theorem kahn_covers_acyclic {K : Type} [DecidableEq K] (adjOf : K → List K)
    (allKeys : List K) (qf : List K) (inDegf : List (K × Int))
    (hadj : ∀ k ∈ allKeys, (adjOf k).Nodup ∧ ∀ w ∈ adjOf k, w ∈ allKeys)
    (hdom : ∀ a b, b ∈ adjOf a → a ∈ allKeys)
    (hIf : KInv adjOf allKeys inDegf qf qf.length)
    (hcov : ∀ k ∈ allKeys, k ∈ qf) : AcyclicF adjOf := by
  apply acyclicF_of_measure (fun x => qf.length - qf.indexOf x)
  intro a b hb
  have ha : a ∈ allKeys := hdom a b hb
  have hbk : b ∈ allKeys := (hadj a ha).2 b hb
  have hbq : b ∈ qf := hcov b hbk
  obtain ⟨haq, hlt, _⟩ := hIf.ordered b hbq a ha hb
  have h1 : qf.indexOf b < qf.length := List.indexOf_lt_length.mpr hbq
  show qf.length - qf.indexOf b < qf.length - qf.indexOf a
  omega

/-- A Kahn run on an acyclic relation processes every key: otherwise the
unprocessed keys would all keep an unprocessed predecessor, which closes a
cycle by pigeonhole. -/
theorem kahn_acyclic_covers {K : Type} [DecidableEq K] (adjOf : K → List K)
    (allKeys : List K) (qf : List K) (inDegf : List (K × Int))
    (hak : allKeys.Nodup)
    (hadj : ∀ k ∈ allKeys, (adjOf k).Nodup ∧ ∀ w ∈ adjOf k, w ∈ allKeys)
    (hIf : KInv adjOf allKeys inDegf qf qf.length)
    (hacy : AcyclicF adjOf) : ∀ k ∈ allKeys, k ∈ qf := by
  by_contra hnc
  push_neg at hnc
  obtain ⟨k0, hk0a, hk0q⟩ := hnc
  -- every unprocessed key has an unprocessed predecessor
  have hstep : ∀ k ∈ allKeys, k ∉ qf → ∃ j, (j ∈ allKeys ∧ j ∉ qf) ∧ k ∈ adjOf j := by
    intro k hk hkq
    by_contra hno
    push_neg at hno
    have hall : ∀ x ∈ allKeys, (fun j => decide (k ∈ adjOf j)) x = true → x ∈ qf := by
      intro x hx hP
      by_contra hxq
      exact absurd (by simpa using hP) (by simpa using hno x ⟨hx, hxq⟩)
    have hle : predCnt adjOf allKeys k ≤ procCnt adjOf qf qf.length k := by
      unfold predCnt procCnt
      rw [List.take_length]
      exact countP_le_of_covers _ qf allKeys hIf.qNodup hak hall
    have := hIf.pending k hk hkq
    omega
  -- choice function stepping backwards through unprocessed predecessors
  classical
  let S : List K := allKeys.filter (fun x => decide (x ∉ qf))
  have hSmem : ∀ x, x ∈ S ↔ x ∈ allKeys ∧ x ∉ qf := by
    intro x
    simp [S, List.mem_filter]
  let F : K → K := fun k =>
    if h : ∃ j, (j ∈ allKeys ∧ j ∉ qf) ∧ k ∈ adjOf j then h.choose else k
  have hF : ∀ k ∈ S, F k ∈ S ∧ k ∈ adjOf (F k) := by
    intro k hk
    rw [hSmem] at hk
    have hex := hstep k hk.1 hk.2
    have hch := hex.choose_spec
    constructor
    · show (if h : _ then _ else _) ∈ S
      rw [dif_pos hex, hSmem]
      exact hch.1
    · show k ∈ adjOf (if h : _ then _ else _)
      rw [dif_pos hex]
      exact hch.2
  let g : Nat → K := fun n => F^[n] k0
  have hg0 : g 0 = k0 := rfl
  have hgS : ∀ n, g n ∈ S := by
    intro n
    induction n with
    | zero => rw [hg0, hSmem]; exact ⟨hk0a, hk0q⟩
    | succ n ihn =>
      have : g (n + 1) = F (g n) := Function.iterate_succ_apply' F n k0
      rw [this]
      exact (hF (g n) ihn).1
  have hgedge : ∀ n, g n ∈ adjOf (g (n + 1)) := by
    intro n
    have : g (n + 1) = F (g n) := Function.iterate_succ_apply' F n k0
    rw [this]
    exact (hF (g n) (hgS n)).2
  have hwalk : ∀ m i, WalkN adjOf (g (i + m)) (g i) m := by
    intro m
    induction m with
    | zero => intro i; exact WalkN.refl _
    | succ m ihm =>
      intro i
      have h1 : WalkN adjOf (g (i + 1 + m)) (g (i + 1)) m := ihm (i + 1)
      have he : i + 1 + m = i + (m + 1) := by omega
      rw [he] at h1
      exact WalkN.step h1 (hgedge i)
  have hfin : ∃ i j, i < j ∧ g i = g j := by
    have hmaps : ∀ n ∈ Finset.range (S.length + 1), g n ∈ S.toFinset :=
      fun n _ => List.mem_toFinset.mpr (hgS n)
    have hcard : S.toFinset.card < (Finset.range (S.length + 1)).card := by
      rw [Finset.card_range]
      have := S.toFinset_card_le
      omega
    obtain ⟨x, hx, y, hy, hxy, hgxy⟩ :=
      Finset.exists_ne_map_eq_of_card_lt_of_maps_to hcard hmaps
    rcases Nat.lt_or_ge x y with h | h
    · exact ⟨x, y, h, hgxy⟩
    · have h2 : y < x := lt_of_le_of_ne h (Ne.symm hxy)
      exact ⟨y, x, h2, hgxy.symm⟩
  obtain ⟨i, j, hij, hgij⟩ := hfin
  have hw := hwalk (j - i) i
  have he : i + (j - i) = j := by omega
  rw [he, ← hgij] at hw
  have he2 : j - i = (j - i - 1) + 1 := by omega
  rw [he2] at hw
  exact hacy (g i) (j - i - 1) hw
/-! Preservation of the engine invariants along the public API. -/

theorem sadd_pos {α : Type} [DecidableEq α] (s : List α) (x : α) :
    0 < (sadd s x).length := by
  unfold sadd
  split
  · next h => exact List.length_pos.mpr (fun hn => by simp [hn] at h)
  · simp

theorem adjOfG_dom {α β : Type} (g : DirectedGraph α β) (hw : Wf g) :
    ∀ a b, b ∈ adjOfG g a → a ∈ g.nodeKeys := by
  intro a b hb
  unfold adjOfG at hb
  cases hal : alookup g.adjacencyList a with
  | none => rw [hal] at hb; simp at hb
  | some s =>
    rw [← hw.adjDom a, hal]
    rfl

theorem adjOfG_props {α β : Type} (g : DirectedGraph α β) (hw : Wf g) :
    ∀ a, (adjOfG g a).Nodup ∧ ∀ b ∈ adjOfG g a, b ∈ g.nodeKeys := by
  intro a
  unfold adjOfG
  cases hal : alookup g.adjacencyList a with
  | none => simp
  | some s => simpa using hw.adjVals a s hal

theorem wf_mk0 (α β : Type) (opts : GraphOptions) : Wf (DirectedGraph.mk0 α β opts) := by
  refine ⟨?_, ?_, ?_, ?_, ?_, ?_, ?_, ?_⟩
  · simp [DirectedGraph.mk0, DirectedGraph.nodeKeys]
  · intro k; simp [DirectedGraph.mk0, DirectedGraph.nodeKeys, alookup]
  · intro k; simp [DirectedGraph.mk0, DirectedGraph.nodeKeys, alookup]
  · intro u s h; simp [DirectedGraph.mk0, alookup] at h
  · intro u s h; simp [DirectedGraph.mk0, alookup] at h
  · intro u v; simp [DirectedGraph.mk0, adjOfG, alookup]
  · intro u v; simp [DirectedGraph.mk0, DirectedGraph.hasEdge, adjOfG, alookup]
  · intro p hp; simp [DirectedGraph.mk0] at hp

theorem wf_addNode {α β : Type} (g : DirectedGraph α β) (id : NodeId)
    (md : Option α) (hw : Wf g) : Wf (g.addNode id md).1 := by
  unfold DirectedGraph.addNode
  by_cases hex : (alookup g.nodes id).isSome = true
  · rw [if_pos hex]
    exact hw
  · rw [if_neg hex]
    have hnone : alookup g.nodes id = none := by
      cases h : alookup g.nodes id with
      | none => rfl
      | some _ => rw [h] at hex; simp at hex
    have hidk : id ∉ g.nodeKeys := (alookup_eq_none_iff _ _).mp hnone
    have hkeys : (aset g.nodes id ⟨id, md⟩).map Prod.fst = g.nodeKeys ++ [id] :=
      aset_keys_new _ _ _ hnone
    have hadjid : alookup g.adjacencyList id = none := by
      rw [alookup_eq_none_iff]
      intro hmem
      exact hidk ((hw.adjDom id).mp ((alookup_isSome_iff _ _).mpr hmem))
    refine ⟨?_, ?_, ?_, ?_, ?_, ?_, ?_, ?_⟩
    · show (aset g.nodes id ⟨id, md⟩).map Prod.fst |>.Nodup
      rw [hkeys]
      exact List.Nodup.append hw.keysNodup (List.nodup_singleton id)
        (fun a ha hb => hidk ((List.mem_singleton.mp hb) ▸ ha))
    · intro k
      show (alookup (aset g.adjacencyList id []) k).isSome = true ↔
        k ∈ (aset g.nodes id ⟨id, md⟩).map Prod.fst
      rw [hkeys, alookup_aset]
      by_cases hk : id = k
      · subst hk
        simp
      · rw [if_neg hk]
        rw [hw.adjDom k]
        simp only [List.mem_append, List.mem_singleton]
        constructor
        · exact fun h => Or.inl h
        · rintro (h | h)
          · exact h
          · exact absurd h.symm hk
    · intro k
      show (alookup (aset g.reverseAdjacencyList id []) k).isSome = true ↔
        k ∈ (aset g.nodes id ⟨id, md⟩).map Prod.fst
      rw [hkeys, alookup_aset]
      by_cases hk : id = k
      · subst hk
        simp
      · rw [if_neg hk]
        rw [hw.radjDom k]
        simp only [List.mem_append, List.mem_singleton]
        constructor
        · exact fun h => Or.inl h
        · rintro (h | h)
          · exact h
          · exact absurd h.symm hk
    · intro u s h
      rw [alookup_aset] at h
      by_cases hk : id = u
      · rw [if_pos hk] at h
        cases h
        exact ⟨List.nodup_nil, by simp⟩
      · rw [if_neg hk] at h
        obtain ⟨h1, h2⟩ := hw.adjVals u s h
        refine ⟨h1, fun v hv => ?_⟩
        show v ∈ (aset g.nodes id ⟨id, md⟩).map Prod.fst
        rw [hkeys]
        exact List.mem_append.mpr (Or.inl (h2 v hv))
    · intro u s h
      rw [alookup_aset] at h
      by_cases hk : id = u
      · rw [if_pos hk] at h
        cases h
        exact ⟨List.nodup_nil, by simp⟩
      · rw [if_neg hk] at h
        obtain ⟨h1, h2⟩ := hw.radjVals u s h
        refine ⟨h1, fun v hv => ?_⟩
        show v ∈ (aset g.nodes id ⟨id, md⟩).map Prod.fst
        rw [hkeys]
        exact List.mem_append.mpr (Or.inl (h2 v hv))
    · intro u v
      show v ∈ (alookup (aset g.adjacencyList id []) u).getD [] ↔
        u ∈ (alookup (aset g.reverseAdjacencyList id []) v).getD []
      rw [alookup_aset, alookup_aset]
      by_cases hu : id = u
      · subst hu
        rw [if_pos rfl]
        by_cases hv : id = v
        · subst hv
          rw [if_pos rfl]
        · rw [if_neg hv]
          simp only [Option.getD_some, List.not_mem_nil, false_iff]
          intro hmem
          cases hrv : alookup g.reverseAdjacencyList v with
          | none => rw [hrv] at hmem; simp at hmem
          | some s =>
            rw [hrv] at hmem
            exact hidk ((hw.radjVals v s hrv).2 id hmem)
      · rw [if_neg hu]
        by_cases hv : id = v
        · subst hv
          rw [if_pos rfl]
          simp only [Option.getD_some, List.not_mem_nil, iff_false]
          intro hmem
          cases hav : alookup g.adjacencyList u with
          | none => rw [hav] at hmem; simp at hmem
          | some s =>
            rw [hav] at hmem
            exact hidk ((hw.adjVals u s hav).2 id hmem)
        · rw [if_neg hv]
          exact hw.mirror u v
    · intro u v
      show g.hasEdge u v = true ↔
        v ∈ (alookup (aset g.adjacencyList id []) u).getD []
      rw [alookup_aset]
      by_cases hu : id = u
      · subst hu
        rw [if_pos rfl]
        simp only [Option.getD_some, List.not_mem_nil, iff_false]
        intro hmem
        rw [hw.edgeIdx] at hmem
        unfold adjOfG at hmem
        rw [hadjid] at hmem
        simp at hmem
      · rw [if_neg hu]
        exact hw.edgeIdx u v
    · intro p hp
      obtain ⟨h1, h2, h3⟩ := hw.edgesOk p hp
      have hfne : id ≠ p.2.fromId := fun h => hidk (h ▸ h2)
      refine ⟨?_, ?_, ?_⟩
      · show p.2.toId ∈ (alookup (aset g.adjacencyList id []) p.2.fromId).getD []
        rw [alookup_aset, if_neg hfne]
        exact h1
      · show p.2.fromId ∈ (aset g.nodes id ⟨id, md⟩).map Prod.fst
        rw [hkeys]
        exact List.mem_append.mpr (Or.inl h2)
      · show p.2.toId ∈ (aset g.nodes id ⟨id, md⟩).map Prod.fst
        rw [hkeys]
        exact List.mem_append.mpr (Or.inl h3)
/-- Invariant preservation for the committed `addEdge` mutation, stated over
the explicit field updates. -/
theorem wf_addEdge_core {α β : Type} (g : DirectedGraph α β) (f t : NodeId)
    (eid : EdgeId) (md : Option β) (n : Nat) (sf rt : List NodeId)
    (bucket : List EdgeId) (hw : Wf g)
    (hsf : alookup g.adjacencyList f = some sf)
    (hrt : alookup g.reverseAdjacencyList t = some rt) :
    Wf { g with
         edges := aset g.edges eid ⟨eid, f, t, md⟩,
         edgeIndex := aset g.edgeIndex (getEdgeKey f t) (sadd bucket eid),
         adjacencyList := aset g.adjacencyList f (sadd sf t),
         reverseAdjacencyList := aset g.reverseAdjacencyList t (sadd rt f),
         nextEdgeId := n } := by
  have hfk : f ∈ g.nodeKeys := (hw.adjDom f).mp (by rw [hsf]; rfl)
  have htk : t ∈ g.nodeKeys := (hw.radjDom t).mp (by rw [hrt]; rfl)
  obtain ⟨hsfnd, hsfsub⟩ := hw.adjVals f sf hsf
  obtain ⟨hrtnd, hrtsub⟩ := hw.radjVals t rt hrt
  refine ⟨hw.keysNodup, ?_, ?_, ?_, ?_, ?_, ?_, ?_⟩
  · intro k
    show (alookup (aset g.adjacencyList f (sadd sf t)) k).isSome = true ↔
      k ∈ g.nodeKeys
    rw [alookup_aset]
    by_cases hk : f = k
    · subst hk
      simp [hfk]
    · rw [if_neg hk]
      exact hw.adjDom k
  · intro k
    show (alookup (aset g.reverseAdjacencyList t (sadd rt f)) k).isSome = true ↔
      k ∈ g.nodeKeys
    rw [alookup_aset]
    by_cases hk : t = k
    · subst hk
      simp [htk]
    · rw [if_neg hk]
      exact hw.radjDom k
  · intro u s h
    rw [show alookup (aset g.adjacencyList f (sadd sf t)) u =
      (if f = u then some (sadd sf t) else alookup g.adjacencyList u) from
      alookup_aset _ _ _ _] at h
    by_cases hk : f = u
    · rw [if_pos hk] at h
      cases h
      refine ⟨sadd_nodup sf t hsfnd, fun v hv => ?_⟩
      rcases (mem_sadd sf t v).mp hv with rfl | hv2
      · exact htk
      · exact hsfsub v hv2
    · rw [if_neg hk] at h
      obtain ⟨ha, hb⟩ := hw.adjVals u s h
      exact ⟨ha, hb⟩
  · intro u s h
    rw [show alookup (aset g.reverseAdjacencyList t (sadd rt f)) u =
      (if t = u then some (sadd rt f) else alookup g.reverseAdjacencyList u) from
      alookup_aset _ _ _ _] at h
    by_cases hk : t = u
    · rw [if_pos hk] at h
      cases h
      refine ⟨sadd_nodup rt f hrtnd, fun v hv => ?_⟩
      rcases (mem_sadd rt f v).mp hv with rfl | hv2
      · exact hfk
      · exact hrtsub v hv2
    · rw [if_neg hk] at h
      obtain ⟨ha, hb⟩ := hw.radjVals u s h
      exact ⟨ha, hb⟩
  · intro u v
    show v ∈ (alookup (aset g.adjacencyList f (sadd sf t)) u).getD [] ↔
      u ∈ (alookup (aset g.reverseAdjacencyList t (sadd rt f)) v).getD []
    rw [alookup_aset, alookup_aset]
    have hmold := hw.mirror u v
    unfold adjOfG at hmold
    by_cases hu : f = u
    · subst hu
      rw [hsf] at hmold
      rw [if_pos rfl]
      by_cases hv : t = v
      · subst hv
        rw [if_pos rfl]
        simp only [Option.getD_some]
        constructor
        · intro _; exact (mem_sadd rt f f).mpr (Or.inl rfl)
        · intro _; exact (mem_sadd sf t t).mpr (Or.inl rfl)
      · rw [if_neg hv]
        simp only [Option.getD_some] at hmold ⊢
        rw [mem_sadd]
        constructor
        · rintro (rfl | hvs)
          · exact absurd rfl hv
          · exact hmold.mp hvs
        · intro h
          exact Or.inr (hmold.mpr h)
    · rw [if_neg hu]
      by_cases hv : t = v
      · subst hv
        rw [hrt] at hmold
        rw [if_pos rfl]
        simp only [Option.getD_some] at hmold ⊢
        rw [mem_sadd]
        constructor
        · intro h
          exact Or.inr (hmold.mp h)
        · rintro (rfl | hrs)
          · exact absurd rfl hu
          · exact hmold.mpr hrs
      · rw [if_neg hv]
        exact hmold
  · intro u v
    show DirectedGraph.hasEdge _ u v = true ↔
      v ∈ (alookup (aset g.adjacencyList f (sadd sf t)) u).getD []
    have hold := hw.edgeIdx u v
    unfold adjOfG at hold
    by_cases hk : getEdgeKey f t = getEdgeKey u v
    · obtain ⟨rfl, rfl⟩ := getEdgeKey_inj hk
      have hlhs : DirectedGraph.hasEdge
          { g with
            edges := aset g.edges eid ⟨eid, f, t, md⟩,
            edgeIndex := aset g.edgeIndex (getEdgeKey f t) (sadd bucket eid),
            adjacencyList := aset g.adjacencyList f (sadd sf t),
            reverseAdjacencyList := aset g.reverseAdjacencyList t (sadd rt f),
            nextEdgeId := n } f t = true := by
        unfold DirectedGraph.hasEdge
        show (match alookup (aset g.edgeIndex (getEdgeKey f t) (sadd bucket eid))
          (getEdgeKey f t) with
          | none => false
          | some es => decide (0 < es.length)) = true
        rw [alookup_aset_self]
        simpa using sadd_pos bucket eid
      rw [hlhs, alookup_aset, if_pos rfl]
      simp only [Option.getD_some, true_iff]
      exact (mem_sadd sf t t).mpr (Or.inl rfl)
    · have hlhs : DirectedGraph.hasEdge
          { g with
            edges := aset g.edges eid ⟨eid, f, t, md⟩,
            edgeIndex := aset g.edgeIndex (getEdgeKey f t) (sadd bucket eid),
            adjacencyList := aset g.adjacencyList f (sadd sf t),
            reverseAdjacencyList := aset g.reverseAdjacencyList t (sadd rt f),
            nextEdgeId := n } u v = g.hasEdge u v := by
        unfold DirectedGraph.hasEdge
        show (match alookup (aset g.edgeIndex (getEdgeKey f t) (sadd bucket eid))
          (getEdgeKey u v) with
          | none => false
          | some es => decide (0 < es.length)) = _
        rw [alookup_aset_ne _ _ _ _ hk]
      rw [hlhs, alookup_aset]
      by_cases hu : f = u
      · subst hu
        rw [hsf] at hold
        rw [if_pos rfl]
        have hv : v ≠ t := by
          intro hv
          subst hv
          exact hk rfl
        simp only [Option.getD_some] at hold ⊢
        rw [mem_sadd]
        constructor
        · intro h
          exact Or.inr (hold.mp h)
        · rintro (rfl | hvs)
          · exact absurd rfl hv
          · exact hold.mpr hvs
      · rw [if_neg hu]
        exact hold
  · intro p hp
    have hp2 := mem_aset _ _ _ p hp
    rcases hp2 with hp2 | hp2
    · obtain ⟨h1, h2, h3⟩ := hw.edgesOk p hp2
      unfold adjOfG at h1
      refine ⟨?_, h2, h3⟩
      show p.2.toId ∈ (alookup (aset g.adjacencyList f (sadd sf t)) p.2.fromId).getD []
      rw [alookup_aset]
      by_cases hu : f = p.2.fromId
      · rw [if_pos hu]
        rw [← hu] at h1
        rw [hsf] at h1
        simp only [Option.getD_some] at h1 ⊢
        exact (mem_sadd sf t p.2.toId).mpr (Or.inr h1)
      · rw [if_neg hu]
        exact h1
    · subst hp2
      refine ⟨?_, hfk, htk⟩
      show t ∈ (alookup (aset g.adjacencyList f (sadd sf t)) f).getD []
      rw [alookup_aset, if_pos rfl]
      simp only [Option.getD_some]
      exact (mem_sadd sf t t).mpr (Or.inl rfl)
theorem wf_addEdge {α β : Type} (g : DirectedGraph α β) (f t : NodeId)
    (md : Option β) (hw : Wf g) : Wf (g.addEdge f t md).1 := by
  unfold DirectedGraph.addEdge
  by_cases h1 : (alookup g.nodes f).isNone = true
  · rw [if_pos h1]; exact hw
  rw [if_neg h1]
  by_cases h2 : (alookup g.nodes t).isNone = true
  · rw [if_pos h2]; exact hw
  rw [if_neg h2]
  by_cases h3 : ¬g.options.allowSelfLoops = true ∧ f = t
  · rw [if_pos h3]; exact hw
  rw [if_neg h3]
  by_cases h4 : ¬g.options.allowMultiEdges = true ∧
      (alookup g.edgeIndex (getEdgeKey f t)).isSome = true
  · rw [if_pos h4]; exact hw
  rw [if_neg h4]
  have hfk : f ∈ g.nodeKeys := by
    rw [show g.nodeKeys = g.nodes.map Prod.fst from rfl, ← alookup_isSome_iff]
    cases h : alookup g.nodes f with
    | none => rw [h] at h1; simp at h1
    | some _ => rfl
  have htk : t ∈ g.nodeKeys := by
    rw [show g.nodeKeys = g.nodes.map Prod.fst from rfl, ← alookup_isSome_iff]
    cases h : alookup g.nodes t with
    | none => rw [h] at h2; simp at h2
    | some _ => rfl
  have hsf' : (alookup g.adjacencyList f).isSome = true := (hw.adjDom f).mpr hfk
  have hrt' : (alookup g.reverseAdjacencyList t).isSome = true := (hw.radjDom t).mpr htk
  obtain ⟨sf, hsf⟩ : ∃ s, alookup g.adjacencyList f = some s := by
    cases h : alookup g.adjacencyList f with
    | none => rw [h] at hsf'; simp at hsf'
    | some s => exact ⟨s, rfl⟩
  obtain ⟨rt, hrt⟩ : ∃ s, alookup g.reverseAdjacencyList t = some s := by
    cases h : alookup g.reverseAdjacencyList t with
    | none => rw [h] at hrt'; simp at hrt'
    | some s => exact ⟨s, rfl⟩
  by_cases hm : g.options.allowMultiEdges = true
  · rw [if_pos hm, if_pos hm]
    dsimp only
    rw [hsf, hrt]
    dsimp only
    split
    · exact wf_addEdge_core g f t _ md _ sf rt _ hw hsf hrt
    · exact wf_addEdge_core g f t _ md _ sf rt _ hw hsf hrt
  · rw [if_neg hm, if_neg hm]
    dsimp only
    rw [hsf, hrt]
    dsimp only
    split
    · exact wf_addEdge_core g f t _ md _ sf rt _ hw hsf hrt
    · exact wf_addEdge_core g f t _ md _ sf rt _ hw hsf hrt

/-- Every graph reachable through the public constructor and mutators
satisfies the engine invariants. -/
theorem built_wf {α β : Type} (g : DirectedGraph α β) (hb : Built g) : Wf g := by
  induction hb with
  | base opts => exact wf_mk0 α β opts
  | node id md _ ih => exact wf_addNode _ id md ih
  | edge f t md _ ih => exact wf_addEdge _ f t md ih
/-! Instantiation of the generic Kahn spec for `topologicalSort`. -/

theorem foldl_aset_fresh {κ ν : Type} [DecidableEq κ] (vf : κ → ν) :
    ∀ (keys : List κ) (init : List (κ × ν)),
    (∀ k ∈ keys, alookup init k = none) → keys.Nodup →
    keys.foldl (fun m k => aset m k (vf k)) init =
      init ++ keys.map (fun k => (k, vf k)) := by
  intro keys
  induction keys with
  | nil => intro init _ _; simp
  | cons k ks ih =>
    intro init hfresh hnd
    have hk : alookup init k = none := hfresh k (List.mem_cons_self _ _)
    have hset : aset init k (vf k) = init ++ [(k, vf k)] := aset_new_eq_append _ _ _ hk
    show List.foldl _ (aset init k (vf k)) ks = _
    rw [hset, ih (init ++ [(k, vf k)]) ?_ (List.nodup_cons.mp hnd).2]
    · simp
    · intro k' hk'
      rw [alookup_eq_none_iff, List.map_append]
      simp only [List.mem_append]
      rintro (h | h)
      · exact absurd h ((alookup_eq_none_iff _ _).mp (hfresh k' (List.mem_cons_of_mem _ hk')))
      · simp at h
        exact (List.nodup_cons.mp hnd).1 (h ▸ hk')

theorem alookup_map_pairs {κ ν : Type} [DecidableEq κ] (vf : κ → ν) :
    ∀ (keys : List κ) (x : κ),
    alookup (keys.map (fun k => (k, vf k))) x =
      if x ∈ keys then some (vf x) else none := by
  intro keys
  induction keys with
  | nil => intro x; simp [alookup]
  | cons k ks ih =>
    intro x
    show (if k = x then some (vf k) else alookup (ks.map _) x) = _
    by_cases hk : k = x
    · subst hk
      simp
    · rw [if_neg hk, ih x]
      by_cases hx : x ∈ ks
      · rw [if_pos hx, if_pos (List.mem_cons_of_mem _ hx)]
      · rw [if_neg hx, if_neg (by
          intro h
          rcases List.mem_cons.mp h with h | h
          · exact hk h.symm
          · exact hx h)]

/-- A duplicate-free list characterising a count: the count over a
duplicate-free list equals its length. -/
theorem countP_length_eq {K : Type} (P : K → Bool) (big sub : List K)
    (hbn : big.Nodup) (hsn : sub.Nodup)
    (h : ∀ x, (x ∈ big ∧ P x = true) ↔ x ∈ sub) :
    big.countP P = sub.length := by
  rw [List.countP_eq_length_filter]
  have hsp1 : List.Subperm (big.filter P) sub :=
    (hbn.filter P).subperm (fun x hx => (h x).mp
      ⟨List.mem_of_mem_filter hx, List.of_mem_filter hx⟩)
  have hsp2 : List.Subperm sub (big.filter P) :=
    hsn.subperm (fun x hx => List.mem_filter.mpr
      ⟨((h x).mpr hx).1, ((h x).mpr hx).2⟩)
  exact (hsp1.antisymm hsp2).length_eq

/-- The number of predecessors counted through the adjacency function equals
the stored reverse-adjacency size. -/
theorem predCnt_eq_radj {α β : Type} (g : DirectedGraph α β) (hw : Wf g)
    (k : NodeId) (rk : List NodeId)
    (hk : alookup g.reverseAdjacencyList k = some rk) :
    predCnt g.getSuccessors g.nodeKeys k = rk.length := by
  unfold predCnt
  refine countP_length_eq _ _ rk hw.keysNodup (hw.radjVals k rk hk).1 ?_
  intro x
  constructor
  · rintro ⟨hx1, hx2⟩
    have h3 : k ∈ adjOfG g x := by
      simp at hx2
      exact hx2
    have h4 := (hw.mirror x k).mp h3
    rw [hk] at h4
    exact h4
  · intro hx
    refine ⟨(hw.radjVals k rk hk).2 x hx, ?_⟩
    have h3 : k ∈ adjOfG g x := by
      rw [hw.mirror x k, hk]
      exact hx
    simpa using h3

/-- `topologicalSort` always terminates within its fuel on well-formed
graphs, and succeeds exactly on acyclic graphs. -/
theorem topologicalSort_acyclic_iff {α β : Type} (g : DirectedGraph α β)
    (hw : Wf g) :
    ∃ r, g.topologicalSort = some r ∧
      (r.isSome = true ↔ AcyclicF g.getSuccessors) := by
  have hadj : ∀ k ∈ g.nodeKeys, (g.getSuccessors k).Nodup ∧
      ∀ w ∈ g.getSuccessors k, w ∈ g.nodeKeys := by
    intro k _
    exact adjOfG_props g hw k
  have hdom : ∀ a b, b ∈ g.getSuccessors a → a ∈ g.nodeKeys :=
    adjOfG_dom g hw
  set vf : NodeId → Int := fun k =>
    ((alookup g.reverseAdjacencyList k).map (fun s => (s.length : Int))).getD 0
    with hvf
  have hfold : g.nodeKeys.foldl (fun m k => aset m k (vf k)) [] =
      g.nodeKeys.map (fun k => (k, vf k)) := by
    rw [foldl_aset_fresh vf g.nodeKeys [] (fun k _ => rfl) hw.keysNodup]
    rfl
  have hlk := alookup_map_pairs vf g.nodeKeys
  have hvfval : ∀ k ∈ g.nodeKeys, vf k = (predCnt g.getSuccessors g.nodeKeys k : Int) := by
    intro k hk
    obtain ⟨rk, hrk⟩ : ∃ s, alookup g.reverseAdjacencyList k = some s := by
      have := (hw.radjDom k).mpr hk
      cases h : alookup g.reverseAdjacencyList k with
      | none => rw [h] at this; simp at this
      | some s => exact ⟨s, rfl⟩
    rw [hvf]
    simp only [hrk]
    rw [predCnt_eq_radj g hw k rk hrk]
    rfl
  -- the seeded queue
  set q0 : List NodeId := ((g.nodeKeys.map (fun k => (k, vf k))).filter
    (fun p => p.2 = 0)).map Prod.fst with hq0
  have hq0eq : q0 = (g.nodeKeys.filter (fun k => decide (vf k = 0))) := by
    rw [hq0, List.filter_map, List.map_map]
    have h1 : (Prod.fst ∘ fun k : NodeId => (k, vf k)) = id := rfl
    have h2 : ((fun p : NodeId × Int => decide (p.2 = 0)) ∘ fun k => (k, vf k)) =
        (fun k => decide (vf k = 0)) := rfl
    rw [h1, h2, List.map_id]
  have hq0mem : ∀ x, x ∈ q0 ↔ x ∈ g.nodeKeys ∧ vf x = 0 := by
    intro x
    rw [hq0eq, List.mem_filter]
    simp
  have hI0 : KInv g.getSuccessors g.nodeKeys
      (g.nodeKeys.map (fun k => (k, vf k))) q0 0 := by
    refine ⟨?_, ?_, ?_, ?_, ?_, ?_, ?_⟩
    · intro x hx
      exact ((hq0mem x).mp hx).1
    · rw [hq0eq]
      exact hw.keysNodup.filter _
    · omega
    · intro k hk
      rw [hlk k, if_pos hk]
      have : procCnt g.getSuccessors q0 0 k = 0 := by
        unfold procCnt
        simp
      rw [this, hvfval k hk]
      simp
    · intro k hk hkq
      have : ¬(vf k = 0) := fun h => hkq ((hq0mem k).mpr ⟨hk, h⟩)
      rw [hvfval k hk] at this
      have : procCnt g.getSuccessors q0 0 k = 0 := by
        unfold procCnt
        simp
      rw [this]
      have hge : (0 : Int) ≤ (predCnt g.getSuccessors g.nodeKeys k : Int) := by positivity
      omega
    · intro k hkq dd hdd
      obtain ⟨hk1, hk2⟩ := (hq0mem k).mp hkq
      rw [hlk k, if_pos hk1] at hdd
      simp only [Option.some.injEq] at hdd
      omega
    · intro k hkq j hj hkadj
      exfalso
      obtain ⟨hk1, hk2⟩ := (hq0mem k).mp hkq
      rw [hvfval k hk1] at hk2
      have hzero : predCnt g.getSuccessors g.nodeKeys k = 0 := by
        exact_mod_cast hk2
      unfold predCnt at hzero
      rw [List.countP_eq_zero] at hzero
      exact absurd (by simpa using hkadj) (by simpa using hzero j hj)
  obtain ⟨qf, inDegf, hrun, hIf⟩ := kahnLoop_run g.getSuccessors [] g.nodeKeys
    hw.keysNodup hadj (g.nodeKeys.length + 1)
    (g.nodeKeys.map (fun k => (k, vf k))) q0 0 hI0 (by omega)
  rw [List.take_zero] at hrun
  have hkeyslen : g.nodeKeys.length = g.nodes.length := by
    simp [DirectedGraph.nodeKeys]
  have hfold : g.nodeKeys.foldl (fun m k => aset m k
      (((alookup g.reverseAdjacencyList k).map (fun s => (s.length : Int))).getD 0)) [] =
      g.nodeKeys.map (fun k => (k, vf k)) := by
    have h := foldl_aset_fresh vf g.nodeKeys [] (fun k _ => rfl) hw.keysNodup
    rw [show (([] : List (NodeId × Int)) ++ g.nodeKeys.map (fun k => (k, vf k))) =
      g.nodeKeys.map (fun k => (k, vf k)) from by simp] at h
    exact h
  refine ⟨if qf.length = g.nodes.length then some qf else none, ?_, ?_⟩
  · unfold DirectedGraph.topologicalSort
    dsimp only
    rw [hfold, ← hq0, hrun]
  · by_cases hlen : qf.length = g.nodes.length
    · rw [if_pos hlen]
      constructor
      · intro _
        have hsp : List.Subperm qf g.nodeKeys := hIf.qNodup.subperm hIf.qSub
        have hperm : qf.Perm g.nodeKeys := hsp.perm_of_length_le (by omega)
        have hcov : ∀ k ∈ g.nodeKeys, k ∈ qf := fun k hk => hperm.mem_iff.mpr hk
        exact kahn_covers_acyclic g.getSuccessors g.nodeKeys qf inDegf hadj hdom hIf hcov
      · intro _
        rfl
    · rw [if_neg hlen]
      constructor
      · intro h
        exact absurd h (by simp)
      · intro hacy
        exfalso
        have hcov := kahn_acyclic_covers g.getSuccessors g.nodeKeys qf inDegf
          hw.keysNodup hadj hIf hacy
        have hsp1 : List.Subperm qf g.nodeKeys := hIf.qNodup.subperm hIf.qSub
        have hsp2 : List.Subperm g.nodeKeys qf := hw.keysNodup.subperm hcov
        have hlen2 := (hsp1.antisymm hsp2).length_eq
        omega
/-! Tarjan machinery: traversal invariant and per-call postconditions. -/

/-- All nodes already emitted into components, in emission order. -/
def sccsNodes (s : TarjanSt) : List NodeId :=
  (s.sccs.map SCC.nodes).flatten

/-- A lower bound on the indices and lowlinks of everything on the stack. -/
def LBoundStack (m : Nat) (s : TarjanSt) : Prop :=
  (∀ x ∈ s.stack, ∀ ix, alookup s.index x = some ix → m ≤ ix) ∧
  (∀ x ∈ s.stack, ∀ lx, alookup s.lowlink x = some lx → m ≤ lx) ∧
  m ≤ s.current

/-- State invariant of the Tarjan traversal. -/
structure TInv (succ : NodeId → List NodeId) (hasE : NodeId → NodeId → Bool)
    (allKeys : List NodeId) (s : TarjanSt) : Prop where
  idxKeysNodup : (s.index.map Prod.fst).Nodup
  idxLt : ∀ p ∈ s.index, p.2 < s.current
  llIff : ∀ v, (alookup s.lowlink v).isSome = (alookup s.index v).isSome
  llLe : ∀ v l i, alookup s.lowlink v = some l → alookup s.index v = some i → l ≤ i
  stackNodup : s.stack.Nodup
  onStackIff : ∀ v, v ∈ s.onStack ↔ v ∈ s.stack
  onStackNodup : s.onStack.Nodup
  stackIdx : ∀ v ∈ s.stack, (alookup s.index v).isSome = true
  stackSorted : s.stack.Pairwise (fun a b => ∀ ia ib,
    alookup s.index a = some ia → alookup s.index b = some ib → ib < ia)
  stackPopDisj : ∀ v ∈ s.stack, v ∉ sccsNodes s
  idxSplit : ∀ v, (alookup s.index v).isSome = true → v ∈ s.stack ∨ v ∈ sccsNodes s
  poppedIdx : ∀ v ∈ sccsNodes s, (alookup s.index v).isSome = true
  poppedNodup : (sccsNodes s).Nodup
  blockIds : ∀ i (h : i < s.sccs.length), (s.sccs.get ⟨i, h⟩).id = i
  blockEdges : ∀ i (hi : i < s.sccs.length), ∀ u ∈ (s.sccs.get ⟨i, hi⟩).nodes,
    ∀ w ∈ succ u, ∃ j, ∃ (hj : j < s.sccs.length), j ≤ i ∧
      w ∈ (s.sccs.get ⟨j, hj⟩).nodes
  blockAcy : ∀ blk ∈ s.sccs, ∃ r rest, blk.nodes = rest ++ [r] ∧
    blk.isAcyclic = (decide (blk.nodes.length = 1) && !(hasE r r))
  idxSub : ∀ v, (alookup s.index v).isSome = true → v ∈ allKeys

/-- Postcondition of a completed `strongConnect` call on `v`. -/
def SCpost (succ : NodeId → List NodeId) (v : NodeId) (s s' : TarjanSt) : Prop :=
  (∃ nw, s'.index = s.index ++ nw ∧ ∀ p ∈ nw, s.current ≤ p.2) ∧
  alookup s'.index v = some s.current ∧
  (∀ x lx, alookup s.lowlink x = some lx → alookup s'.lowlink x = some lx) ∧
  s.current < s'.current ∧
  (∃ bs, s'.sccs = s.sccs ++ bs ∧
    ∀ blk ∈ bs, ∀ x ∈ blk.nodes, alookup s.index x = none) ∧
  (s.stack = [] → s'.stack = []) ∧
  (∀ m, LBoundStack m s → m ≤ s.current →
    LBoundStack m s' ∧ ∀ lv, alookup s'.lowlink v = some lv → m ≤ lv) ∧
  (∃ τ, s'.stack = τ ++ s.stack ∧ (∀ x ∈ τ, alookup s.index x = none) ∧
    ∀ u ∈ τ, ∀ w ∈ succ u,
      (alookup s'.index w).isSome = true ∧
      (w ∈ s'.stack → ∀ iw, alookup s'.index w = some iw → iw < s.current →
        ∃ lv, alookup s'.lowlink v = some lv ∧ lv ≤ iw))

/-- Postcondition of a completed `processSuccs` run for `v` over `ws`. -/
def PSpost (succ : NodeId → List NodeId) (v : NodeId) (iv : Nat) (ws : List NodeId)
    (s s' : TarjanSt) : Prop :=
  (∃ nw, s'.index = s.index ++ nw ∧ ∀ p ∈ nw, s.current ≤ p.2) ∧
  (∀ x, x ≠ v → ∀ lx, alookup s.lowlink x = some lx → alookup s'.lowlink x = some lx) ∧
  (∀ lv', alookup s'.lowlink v = some lv' →
    ∃ lv, alookup s.lowlink v = some lv ∧ lv' ≤ lv) ∧
  s.current ≤ s'.current ∧
  (∃ bs, s'.sccs = s.sccs ++ bs ∧
    ∀ blk ∈ bs, ∀ x ∈ blk.nodes, alookup s.index x = none) ∧
  (∀ m, LBoundStack m s → LBoundStack m s') ∧
  (∃ τ, s'.stack = τ ++ s.stack ∧ (∀ x ∈ τ, alookup s.index x = none) ∧
    ∀ u ∈ τ, ∀ w ∈ succ u,
      (alookup s'.index w).isSome = true ∧
      (w ∈ s'.stack → ∀ iw, alookup s'.index w = some iw → iw < iv →
        ∃ lv, alookup s'.lowlink v = some lv ∧ lv ≤ iw)) ∧
  (∀ w ∈ ws, (alookup s'.index w).isSome = true ∧
    (w ∈ s'.stack → ∀ iw, alookup s'.index w = some iw → iw < iv →
      ∃ lv, alookup s'.lowlink v = some lv ∧ lv ≤ iw))

/-- The fuelled, mutually-recursive calls meet their specifications. -/
def SCspec (succ : NodeId → List NodeId) (hasE : NodeId → NodeId → Bool)
    (allKeys : List NodeId) (fuel : Nat) : Prop :=
  ∀ v s, TInv succ hasE allKeys s → v ∈ allKeys → alookup s.index v = none →
    allKeys.length + 1 ≤ fuel + s.index.length →
    ∃ s', strongConnect succ hasE fuel v s = some s' ∧
      TInv succ hasE allKeys s' ∧ SCpost succ v s s'

/-- Specification of the successor loop at a fixed fuel. -/
def PSspec (succ : NodeId → List NodeId) (hasE : NodeId → NodeId → Bool)
    (allKeys : List NodeId) (fuel : Nat) : Prop :=
  ∀ v iv ws s, TInv succ hasE allKeys s →
    (∀ w ∈ ws, w ∈ allKeys) →
    v ∈ s.stack → alookup s.index v = some iv → iv < s.current →
    allKeys.length + 1 ≤ fuel + s.index.length →
    ∃ s', processSuccs succ hasE fuel v ws s = some s' ∧
      TInv succ hasE allKeys s' ∧ PSpost succ v iv ws s s'

theorem alookup_append_right {κ ν : Type} [DecidableEq κ] :
    ∀ (m m' : List (κ × ν)) (k : κ), alookup m k = none →
    alookup (m ++ m') k = alookup m' k := by
  intro m
  induction m with
  | nil => intro m' k _; rfl
  | cons p rest ih =>
    intro m' k h
    obtain ⟨pk, pv⟩ := p
    by_cases hp : pk = k
    · subst hp
      simp [alookup] at h
    · simp only [alookup, if_neg hp] at h
      show (if pk = k then some pv else alookup (rest ++ m') k) = _
      rw [if_neg hp, ih m' k h]

theorem alookup_isSome_append {κ ν : Type} [DecidableEq κ] (m m' : List (κ × ν))
    (k : κ) (h : (alookup m k).isSome = true) :
    alookup (m ++ m') k = alookup m k := by
  cases hm : alookup m k with
  | none => rw [hm] at h; simp at h
  | some w => exact alookup_append_left m m' k w hm
theorem mem_sccsNodes (s : TarjanSt) (x : NodeId) :
    x ∈ sccsNodes s ↔ ∃ blk ∈ s.sccs, x ∈ blk.nodes := by
  unfold sccsNodes
  rw [List.mem_flatten]
  constructor
  · rintro ⟨l, hl, hx⟩
    obtain ⟨blk, hblk, rfl⟩ := List.mem_map.mp hl
    exact ⟨blk, hblk, hx⟩
  · rintro ⟨blk, hblk, hx⟩
    exact ⟨blk.nodes, List.mem_map.mpr ⟨blk, hblk, rfl⟩, hx⟩

/-- Pushing an unindexed node onto the stack preserves the invariant. -/
theorem TInv_push (succ : NodeId → List NodeId) (hasE : NodeId → NodeId → Bool)
    (allKeys : List NodeId) (s : TarjanSt) (v : NodeId)
    (hI : TInv succ hasE allKeys s) (hvk : v ∈ allKeys)
    (hvn : alookup s.index v = none) :
    TInv succ hasE allKeys
      { s with index := aset s.index v s.current,
               lowlink := aset s.lowlink v s.current,
               current := s.current + 1,
               stack := v :: s.stack,
               onStack := sadd s.onStack v } ∧
    aset s.index v s.current = s.index ++ [(v, s.current)] ∧
    aset s.lowlink v s.current = s.lowlink ++ [(v, s.current)] := by
  have hvnl : alookup s.lowlink v = none := by
    have h := hI.llIff v
    rw [hvn] at h
    cases hl : alookup s.lowlink v with
    | none => rfl
    | some _ => rw [hl] at h; simp at h
  have hvs : v ∉ s.stack := by
    intro hmem
    have := hI.stackIdx v hmem
    rw [hvn] at this
    simp at this
  have hidx : aset s.index v s.current = s.index ++ [(v, s.current)] :=
    aset_new_eq_append _ _ _ hvn
  have hll : aset s.lowlink v s.current = s.lowlink ++ [(v, s.current)] :=
    aset_new_eq_append _ _ _ hvnl
  have hlook : ∀ x, alookup (aset s.index v s.current) x =
      if v = x then some s.current else alookup s.index x := fun x => alookup_aset _ _ _ x
  have hlookl : ∀ x, alookup (aset s.lowlink v s.current) x =
      if v = x then some s.current else alookup s.lowlink x := fun x => alookup_aset _ _ _ x
  refine ⟨⟨?_, ?_, ?_, ?_, ?_, ?_, ?_, ?_, ?_, ?_, ?_, ?_, ?_, ?_, ?_, ?_, ?_⟩, hidx, hll⟩
  · show ((aset s.index v s.current).map Prod.fst).Nodup
    rw [hidx, List.map_append]
    refine List.Nodup.append hI.idxKeysNodup (by simp) ?_
    intro a ha hb
    simp only [List.map_cons, List.map_nil, List.mem_singleton] at hb
    subst hb
    exact absurd ha (by rwa [← alookup_eq_none_iff] )
  · intro p hp
    rw [hidx] at hp
    rcases List.mem_append.mp hp with h | h
    · have := hI.idxLt p h
      show p.2 < s.current + 1
      omega
    · simp only [List.mem_singleton] at h
      subst h
      show s.current < s.current + 1
      omega
  · intro x
    show (alookup (aset s.lowlink v s.current) x).isSome =
      (alookup (aset s.index v s.current) x).isSome
    rw [hlook x, hlookl x]
    by_cases hx : v = x
    · rw [if_pos hx, if_pos hx]
    · rw [if_neg hx, if_neg hx]
      exact hI.llIff x
  · intro x l i hl hi
    rw [show alookup _ x = _ from hlookl x] at hl
    rw [show alookup _ x = _ from hlook x] at hi
    by_cases hx : v = x
    · rw [if_pos hx] at hl hi
      cases hl
      cases hi
      omega
    · rw [if_neg hx] at hl hi
      exact hI.llLe x l i hl hi
  · exact List.nodup_cons.mpr ⟨hvs, hI.stackNodup⟩
  · intro x
    show x ∈ sadd s.onStack v ↔ x ∈ v :: s.stack
    rw [mem_sadd]
    rw [List.mem_cons]
    rw [hI.onStackIff x]
  · exact sadd_nodup _ _ hI.onStackNodup
  · intro x hx
    show (alookup (aset s.index v s.current) x).isSome = true
    rw [hlook x]
    rcases List.mem_cons.mp hx with rfl | hx2
    · rw [if_pos rfl]
      rfl
    · have hne : v ≠ x := by
        intro h
        subst h
        exact hvs hx2
      rw [if_neg hne]
      exact hI.stackIdx x hx2
  · show (v :: s.stack).Pairwise _
    rw [List.pairwise_cons]
    constructor
    · intro b hb ia ib hia hib
      rw [hlook v, if_pos rfl] at hia
      cases hia
      have hneb : v ≠ b := by
        intro h
        subst h
        exact hvs hb
      rw [hlook b, if_neg hneb] at hib
      have := hI.idxLt (b, ib) (alookup_mem _ _ _ hib)
      exact this
    · refine hI.stackSorted.imp_of_mem ?_
      intro a b ha hb hr ia ib hia hib
      have hna : v ≠ a := fun h => hvs (h ▸ ha)
      have hnb : v ≠ b := fun h => hvs (h ▸ hb)
      rw [hlook a, if_neg hna] at hia
      rw [hlook b, if_neg hnb] at hib
      exact hr ia ib hia hib
  · intro x hx
    show x ∉ sccsNodes s
    intro hmem
    have hxi := hI.poppedIdx x hmem
    rcases List.mem_cons.mp hx with heq | hx2
    · subst heq
      rw [hvn] at hxi
      simp at hxi
    · exact hI.stackPopDisj x hx2 hmem
  · intro x hx
    rw [show (alookup (aset s.index v s.current) x) = _ from hlook x] at hx
    by_cases hvx : v = x
    · subst hvx
      exact Or.inl (List.mem_cons_self _ _)
    · rw [if_neg hvx] at hx
      rcases hI.idxSplit x hx with h | h
      · exact Or.inl (List.mem_cons_of_mem _ h)
      · exact Or.inr h
  · intro x hx
    show (alookup (aset s.index v s.current) x).isSome = true
    rw [hlook x]
    have hne : v ≠ x := by
      intro h
      subst h
      exact absurd (hI.poppedIdx v hx) (by rw [hvn]; simp)
    rw [if_neg hne]
    exact hI.poppedIdx x hx
  · exact hI.poppedNodup
  · exact hI.blockIds
  · exact hI.blockEdges
  · exact hI.blockAcy
  · intro x hx
    rw [show (alookup (aset s.index v s.current) x) = _ from hlook x] at hx
    by_cases hvx : v = x
    · subst hvx
      exact hvk
    · rw [if_neg hvx] at hx
      exact hI.idxSub x hx

/-- Updating the running node's lowlink with a min preserves the invariant. -/
theorem TInv_fold (succ : NodeId → List NodeId) (hasE : NodeId → NodeId → Bool)
    (allKeys : List NodeId) (s : TarjanSt) (v : NodeId) (z : Nat)
    (hI : TInv succ hasE allKeys s) (hvi : (alookup s.index v).isSome = true) :
    TInv succ hasE allKeys
      { s with
        lowlink := aset s.lowlink v (min ((alookup s.lowlink v).getD 0) z) } := by
  have hvl : (alookup s.lowlink v).isSome = true := by
    rw [hI.llIff v]; exact hvi
  obtain ⟨lv, hlv⟩ : ∃ l, alookup s.lowlink v = some l := by
    cases h : alookup s.lowlink v with
    | none => rw [h] at hvl; simp at hvl
    | some l => exact ⟨l, rfl⟩
  have hlook : ∀ x, alookup (aset s.lowlink v (min ((alookup s.lowlink v).getD 0) z)) x =
      if v = x then some (min lv z) else alookup s.lowlink x := by
    intro x
    rw [alookup_aset, hlv]
    rfl
  refine ⟨hI.idxKeysNodup, hI.idxLt, ?_, ?_, hI.stackNodup, hI.onStackIff,
    hI.onStackNodup, hI.stackIdx, hI.stackSorted, hI.stackPopDisj, hI.idxSplit,
    hI.poppedIdx, hI.poppedNodup, hI.blockIds, hI.blockEdges, hI.blockAcy, hI.idxSub⟩
  · intro x
    show (alookup (aset s.lowlink v _) x).isSome = _
    rw [hlook x]
    by_cases hx : v = x
    · rw [if_pos hx]
      subst hx
      rw [hvi]
      rfl
    · rw [if_neg hx]
      exact hI.llIff x
  · intro x l i hl hi
    rw [show alookup _ x = _ from hlook x] at hl
    by_cases hx : v = x
    · rw [if_pos hx] at hl
      cases hl
      subst hx
      have := hI.llLe v lv i hlv hi
      omega
    · rw [if_neg hx] at hl
      exact hI.llLe x l i hl hi
theorem alookup_append_none_left {κ ν : Type} [DecidableEq κ] (m m' : List (κ × ν))
    (k : κ) (h : alookup (m ++ m') k = none) : alookup m k = none := by
  cases hm : alookup m k with
  | none => rfl
  | some w => rw [alookup_append_left m m' k w hm] at h; cases h

theorem TInv_idxLen {succ : NodeId → List NodeId} {hasE : NodeId → NodeId → Bool}
    {allKeys : List NodeId} {s : TarjanSt} (hI : TInv succ hasE allKeys s) :
    s.index.length ≤ allKeys.length := by
  have h1 : ∀ x ∈ s.index.map Prod.fst, x ∈ allKeys := by
    intro x hx
    exact hI.idxSub x ((alookup_isSome_iff _ _).mpr hx)
  have h2 := (hI.idxKeysNodup.subperm h1).length_le
  rw [List.length_map] at h2
  exact h2

/-- The successor loop meets its specification, assuming the specification
of `strongConnect` at the same fuel. -/
theorem psspec_of_scspec (succ : NodeId → List NodeId) (hasE : NodeId → NodeId → Bool)
    (allKeys : List NodeId) (hsucc : ∀ k w, w ∈ succ k → w ∈ allKeys)
    (fuel : Nat) (hSC : SCspec succ hasE allKeys fuel) :
    PSspec succ hasE allKeys fuel := by
  intro v iv ws
  induction ws with
  | nil =>
    intro s hI hws hvst hvidx hivlt hfuel
    refine ⟨s, by rw [processSuccs], hI, ?_, ?_, ?_, le_refl _, ?_, fun m hm => hm,
      ⟨[], by simp, by simp, by simp⟩, by simp⟩
    · exact ⟨[], by simp, by simp⟩
    · exact fun x _ lx hlx => hlx
    · exact fun lv' h => ⟨lv', h, le_refl _⟩
    · exact ⟨[], by simp, by simp⟩
  | cons w ws ih =>
    intro s hI hws hvst hvidx hivlt hfuel
    have hvidxS : (alookup s.index v).isSome = true := by rw [hvidx]; rfl
    have hvllS : (alookup s.lowlink v).isSome = true := by rw [hI.llIff]; exact hvidxS
    obtain ⟨lv0, hlv0⟩ : ∃ l, alookup s.lowlink v = some l := by
      cases h : alookup s.lowlink v with
      | none => rw [h] at hvllS; simp at hvllS
      | some l => exact ⟨l, rfl⟩
    have hstep : processSuccs succ hasE fuel v (w :: ws) s =
        (if (alookup s.index w).isNone then
          match strongConnect succ hasE fuel w s with
          | none => none
          | some s' =>
            processSuccs succ hasE fuel v ws { s' with
              lowlink := aset s'.lowlink v
                (min ((alookup s'.lowlink v).getD 0) ((alookup s'.lowlink w).getD 0)) }
        else if w ∈ s.onStack then
          processSuccs succ hasE fuel v ws { s with
            lowlink := aset s.lowlink v
              (min ((alookup s.lowlink v).getD 0) ((alookup s.index w).getD 0)) }
        else processSuccs succ hasE fuel v ws s) := by
      conv_lhs => rw [processSuccs]
    by_cases hni : (alookup s.index w).isNone = true
    · -- recurse into an unindexed successor
      rw [if_pos hni] at hstep
      have hwn : alookup s.index w = none := by
        cases h : alookup s.index w with
        | none => rfl
        | some _ => rw [h] at hni; simp at hni
      obtain ⟨s2, hsc, hI2, hpost⟩ := hSC w s hI (hws w (List.mem_cons_self _ _)) hwn hfuel
      obtain ⟨⟨nw, hnw, hnwval⟩, hwidx2, hllp2, hcur2, ⟨bs, hbs, hbsfresh⟩, hstk02,
        hlb2, τ2, hτ2, hτ2fresh, hτ2G⟩ := hpost
      rw [hsc] at hstep
      -- the lowlink fold after the recursive call
      have hvidx2 : alookup s2.index v = some iv := by
        rw [hnw]
        exact alookup_append_left _ _ _ _ hvidx
      have hvidx2S : (alookup s2.index v).isSome = true := by rw [hvidx2]; rfl
      have hvll2 : alookup s2.lowlink v = some lv0 := hllp2 v lv0 hlv0
      have hwll2S : (alookup s2.lowlink w).isSome = true := by
        rw [hI2.llIff]
        rw [hwidx2]
        rfl
      obtain ⟨lw2, hlw2⟩ : ∃ l, alookup s2.lowlink w = some l := by
        cases h : alookup s2.lowlink w with
        | none => rw [h] at hwll2S; simp at hwll2S
        | some l => exact ⟨l, rfl⟩
      set s3 : TarjanSt := { s2 with
        lowlink := aset s2.lowlink v
          (min ((alookup s2.lowlink v).getD 0) ((alookup s2.lowlink w).getD 0)) }
        with hs3
      have hI3 : TInv succ hasE allKeys s3 :=
        TInv_fold succ hasE allKeys s2 v ((alookup s2.lowlink w).getD 0) hI2 hvidx2S
      have hvst3 : v ∈ s3.stack := by
        show v ∈ s2.stack
        rw [hτ2]
        exact List.mem_append.mpr (Or.inr hvst)
      have hfuel3 : allKeys.length + 1 ≤ fuel + s3.index.length := by
        show allKeys.length + 1 ≤ fuel + s2.index.length
        rw [hnw, List.length_append]
        omega
      obtain ⟨sf, hrec, hIf, hfc1, hfc2, hfc3, hfc4, hfc5, hfc6, hfc7, hfc8⟩ :=
        ih s3 hI3 (fun x hx => hws x (List.mem_cons_of_mem _ hx)) hvst3
          (show alookup s2.index v = some iv from hvidx2) (by
            show iv < s2.current
            omega) hfuel3
      refine ⟨sf, by rw [hstep]; exact hrec, hIf, ?_, ?_, ?_, ?_, ?_, ?_, ?_, ?_⟩
      · -- index extension
        obtain ⟨nw2, hnw2, hnw2val⟩ := id hfc1
        refine ⟨nw ++ nw2, ?_, ?_⟩
        · rw [hnw2]
          show s2.index ++ nw2 = s.index ++ (nw ++ nw2)
          rw [hnw, List.append_assoc]
        · intro p hp
          rcases List.mem_append.mp hp with h | h
          · exact hnwval p h
          · have := hnw2val p h
            show s.current ≤ p.2
            have h2 : s.current ≤ s3.current := hcur2.le
            omega
      · -- lowlink preservation away from v
        intro x hxv lx hlx
        have h1 : alookup s2.lowlink x = some lx := hllp2 x lx hlx
        have h2 : alookup s3.lowlink x = some lx := by
          show alookup (aset s2.lowlink v _) x = some lx
          rw [alookup_aset_ne _ _ _ _ (fun h => hxv h.symm)]
          exact h1
        exact hfc2 x hxv lx h2
      · -- the running lowlink never increases
        intro lv' hlv'
        obtain ⟨lv3, hlv3, hle3⟩ := hfc3 lv' hlv'
        have h1 : alookup s3.lowlink v = some (min lv0 lw2) := by
          show alookup (aset s2.lowlink v _) v = _
          rw [alookup_aset_self, hvll2, hlw2]
          rfl
        rw [h1] at hlv3
        cases hlv3
        refine ⟨lv0, hlv0, ?_⟩
        have : min lv0 lw2 ≤ lv0 := min_le_left _ _
        omega
      · -- current is monotone
        have h1 : s3.current ≤ sf.current := hfc4
        show s.current ≤ sf.current
        have h2 : s.current ≤ s2.current := hcur2.le
        exact le_trans h2 h1
      · -- emitted components extend, over fresh nodes
        obtain ⟨bs2, hbs2, hbs2fresh⟩ := id hfc5
        refine ⟨bs ++ bs2, ?_, ?_⟩
        · rw [hbs2]
          show s2.sccs ++ bs2 = s.sccs ++ (bs ++ bs2)
          rw [hbs, List.append_assoc]
        · intro blk hblk x hx
          rcases List.mem_append.mp hblk with h | h
          · exact hbsfresh blk h x hx
          · have h2 := hbs2fresh blk h x hx
            have h3 : alookup s2.index x = none := h2
            rw [hnw] at h3
            exact alookup_append_none_left _ _ _ h3
      · -- lower bounds are maintained
        intro m hm
        have hm2 := (hlb2 m hm hm.2.2).1
        have hm3 : LBoundStack m s3 := by
          obtain ⟨hma, hmb, hmc⟩ := hm2
          refine ⟨hma, ?_, hmc⟩
          intro x hx lx hlx
          by_cases hxv : v = x
          · subst hxv
            have h1 : alookup s3.lowlink v = some (min lv0 lw2) := by
              show alookup (aset s2.lowlink v _) v = _
              rw [alookup_aset_self, hvll2, hlw2]
              rfl
            rw [h1] at hlx
            cases hlx
            have ha := hmb v hx lv0 hvll2
            have hb := (hlb2 m hm hm.2.2).2 lw2 hlw2
            omega
          · have h1 : alookup s3.lowlink x = alookup s2.lowlink x := by
              show alookup (aset s2.lowlink v _) x = _
              rw [alookup_aset_ne _ _ _ _ hxv]
            rw [h1] at hlx
            exact hmb x hx lx hlx
        exact hfc6 m hm3
      · -- escape edges of the newly stacked nodes
        obtain ⟨τf, hτf, hτffresh, hτfG⟩ := id hfc7
        refine ⟨τf ++ τ2, ?_, ?_, ?_⟩
        · rw [hτf]
          show τf ++ s2.stack = (τf ++ τ2) ++ s.stack
          rw [hτ2, List.append_assoc]
        · intro x hx
          rcases List.mem_append.mp hx with h | h
          · have h2 := hτffresh x h
            have h3 : alookup s2.index x = none := h2
            rw [hnw] at h3
            exact alookup_append_none_left _ _ _ h3
          · exact hτ2fresh x h
        · intro u hu w' hw'
          rcases List.mem_append.mp hu with h | h
          · exact hτfG u h w' hw'
          · obtain ⟨hG1, hG2⟩ := hτ2G u h w' hw'
            obtain ⟨iw', hiw'⟩ : ∃ i, alookup s2.index w' = some i := by
              cases hh : alookup s2.index w' with
              | none => rw [hh] at hG1; simp at hG1
              | some i => exact ⟨i, rfl⟩
            constructor
            · obtain ⟨nw2, hnw2, _⟩ := id hfc1
              rw [show sf.index = s3.index ++ nw2 from hnw2]
              rw [show alookup (s3.index ++ nw2) w' = alookup s3.index w' from
                alookup_isSome_append _ _ _ (by
                  show (alookup s2.index w').isSome = true
                  rw [hiw']; rfl)]
              show (alookup s2.index w').isSome = true
              rw [hiw']
              rfl
            · intro hwst iwf hiwf hltf
              -- the final index of w' agrees with its index at s2
              obtain ⟨nw2, hnw2, _⟩ := id hfc1
              have hiwf2 : iwf = iw' := by
                rw [show sf.index = s3.index ++ nw2 from hnw2,
                  show alookup (s3.index ++ nw2) w' = alookup s3.index w' from
                    alookup_isSome_append _ _ _ (by
                      show (alookup s2.index w').isSome = true
                      rw [hiw']; rfl)] at hiwf
                have : alookup s2.index w' = some iwf := hiwf
                rw [hiw'] at this
                cases this
                rfl
              -- w' is still on the stack of s2
              have hwst2 : w' ∈ s2.stack := by
                obtain ⟨τff, hτff, hτfffresh, _⟩ := id hfc7
                rw [hτff] at hwst
                rcases List.mem_append.mp hwst with h2 | h2
                · exfalso
                  have h3 := hτfffresh w' h2
                  have h4 : alookup s2.index w' = none := h3
                  rw [hiw'] at h4
                  cases h4
                · exact h2
              have hlt2 : iw' < s.current := lt_trans (hiwf2 ▸ hltf) hivlt
              obtain ⟨lw', hlw', hlwle⟩ := hG2 hwst2 iw' hiw' hlt2
              rw [hlw2] at hlw'
              cases hlw'
              have h1 : alookup s3.lowlink v = some (min lv0 lw2) := by
                show alookup (aset s2.lowlink v _) v = _
                rw [alookup_aset_self, hvll2, hlw2]
                rfl
              have hvllfS : (alookup sf.lowlink v).isSome = true := by
                rw [hIf.llIff]
                obtain ⟨nw2', hnw2', _⟩ := id hfc1
                rw [show sf.index = s3.index ++ nw2' from hnw2']
                rw [alookup_isSome_append _ _ _ (by
                  show (alookup s2.index v).isSome = true
                  exact hvidx2S)]
                exact hvidx2S
              obtain ⟨lvf, hlvf⟩ : ∃ l, alookup sf.lowlink v = some l := by
                cases hh : alookup sf.lowlink v with
                | none => rw [hh] at hvllfS; simp at hvllfS
                | some l => exact ⟨l, rfl⟩
              obtain ⟨lv3, hlv3, hle3⟩ := hfc3 lvf hlvf
              rw [h1] at hlv3
              cases hlv3
              refine ⟨lvf, hlvf, ?_⟩
              have h5 : min lv0 lw2 ≤ lw2 := min_le_right _ _
              omega
      · -- the processed successors
        intro w' hw'
        rcases List.mem_cons.mp hw' with rfl | hw2
        · constructor
          · obtain ⟨nw2, hnw2, _⟩ := id hfc1
            rw [show sf.index = s3.index ++ nw2 from hnw2]
            rw [alookup_isSome_append _ _ _ (by
              show (alookup s2.index w').isSome = true
              rw [hwidx2]; rfl)]
            show (alookup s2.index w').isSome = true
            rw [hwidx2]
            rfl
          · intro hwst iwf hiwf hltf
            exfalso
            obtain ⟨nw2, hnw2, _⟩ := id hfc1
            rw [show sf.index = s3.index ++ nw2 from hnw2,
              alookup_isSome_append _ _ _ (by
                show (alookup s2.index w').isSome = true
                rw [hwidx2]; rfl)] at hiwf
            have h2 : alookup s2.index w' = some iwf := hiwf
            rw [hwidx2] at h2
            cases h2
            omega
        · exact hfc8 w' hw2
    · rw [if_neg hni] at hstep
      have hwS : (alookup s.index w).isSome = true := by
        cases h : alookup s.index w with
        | none => rw [h] at hni; simp at hni
        | some _ => rfl
      obtain ⟨iw, hiw⟩ : ∃ i, alookup s.index w = some i := by
        cases h : alookup s.index w with
        | none => rw [h] at hwS; simp at hwS
        | some i => exact ⟨i, rfl⟩
      by_cases hos : w ∈ s.onStack
      · -- already indexed and on the stack: record the index
        rw [if_pos hos] at hstep
        set s1 : TarjanSt := { s with
          lowlink := aset s.lowlink v
            (min ((alookup s.lowlink v).getD 0) ((alookup s.index w).getD 0)) }
          with hs1
        have hI1 : TInv succ hasE allKeys s1 :=
          TInv_fold succ hasE allKeys s v ((alookup s.index w).getD 0) hI hvidxS
        obtain ⟨sf, hrec, hIf, hfc1, hfc2, hfc3, hfc4, hfc5, hfc6, hfc7, hfc8⟩ :=
          ih s1 hI1 (fun x hx => hws x (List.mem_cons_of_mem _ hx)) hvst hvidx hivlt hfuel
        have hll1v : alookup s1.lowlink v = some (min lv0 iw) := by
          show alookup (aset s.lowlink v _) v = _
          rw [alookup_aset_self, hlv0, hiw]
          rfl
        refine ⟨sf, by rw [hstep]; exact hrec, hIf, hfc1, ?_, ?_, hfc4, hfc5, ?_,
          hfc7, ?_⟩
        · intro x hxv lx hlx
          refine hfc2 x hxv lx ?_
          show alookup (aset s.lowlink v _) x = some lx
          rw [alookup_aset_ne _ _ _ _ (fun h => hxv h.symm)]
          exact hlx
        · intro lv' hlv'
          obtain ⟨lv1, hlv1, hle1⟩ := hfc3 lv' hlv'
          rw [hll1v] at hlv1
          cases hlv1
          refine ⟨lv0, hlv0, ?_⟩
          have : min lv0 iw ≤ lv0 := min_le_left _ _
          omega
        · intro m hm
          refine hfc6 m ?_
          obtain ⟨hma, hmb, hmc⟩ := hm
          refine ⟨hma, ?_, hmc⟩
          intro x hx lx hlx
          by_cases hxv : v = x
          · subst hxv
            rw [hll1v] at hlx
            cases hlx
            have ha := hmb v hx lv0 hlv0
            have hb := hma w ((hI.onStackIff w).mp hos) iw hiw
            omega
          · have h1 : alookup s1.lowlink x = alookup s.lowlink x := by
              show alookup (aset s.lowlink v _) x = _
              rw [alookup_aset_ne _ _ _ _ hxv]
            rw [h1] at hlx
            exact hmb x hx lx hlx
        · intro w' hw'
          rcases List.mem_cons.mp hw' with rfl | hw2
          · constructor
            · obtain ⟨nw1, hnw1, _⟩ := id hfc1
              rw [show sf.index = s1.index ++ nw1 from hnw1]
              rw [alookup_isSome_append _ _ _ (show (alookup s.index w').isSome = true
                from hwS)]
              exact hwS
            · intro hwst iwf hiwf hltf
              obtain ⟨nw1, hnw1, _⟩ := id hfc1
              rw [show sf.index = s1.index ++ nw1 from hnw1,
                alookup_isSome_append _ _ _ (show (alookup s.index w').isSome = true
                  from hwS)] at hiwf
              have h2 : alookup s.index w' = some iwf := hiwf
              rw [hiw] at h2
              cases h2
              have hvllfS : (alookup sf.lowlink v).isSome = true := by
                rw [hIf.llIff]
                obtain ⟨nw1', hnw1', _⟩ := id hfc1
                rw [show sf.index = s1.index ++ nw1' from hnw1']
                rw [alookup_isSome_append _ _ _
                  (show (alookup s.index v).isSome = true from hvidxS)]
                exact hvidxS
              obtain ⟨lvf, hlvf⟩ : ∃ l, alookup sf.lowlink v = some l := by
                cases hh : alookup sf.lowlink v with
                | none => rw [hh] at hvllfS; simp at hvllfS
                | some l => exact ⟨l, rfl⟩
              obtain ⟨lv1, hlv1, hle1⟩ := hfc3 lvf hlvf
              rw [hll1v] at hlv1
              cases hlv1
              refine ⟨lvf, hlvf, ?_⟩
              have : min lv0 iw ≤ iw := min_le_right _ _
              omega
          · exact hfc8 w' hw2
      · -- already indexed but off the stack: skip
        rw [if_neg hos] at hstep
        obtain ⟨sf, hrec, hIf, hfc1, hfc2, hfc3, hfc4, hfc5, hfc6, hfc7, hfc8⟩ :=
          ih s hI (fun x hx => hws x (List.mem_cons_of_mem _ hx)) hvst hvidx hivlt hfuel
        refine ⟨sf, by rw [hstep]; exact hrec, hIf, hfc1, hfc2, hfc3, hfc4, hfc5,
          hfc6, hfc7, ?_⟩
        intro w' hw'
        rcases List.mem_cons.mp hw' with rfl | hw2
        · constructor
          · obtain ⟨nw1, hnw1, _⟩ := id hfc1
            rw [show sf.index = s.index ++ nw1 from hnw1]
            rw [alookup_isSome_append _ _ _ (show (alookup s.index w').isSome = true
              from hwS)]
            exact hwS
          · intro hwst iwf hiwf hltf
            exfalso
            obtain ⟨τf, hτf, hτffresh, _⟩ := id hfc7
            rw [hτf] at hwst
            rcases List.mem_append.mp hwst with h2 | h2
            · have h3 := hτffresh w' h2
              rw [hiw] at h3
              cases h3
            · have h4 : w' ∉ s.stack := fun hmem => hos ((hI.onStackIff w').mpr hmem)
              exact h4 h2
        · exact hfc8 w' hw2
theorem sccsNodes_ext (s : TarjanSt) (stk os : List NodeId) (B : SCC) :
    sccsNodes { s with stack := stk, onStack := os, sccs := s.sccs ++ [B] } =
    sccsNodes s ++ B.nodes := by
  unfold sccsNodes
  simp

/-- `strongConnect` meets its specification at one more unit of fuel than
the successor loop. -/
theorem scspec_of_psspec (succ : NodeId → List NodeId) (hasE : NodeId → NodeId → Bool)
    (allKeys : List NodeId) (hsucc : ∀ k w, w ∈ succ k → w ∈ allKeys)
    (f : Nat) (hPS : PSspec succ hasE allKeys f) : SCspec succ hasE allKeys (f + 1) := by
  intro v s hI hvk hvn hfuel
  obtain ⟨hI1, hidx1, hll1⟩ := TInv_push succ hasE allKeys s v hI hvk hvn
  have hstep : strongConnect succ hasE (f + 1) v s =
      (let s1 : TarjanSt := { s with
        index := aset s.index v s.current,
        lowlink := aset s.lowlink v s.current,
        current := s.current + 1,
        stack := v :: s.stack,
        onStack := sadd s.onStack v }
      match processSuccs succ hasE f v (succ v) s1 with
      | none => none
      | some s2 =>
        if alookup s2.lowlink v = alookup s2.index v then
          let pr := popUntil v s2.stack
          let scc : SCC := { id := s2.sccs.length,
                             nodes := pr.1,
                             isAcyclic := decide (pr.1.length = 1) && !(hasE v v) }
          some { s2 with
            stack := pr.2,
            onStack := pr.1.foldl (fun os w => os.erase w) s2.onStack,
            sccs := s2.sccs ++ [scc] }
        else some s2) := by
    conv_lhs => rw [strongConnect]
  set s1 : TarjanSt := { s with
    index := aset s.index v s.current,
    lowlink := aset s.lowlink v s.current,
    current := s.current + 1,
    stack := v :: s.stack,
    onStack := sadd s.onStack v } with hs1
  have hvidx1 : alookup s1.index v = some s.current := by
    show alookup (aset s.index v s.current) v = _
    rw [alookup_aset_self]
  have hvll1 : alookup s1.lowlink v = some s.current := by
    show alookup (aset s.lowlink v s.current) v = _
    rw [alookup_aset_self]
  have hvst1 : v ∈ s1.stack := List.mem_cons_self _ _
  have hlen1 : s1.index.length = s.index.length + 1 := by
    show (aset s.index v s.current).length = _
    rw [hidx1, List.length_append]
    rfl
  have hfuel1 : allKeys.length + 1 ≤ f + s1.index.length := by
    rw [hlen1]
    omega
  obtain ⟨s2, hps, hI2, hc1, hc2, hc3, hc4, hc5, hc6, hc7, hc8⟩ :=
    hPS v s.current (succ v) s1 hI1 (fun w hw => hsucc v w hw) hvst1 hvidx1
      (by show s.current < s.current + 1; omega) hfuel1
  obtain ⟨nw, hnw, hnwval⟩ := id hc1
  obtain ⟨bs, hbs, hbsfresh⟩ := id hc5
  obtain ⟨τ2, hτ2, hτ2fresh, hτ2G⟩ := id hc7
  dsimp only at hstep
  rw [hps] at hstep
  dsimp only at hstep
  have hidx2 : s2.index = s.index ++ ((v, s.current) :: nw) := by
    rw [hnw]
    show s1.index ++ nw = _
    rw [show s1.index = aset s.index v s.current from rfl, hidx1, List.append_assoc]
    rfl
  have hvidx2 : alookup s2.index v = some s.current := by
    rw [hnw]
    exact alookup_append_left _ _ _ _ hvidx1
  have hvll2S : (alookup s2.lowlink v).isSome = true := by
    rw [hI2.llIff, hvidx2]
    rfl
  obtain ⟨lv2, hlv2⟩ : ∃ l, alookup s2.lowlink v = some l := by
    cases h : alookup s2.lowlink v with
    | none => rw [h] at hvll2S; simp at hvll2S
    | some l => exact ⟨l, rfl⟩
  have hlv2le : lv2 ≤ s.current := hI2.llLe v lv2 s.current hlv2 hvidx2
  have hstk2 : s2.stack = τ2 ++ v :: s.stack := by
    rw [hτ2]
  have hvτ2 : v ∉ τ2 := by
    intro h
    have h2 := hτ2fresh v h
    rw [hvidx1] at h2
    cases h2
  have hBfresh : ∀ x ∈ τ2 ++ [v], alookup s.index x = none := by
    intro x hx
    rcases List.mem_append.mp hx with h | h
    · have h2 := hτ2fresh x h
      have h3 : alookup (aset s.index v s.current) x = none := h2
      rw [hidx1] at h3
      exact alookup_append_none_left _ _ _ h3
    · simp only [List.mem_singleton] at h
      subst h
      exact hvn
  have hidxPres : ∀ x i, alookup s.index x = some i → alookup s2.index x = some i := by
    intro x i hx
    rw [hidx2]
    exact alookup_append_left _ _ _ _ hx
  have hcur12 : s.current + 1 ≤ s2.current := hc4
  have hnds2 : (τ2 ++ v :: s.stack).Nodup := hstk2 ▸ hI2.stackNodup
  by_cases hcheck : alookup s2.lowlink v = alookup s2.index v
  · -- emission: pop the whole segment above and including v
    rw [if_pos hcheck] at hstep
    have hlveq : lv2 = s.current := by
      rw [hlv2, hvidx2] at hcheck
      cases hcheck
      rfl
    have hpop : popUntil v s2.stack = (τ2 ++ [v], s.stack) := by
      rw [hstk2]
      exact popUntil_spec v τ2 s.stack hvτ2
    rw [hpop] at hstep
    dsimp only at hstep
    set B : SCC := { id := s2.sccs.length,
                     nodes := τ2 ++ [v],
                     isAcyclic := decide ((τ2 ++ [v]).length = 1) && !(hasE v v) }
      with hB
    set s' : TarjanSt := { s2 with
      stack := s.stack,
      onStack := (τ2 ++ [v]).foldl (fun os w => os.erase w) s2.onStack,
      sccs := s2.sccs ++ [B] } with hs'
    have hpn : sccsNodes s' = sccsNodes s2 ++ (τ2 ++ [v]) :=
      sccsNodes_ext s2 s.stack _ B
    have hBstk : ∀ x ∈ τ2 ++ [v], x ∈ s2.stack := by
      intro x hx
      rw [hstk2]
      rcases List.mem_append.mp hx with h | h
      · exact List.mem_append.mpr (Or.inl h)
      · simp only [List.mem_singleton] at h
        subst h
        exact List.mem_append.mpr (Or.inr (List.mem_cons_self _ _))
    have hBidx2 : ∀ x ∈ τ2 ++ [v], (alookup s2.index x).isSome = true :=
      fun x hx => hI2.stackIdx x (hBstk x hx)
    have hstkB : ∀ x ∈ s.stack, x ∉ τ2 ++ [v] := by
      intro x hx hmem
      have h1 := hI.stackIdx x hx
      have h2 := hBfresh x hmem
      rw [h2] at h1
      cases h1
    have hBnd : (τ2 ++ [v]).Nodup := by
      have h1 : List.Sublist (τ2 ++ [v]) (τ2 ++ v :: s.stack) := by
        refine List.Sublist.append (List.Sublist.refl τ2) ?_
        exact List.cons_sublist_cons.mpr (List.nil_sublist _)
      exact h1.nodup hnds2
    have hsnd : s.stack.Nodup := hI.stackNodup
    have herase := mem_foldl_erase (τ2 ++ [v]) s2.onStack hI2.onStackNodup
    have hos' : ∀ x, x ∈ s'.onStack ↔ x ∈ s.stack := by
      intro x
      show x ∈ (τ2 ++ [v]).foldl (fun os w => os.erase w) s2.onStack ↔ _
      rw [herase.2 x, hI2.onStackIff x, hstk2]
      constructor
      · rintro ⟨h1, h2⟩
        rcases List.mem_append.mp h1 with h | h
        · exact absurd (List.mem_append.mpr (Or.inl h)) h2
        · rcases List.mem_cons.mp h with rfl | h3
          · exact absurd (List.mem_append.mpr (Or.inr (List.mem_singleton.mpr rfl))) h2
          · exact h3
      · intro hx
        exact ⟨List.mem_append.mpr (Or.inr (List.mem_cons_of_mem _ hx)), hstkB x hx⟩
    refine ⟨s', hstep, ?_, ?_⟩
    · -- the invariant after emission
      refine ⟨hI2.idxKeysNodup, hI2.idxLt, hI2.llIff, hI2.llLe, hsnd, hos', herase.1,
        ?_, ?_, ?_, ?_, ?_, ?_, ?_, ?_, ?_, hI2.idxSub⟩
      · intro x hx
        exact hI2.stackIdx x (hstk2 ▸ List.mem_append.mpr
          (Or.inr (List.mem_cons_of_mem _ hx)))
      · have h1 : List.Sublist s.stack s2.stack := by
          rw [hstk2]
          refine List.sublist_append_of_sublist_right ?_
          exact List.sublist_cons_of_sublist _ (List.Sublist.refl _)
        exact hI2.stackSorted.sublist h1
      · intro x hx
        rw [hpn]
        intro hmem
        rcases List.mem_append.mp hmem with h | h
        · exact hI2.stackPopDisj x (hstk2 ▸ List.mem_append.mpr
            (Or.inr (List.mem_cons_of_mem _ hx))) h
        · exact hstkB x hx h
      · intro x hx
        rcases hI2.idxSplit x hx with h | h
        · rw [hstk2] at h
          rcases List.mem_append.mp h with h2 | h2
          · refine Or.inr ?_
            rw [hpn]
            exact List.mem_append.mpr (Or.inr (List.mem_append.mpr (Or.inl h2)))
          · rcases List.mem_cons.mp h2 with rfl | h3
            · refine Or.inr ?_
              rw [hpn]
              exact List.mem_append.mpr (Or.inr (List.mem_append.mpr
                (Or.inr (List.mem_singleton.mpr rfl))))
            · exact Or.inl h3
        · refine Or.inr ?_
          rw [hpn]
          exact List.mem_append.mpr (Or.inl h)
      · intro x hx
        rw [hpn] at hx
        rcases List.mem_append.mp hx with h | h
        · exact hI2.poppedIdx x h
        · exact hBidx2 x h
      · rw [hpn]
        refine List.Nodup.append hI2.poppedNodup hBnd ?_
        intro x hx hmem
        exact hI2.stackPopDisj x (hBstk x hmem) hx
      · intro i hi
        show ((s2.sccs ++ [B]).get ⟨i, hi⟩).id = i
        have hlen : (s2.sccs ++ [B]).length = s2.sccs.length + 1 := by simp
        by_cases hik : i < s2.sccs.length
        · have h1 : (s2.sccs ++ [B]).get ⟨i, hi⟩ = s2.sccs.get ⟨i, hik⟩ :=
            List.getElem_append_left hik
          rw [h1]
          exact hI2.blockIds i hik
        · have hieq : i = s2.sccs.length := by
            have := hi
            rw [hlen] at this
            omega
          subst hieq
          have h1 : (s2.sccs ++ [B]).get ⟨s2.sccs.length, hi⟩ = B :=
            List.getElem_concat_length s2.sccs B _ rfl _
          rw [h1]
      · intro i hi u hu w hw
        show ∃ j, ∃ hj : j < (s2.sccs ++ [B]).length, j ≤ i ∧
          w ∈ ((s2.sccs ++ [B]).get ⟨j, hj⟩).nodes
        have hlen : (s2.sccs ++ [B]).length = s2.sccs.length + 1 := by simp
        by_cases hik : i < s2.sccs.length
        · have h1 : (s2.sccs ++ [B]).get ⟨i, hi⟩ = s2.sccs.get ⟨i, hik⟩ :=
            List.getElem_append_left hik
          rw [h1] at hu
          obtain ⟨j, hj, hji, hjw⟩ := hI2.blockEdges i hik u hu w hw
          refine ⟨j, by rw [hlen]; omega, hji, ?_⟩
          have h2 : (s2.sccs ++ [B]).get ⟨j, by rw [hlen]; omega⟩ =
              s2.sccs.get ⟨j, hj⟩ := List.getElem_append_left hj
          rw [h2]
          exact hjw
        · have hieq : i = s2.sccs.length := by
            have := hi
            rw [hlen] at this
            omega
          subst hieq
          have h1 : (s2.sccs ++ [B]).get ⟨s2.sccs.length, hi⟩ = B :=
            List.getElem_concat_length s2.sccs B _ rfl _
          rw [h1] at hu
          -- u is in the popped block
          have hG : (alookup s2.index w).isSome = true ∧
              (w ∈ s2.stack → ∀ iw, alookup s2.index w = some iw →
                iw < s.current → ∃ lv, alookup s2.lowlink v = some lv ∧ lv ≤ iw) := by
            rcases List.mem_append.mp hu with h | h
            · exact hτ2G u h w hw
            · simp only [List.mem_singleton] at h
              subst h
              exact hc8 w hw
          rcases hI2.idxSplit w hG.1 with hws | hws
          · rw [hstk2] at hws
            rcases List.mem_append.mp hws with h2 | h2
            · refine ⟨s2.sccs.length, hi, le_refl _, ?_⟩
              rw [show (s2.sccs ++ [B]).get ⟨s2.sccs.length, hi⟩ = B from
                List.getElem_concat_length s2.sccs B _ rfl _]
              exact List.mem_append.mpr (Or.inl h2)
            · rcases List.mem_cons.mp h2 with rfl | h3
              · refine ⟨s2.sccs.length, hi, le_refl _, ?_⟩
                rw [show (s2.sccs ++ [B]).get ⟨s2.sccs.length, hi⟩ = B from
                  List.getElem_concat_length s2.sccs B _ rfl _]
                exact List.mem_append.mpr (Or.inr (List.mem_singleton.mpr rfl))
              · -- an escape edge below the root is impossible once the check holds
                exfalso
                have hwidx : (alookup s.index w).isSome = true := hI.stackIdx w h3
                obtain ⟨iw, hiw⟩ : ∃ i, alookup s.index w = some i := by
                  cases hh : alookup s.index w with
                  | none => rw [hh] at hwidx; simp at hwidx
                  | some i => exact ⟨i, rfl⟩
                have hiwlt : iw < s.current := hI.idxLt (w, iw) (alookup_mem _ _ _ hiw)
                have hiw2 : alookup s2.index w = some iw := hidxPres w iw hiw
                obtain ⟨lv', hlv', hlvle⟩ := hG.2 (hstk2 ▸ List.mem_append.mpr
                  (Or.inr (List.mem_cons_of_mem _ h3))) iw hiw2 hiwlt
                rw [hlv2] at hlv'
                cases hlv'
                omega
          · obtain ⟨blk, hblk, hwblk⟩ := (mem_sccsNodes s2 w).mp hws
            obtain ⟨⟨j, hj⟩, hjget⟩ := List.mem_iff_get.mp hblk
            refine ⟨j, by rw [hlen]; omega, by omega, ?_⟩
            have h2 : (s2.sccs ++ [B]).get ⟨j, by rw [hlen]; omega⟩ =
                s2.sccs.get ⟨j, hj⟩ := List.getElem_append_left hj
            rw [h2, hjget]
            exact hwblk
      · intro blk hblk
        rcases List.mem_append.mp hblk with h | h
        · exact hI2.blockAcy blk h
        · simp only [List.mem_singleton] at h
          subst h
          exact ⟨v, τ2, rfl, rfl⟩
    · -- the postcondition after emission
      refine ⟨⟨(v, s.current) :: nw, ?_, ?_⟩, hvidx2, ?_,
        (show s.current < s2.current by omega), ?_, ?_, ?_, ?_⟩
      · exact hidx2
      · intro p hp
        rcases List.mem_cons.mp hp with rfl | h
        · exact le_refl _
        · have := hnwval p h
          have he1 : s1.current = s.current + 1 := rfl
          show s.current ≤ p.2
          omega
      · intro x lx hlx
        have hxv : x ≠ v := by
          intro h
          rw [h] at hlx
          have h2 := hI.llIff v
          rw [hvn, hlx] at h2
          simp at h2
        have h1 : alookup s1.lowlink x = some lx := by
          show alookup (aset s.lowlink v s.current) x = some lx
          rw [alookup_aset_ne _ _ _ _ (fun h => hxv h.symm)]
          exact hlx
        exact hc2 x hxv lx h1
      · refine ⟨bs ++ [B], ?_, ?_⟩
        · show s2.sccs ++ [B] = s.sccs ++ (bs ++ [B])
          rw [hbs]
          show (s1.sccs ++ bs) ++ [B] = _
          rw [show s1.sccs = s.sccs from rfl, List.append_assoc]
        · intro blk hblk x hx
          rcases List.mem_append.mp hblk with h | h
          · have h2 := hbsfresh blk h x hx
            have h3 : alookup (aset s.index v s.current) x = none := h2
            rw [hidx1] at h3
            exact alookup_append_none_left _ _ _ h3
          · simp only [List.mem_singleton] at h
            subst h
            exact hBfresh x hx
      · intro h
        exact h
      · intro m hm hmc
        have hm1 : LBoundStack m s1 := by
          obtain ⟨hma, hmb, _⟩ := hm
          refine ⟨?_, ?_, by show m ≤ s.current + 1; omega⟩
          · intro x hx ix hix
            rcases List.mem_cons.mp hx with rfl | h2
            · rw [hvidx1] at hix
              cases hix
              exact hmc
            · have hxv : v ≠ x := by
                intro hh
                subst hh
                exact absurd (hI.stackIdx v h2) (by rw [hvn]; simp)
              have h3 : alookup s.index x = some ix := by
                have h4 : alookup s1.index x = alookup s.index x := by
                  show alookup (aset s.index v s.current) x = _
                  rw [alookup_aset_ne _ _ _ _ hxv]
                rw [← h4]
                exact hix
              exact hma x h2 ix h3
          · intro x hx lx hlx
            rcases List.mem_cons.mp hx with rfl | h2
            · rw [hvll1] at hlx
              cases hlx
              exact hmc
            · have hxv : v ≠ x := by
                intro hh
                subst hh
                exact absurd (hI.stackIdx v h2) (by rw [hvn]; simp)
              have h3 : alookup s.lowlink x = some lx := by
                have h4 : alookup s1.lowlink x = alookup s.lowlink x := by
                  show alookup (aset s.lowlink v s.current) x = _
                  rw [alookup_aset_ne _ _ _ _ hxv]
                rw [← h4]
                exact hlx
              exact hmb x h2 lx h3
        have hm2 := hc6 m hm1
        constructor
        · obtain ⟨hma, hmb, hmcc⟩ := hm2
          refine ⟨?_, ?_, hmcc⟩
          · intro x hx ix hix
            exact hma x (hstk2 ▸ List.mem_append.mpr
              (Or.inr (List.mem_cons_of_mem _ hx))) ix hix
          · intro x hx lx hlx
            exact hmb x (hstk2 ▸ List.mem_append.mpr
              (Or.inr (List.mem_cons_of_mem _ hx))) lx hlx
        · intro lv hlv
          show m ≤ lv
          have h1 : alookup s'.lowlink v = some lv2 := hlv2
          rw [h1] at hlv
          cases hlv
          omega
      · refine ⟨[], by simp, by simp, by simp⟩
  · -- no emission: the node stays on the stack
    rw [if_neg hcheck] at hstep
    have hlv2lt : lv2 < s.current := by
      rcases Nat.lt_or_ge lv2 s.current with h | h
      · exact h
      · exfalso
        apply hcheck
        rw [hlv2, hvidx2]
        have : lv2 = s.current := by omega
        rw [this]
    refine ⟨s2, hstep, hI2, ⟨(v, s.current) :: nw, hidx2, ?_⟩, hvidx2, ?_, by omega,
      ?_, ?_, ?_, ?_⟩
    · intro p hp
      rcases List.mem_cons.mp hp with rfl | h
      · exact le_refl _
      · have := hnwval p h
        have he1 : s1.current = s.current + 1 := rfl
        show s.current ≤ p.2
        omega
    · intro x lx hlx
      have hxv : x ≠ v := by
        intro h
        rw [h] at hlx
        have h2 := hI.llIff v
        rw [hvn, hlx] at h2
        simp at h2
      have h1 : alookup s1.lowlink x = some lx := by
        show alookup (aset s.lowlink v s.current) x = some lx
        rw [alookup_aset_ne _ _ _ _ (fun h => hxv h.symm)]
        exact hlx
      exact hc2 x hxv lx h1
    · refine ⟨bs, ?_, ?_⟩
      · rw [hbs]
      · intro blk hblk x hx
        have h2 := hbsfresh blk hblk x hx
        have h3 : alookup (aset s.index v s.current) x = none := h2
        rw [hidx1] at h3
        exact alookup_append_none_left _ _ _ h3
    · -- with an empty stack below, the check cannot fail
      intro hemp
      exfalso
      have hm1 : LBoundStack s.current s1 := by
        refine ⟨?_, ?_, by show s.current ≤ s.current + 1; omega⟩
        · intro x hx ix hix
          rcases List.mem_cons.mp hx with rfl | h2
          · rw [hvidx1] at hix
            cases hix
            exact le_refl _
          · rw [hemp] at h2
            cases h2
        · intro x hx lx hlx
          rcases List.mem_cons.mp hx with rfl | h2
          · rw [hvll1] at hlx
            cases hlx
            exact le_refl _
          · rw [hemp] at h2
            cases h2
      obtain ⟨_, hmb, _⟩ := hc6 s.current hm1
      have h1 : v ∈ s2.stack := by
        rw [hstk2]
        exact List.mem_append.mpr (Or.inr (List.mem_cons_self _ _))
      have h2 := hmb v h1 lv2 hlv2
      omega
    · intro m hm hmc
      have hm1 : LBoundStack m s1 := by
        obtain ⟨hma, hmb, _⟩ := hm
        refine ⟨?_, ?_, by show m ≤ s.current + 1; omega⟩
        · intro x hx ix hix
          rcases List.mem_cons.mp hx with rfl | h2
          · rw [hvidx1] at hix
            cases hix
            exact hmc
          · have hxv : v ≠ x := by
              intro hh
              subst hh
              exact absurd (hI.stackIdx v h2) (by rw [hvn]; simp)
            have h3 : alookup s.index x = some ix := by
              have h4 : alookup s1.index x = alookup s.index x := by
                show alookup (aset s.index v s.current) x = _
                rw [alookup_aset_ne _ _ _ _ hxv]
              rw [← h4]
              exact hix
            exact hma x h2 ix h3
        · intro x hx lx hlx
          rcases List.mem_cons.mp hx with rfl | h2
          · rw [hvll1] at hlx
            cases hlx
            exact hmc
          · have hxv : v ≠ x := by
              intro hh
              subst hh
              exact absurd (hI.stackIdx v h2) (by rw [hvn]; simp)
            have h3 : alookup s.lowlink x = some lx := by
              have h4 : alookup s1.lowlink x = alookup s.lowlink x := by
                show alookup (aset s.lowlink v s.current) x = _
                rw [alookup_aset_ne _ _ _ _ hxv]
              rw [← h4]
              exact hlx
            exact hmb x h2 lx h3
      have hm2 := hc6 m hm1
      constructor
      · exact hm2
      · intro lv hlv
        obtain ⟨_, hmb, _⟩ := hm2
        have h1 : v ∈ s2.stack := by
          rw [hstk2]
          exact List.mem_append.mpr (Or.inr (List.mem_cons_self _ _))
        exact hmb v h1 lv hlv
    · refine ⟨τ2 ++ [v], ?_, ?_, ?_⟩
      · rw [hstk2, List.append_assoc]
        rfl
      · intro x hx
        exact hBfresh x hx
      · intro u hu w hw
        rcases List.mem_append.mp hu with h | h
        · exact hτ2G u h w hw
        · simp only [List.mem_singleton] at h
          subst h
          exact hc8 w hw

/-- At any fuel, the `strongConnect` specification holds: base case is vacuous
because a traversal never needs more fuel than the number of unindexed keys. -/
theorem scspec_all (succ : NodeId → List NodeId) (hasE : NodeId → NodeId → Bool)
    (allKeys : List NodeId) (hsucc : ∀ k w, w ∈ succ k → w ∈ allKeys)
    (fuel : Nat) : SCspec succ hasE allKeys fuel := by
  induction fuel with
  | zero =>
    intro v s hI hvk hvn hfuel
    exfalso
    have h1 := TInv_idxLen hI
    omega
  | succ f ih =>
    exact scspec_of_psspec succ hasE allKeys hsucc f
      (psspec_of_scspec succ hasE allKeys hsucc f ih)

/-- Running the root loop of `findSCCs` over a list of keys preserves the
Tarjan invariant and the empty stack, and indexes every listed key. -/
theorem findSCCsLoop_run (succ : NodeId → List NodeId) (hasE : NodeId → NodeId → Bool)
    (allKeys : List NodeId) (hsucc : ∀ k w, w ∈ succ k → w ∈ allKeys)
    (fuel : Nat) (hfuel : allKeys.length + 1 ≤ fuel) :
    ∀ ks s, (∀ k ∈ ks, k ∈ allKeys) → TInv succ hasE allKeys s → s.stack = [] →
    ∃ s', findSCCsLoop succ hasE fuel ks s = some s' ∧
      TInv succ hasE allKeys s' ∧ s'.stack = [] ∧
      (∀ k ∈ ks, (alookup s'.index k).isSome = true) ∧
      (∀ k, (alookup s.index k).isSome = true → (alookup s'.index k).isSome = true) := by
  intro ks
  induction ks with
  | nil =>
    intro s _ hI hstk
    exact ⟨s, rfl, hI, hstk, (by intro k hk; cases hk), fun k h => h⟩
  | cons k ks ih =>
    intro s hks hI hstk
    by_cases hidx : (alookup s.index k).isNone = true
    · have hkn : alookup s.index k = none := Option.isNone_iff_eq_none.mp hidx
      obtain ⟨s1, hsc, hI1, hpost⟩ :=
        scspec_all succ hasE allKeys hsucc fuel k s hI (hks k (List.mem_cons_self k ks))
          hkn (by omega)
      obtain ⟨⟨nw, hnw, _⟩, hvidx, _, _, _, hemp, _, _⟩ := hpost
      have hstep : findSCCsLoop succ hasE fuel (k :: ks) s =
          findSCCsLoop succ hasE fuel ks s1 := by
        rw [findSCCsLoop]
        rw [if_pos hidx, hsc]
      obtain ⟨s', hrun, hI', hstk', hall', hpres'⟩ :=
        ih s1 (fun x hx => hks x (List.mem_cons_of_mem _ hx)) hI1 (hemp hstk)
      refine ⟨s', hstep ▸ hrun, hI', hstk', ?_, ?_⟩
      · intro x hx
        rcases List.mem_cons.mp hx with rfl | hx2
        · exact hpres' x (by rw [hvidx]; rfl)
        · exact hall' x hx2
      · intro x hx
        refine hpres' x ?_
        rw [hnw, alookup_isSome_append _ _ _ hx]
        exact hx
    · have hstep : findSCCsLoop succ hasE fuel (k :: ks) s =
          findSCCsLoop succ hasE fuel ks s := by
        rw [findSCCsLoop]
        rw [if_neg hidx]
      obtain ⟨s', hrun, hI', hstk', hall', hpres'⟩ :=
        ih s (fun x hx => hks x (List.mem_cons_of_mem _ hx)) hI hstk
      refine ⟨s', hstep ▸ hrun, hI', hstk', ?_, hpres'⟩
      intro x hx
      rcases List.mem_cons.mp hx with rfl | hx2
      · refine hpres' x ?_
        cases h2 : alookup s.index x with
        | none => rw [h2] at hidx; exact absurd rfl hidx
        | some i => rfl
      · exact hall' x hx2

/-- On a well-formed graph, `findSCCs` terminates within its fuel bound and
produces blocks satisfying the structural invariants: identifiers equal
positions, every node key is covered exactly once, block nodes are node keys,
edges never escape to a strictly later block, and each block records
acyclicity as the singleton/no-self-loop test on its root. -/
theorem findSCCs_run {α β : Type} (g : DirectedGraph α β) (hw : Wf g) :
    ∃ l, g.findSCCs = some l ∧
      (∀ k ∈ g.nodeKeys, k ∈ (l.map SCC.nodes).flatten) ∧
      (∀ x ∈ (l.map SCC.nodes).flatten, x ∈ g.nodeKeys) ∧
      ((l.map SCC.nodes).flatten).Nodup ∧
      (∀ i (h : i < l.length), (l.get ⟨i, h⟩).id = i) ∧
      (∀ i (hi : i < l.length), ∀ u ∈ (l.get ⟨i, hi⟩).nodes,
        ∀ w ∈ g.getSuccessors u, ∃ j, ∃ (hj : j < l.length), j ≤ i ∧
          w ∈ (l.get ⟨j, hj⟩).nodes) ∧
      (∀ blk ∈ l, ∃ r rest, blk.nodes = rest ++ [r] ∧
        blk.isAcyclic = (decide (blk.nodes.length = 1) && !(g.hasEdge r r))) := by
  have hsucc : ∀ k w, w ∈ g.getSuccessors k → w ∈ g.nodeKeys :=
    fun k w h => (adjOfG_props g hw k).2 w h
  have hI0 : TInv g.getSuccessors g.hasEdge g.nodeKeys ⟨[], [], [], [], 0, []⟩ := by
    refine ⟨by simp, ?_, ?_, ?_, by simp, ?_, by simp, ?_, by simp, ?_, ?_, ?_,
      by simp [sccsNodes], ?_, ?_, ?_, ?_⟩
    · intro p hp; cases hp
    · intro v; rfl
    · intro v l i hl; cases hl
    · intro v; simp
    · intro v hv; cases hv
    · intro v hv; cases hv
    · intro v hv; rw [show alookup ([] : List (NodeId × Nat)) v = none from rfl] at hv
      cases hv
    · intro v hv; rw [mem_sccsNodes] at hv; obtain ⟨blk, hblk, _⟩ := hv; cases hblk
    · intro i h; cases h
    · intro i h; cases h
    · intro blk hblk; cases hblk
    · intro v hv; rw [show alookup ([] : List (NodeId × Nat)) v = none from rfl] at hv
      cases hv
  obtain ⟨s', hrun, hI', hstk', hall', _⟩ :=
    findSCCsLoop_run g.getSuccessors g.hasEdge g.nodeKeys hsucc
      (g.nodeKeys.length + 1) (by omega) g.nodeKeys ⟨[], [], [], [], 0, []⟩
      (fun k h => h) hI0 rfl
  refine ⟨s'.sccs, ?_, ?_, ?_, ?_, hI'.blockIds, hI'.blockEdges, hI'.blockAcy⟩
  · show DirectedGraph.findSCCs g = _
    unfold DirectedGraph.findSCCs
    rw [hrun]
  · intro k hk
    have h1 := hall' k hk
    rcases hI'.idxSplit k h1 with h | h
    · rw [hstk'] at h; cases h
    · exact h
  · intro x hx
    exact hI'.idxSub x (hI'.poppedIdx x hx)
  · exact hI'.poppedNodup

/-- Reachability as the existence of a walk. -/
def ReachesW {K : Type} (adj : K → List K) (a b : K) : Prop :=
  ∃ n, WalkN adj a b n

theorem ReachesW.rfl {K : Type} (adj : K → List K) (a : K) : ReachesW adj a a :=
  ⟨0, WalkN.refl a⟩

theorem ReachesW.snoc {K : Type} {adj : K → List K} {a v w : K}
    (h : ReachesW adj a v) (he : w ∈ adj v) : ReachesW adj a w := by
  obtain ⟨n, hw⟩ := h
  exact ⟨n + 1, hw.step he⟩

theorem acyclicF_no_return {K : Type} {adj : K → List K} (hA : AcyclicF adj)
    {v w : K} (he : w ∈ adj v) (hr : ReachesW adj w v) : False := by
  obtain ⟨n, hw⟩ := hr
  have h1 : WalkN adj v w (0 + 1) := (WalkN.refl v).step he
  have h2 := WalkN_trans h1 hw
  have h3 : WalkN adj v v (n + 1) := by
    have : 0 + 1 + n = n + 1 := by omega
    rw [this] at h2
    exact h2
  exact hA v n h3

theorem findIdx_found {α : Type} (p : α → Bool) :
    ∀ l : List α, ∀ x ∈ l, p x = true → l.findIdx p < l.length := by
  intro l
  induction l with
  | nil => intro x hx; cases hx
  | cons a l ih =>
    intro x hx hp
    rw [List.findIdx_cons]
    cases hpa : p a with
    | true => simp
    | false =>
      simp only [cond_false]
      rcases List.mem_cons.mp hx with rfl | h2
      · rw [hpa] at hp; cases hp
      · have := ih x h2 hp
        simp only [List.length_cons]
        omega

theorem findIdx_get {α : Type} (p : α → Bool) :
    ∀ l : List α, ∀ h : l.findIdx p < l.length, p (l.get ⟨l.findIdx p, h⟩) = true := by
  intro l
  induction l with
  | nil => intro h; simp at h
  | cons a l ih =>
    intro h
    cases hpa : p a with
    | true =>
      have h0 : (a :: l).findIdx p = 0 := by rw [List.findIdx_cons, hpa]; rfl
      have : (a :: l).get ⟨(a :: l).findIdx p, h⟩ = a := by
        have h1 : (⟨(a :: l).findIdx p, h⟩ : Fin (a :: l).length) = ⟨0, Nat.succ_pos _⟩ :=
          Fin.ext h0
        rw [h1]
        rfl
      rw [this]
      exact hpa
    | false =>
      have h0 : (a :: l).findIdx p = l.findIdx p + 1 := by
        rw [List.findIdx_cons, hpa]; rfl
      have hlt : l.findIdx p < l.length := by
        have := h
        rw [h0] at this
        simpa using this
      have : (a :: l).get ⟨(a :: l).findIdx p, h⟩ = l.get ⟨l.findIdx p, hlt⟩ := by
        have h2 : ∀ (i : Nat) (hi : i < (a :: l).length) (hi' : i = l.findIdx p + 1),
            (a :: l).get ⟨i, hi⟩ = l.get ⟨l.findIdx p, hlt⟩ := by
          intro i hi hi'
          subst hi'
          rfl
        exact h2 _ h h0
      rw [this]
      exact ih hlt

theorem findIdx_min {α : Type} (p : α → Bool) :
    ∀ l : List α, ∀ i, ∀ hi : i < l.length, p (l.get ⟨i, hi⟩) = true →
      l.findIdx p ≤ i := by
  intro l
  induction l with
  | nil => intro i hi; simp at hi
  | cons a l ih =>
    intro i hi hp
    cases hpa : p a with
    | true =>
      have h0 : (a :: l).findIdx p = 0 := by rw [List.findIdx_cons, hpa]; rfl
      omega
    | false =>
      have h0 : (a :: l).findIdx p = l.findIdx p + 1 := by
        rw [List.findIdx_cons, hpa]; rfl
      cases i with
      | zero =>
        have : (a :: l).get ⟨0, hi⟩ = a := rfl
        rw [this, hpa] at hp
        cases hp
      | succ j =>
        have hj : j < l.length := by simpa using hi
        have : (a :: l).get ⟨j + 1, hi⟩ = l.get ⟨j, hj⟩ := rfl
        rw [this] at hp
        have := ih j hj hp
        omega

/-- Index of the first block containing a node. -/
def blockIdx (l : List SCC) (x : NodeId) : Nat :=
  l.findIdx (fun blk => decide (x ∈ blk.nodes))

/-- If every block is a self-loop-free singleton and block edges never point
to later blocks, the successor relation is acyclic: the block index is a
strictly decreasing measure along edges. -/
theorem acyclicF_of_blocks (succ : NodeId → List NodeId)
    (hasE : NodeId → NodeId → Bool) (allKeys : List NodeId) (l : List SCC)
    (hEdgeIff : ∀ u v, hasE u v = true ↔ v ∈ succ u)
    (hdom : ∀ a b, b ∈ succ a → a ∈ allKeys)
    (hcov : ∀ k ∈ allKeys, k ∈ (l.map SCC.nodes).flatten)
    (hedges : ∀ i (hi : i < l.length), ∀ u ∈ (l.get ⟨i, hi⟩).nodes,
      ∀ w ∈ succ u, ∃ j, ∃ (hj : j < l.length), j ≤ i ∧
        w ∈ (l.get ⟨j, hj⟩).nodes)
    (hacy : ∀ blk ∈ l, ∃ r rest, blk.nodes = rest ++ [r] ∧
      blk.isAcyclic = (decide (blk.nodes.length = 1) && !(hasE r r)))
    (hAll : ∀ blk ∈ l, blk.isAcyclic = true) : AcyclicF succ := by
  apply acyclicF_of_measure (blockIdx l)
  intro a b hb
  have hak : a ∈ allKeys := hdom a b hb
  have haf : a ∈ (l.map SCC.nodes).flatten := hcov a hak
  obtain ⟨ns, hns, hans⟩ := List.mem_flatten.mp haf
  obtain ⟨blk0, hblk0, hbn0⟩ := List.mem_map.mp hns
  obtain ⟨⟨i0, hi0⟩, hget0⟩ := List.mem_iff_get.mp hblk0
  have hfa : l.findIdx (fun blk => decide (a ∈ blk.nodes)) < l.length := by
    refine findIdx_found _ l blk0 hblk0 ?_
    rw [decide_eq_true_eq, hbn0]
    exact hans
  have hmem : a ∈ (l.get ⟨blockIdx l a, hfa⟩).nodes := by
    have := findIdx_get (fun blk => decide (a ∈ blk.nodes)) l hfa
    rw [decide_eq_true_eq] at this
    exact this
  obtain ⟨j, hj, hji, hbj⟩ := hedges (blockIdx l a) hfa a hmem b hb
  have hfb : blockIdx l b ≤ j :=
    findIdx_min _ l j hj (by rw [decide_eq_true_eq]; exact hbj)
  have hne : blockIdx l b ≠ blockIdx l a := by
    intro heq
    have hfb2 : blockIdx l b < l.length := by omega
    have hfb3 : l.findIdx (fun blk => decide (b ∈ blk.nodes)) < l.length := hfb2
    have hmb : b ∈ (l.get ⟨blockIdx l b, hfb2⟩).nodes := by
      have := findIdx_get (fun blk => decide (b ∈ blk.nodes)) l hfb3
      rw [decide_eq_true_eq] at this
      exact this
    set blk := l.get ⟨blockIdx l a, hfa⟩ with hblk
    have hblkmem : blk ∈ l := List.get_mem l _ _
    obtain ⟨r, rest, hnodes, hform⟩ := hacy blk hblkmem
    have htrue := hAll blk hblkmem
    rw [hform] at htrue
    simp only [Bool.and_eq_true] at htrue
    obtain ⟨h1, h2⟩ := htrue
    rw [decide_eq_true_eq] at h1
    have hrest : rest = [] := by
      rw [hnodes, List.length_append] at h1
      simp at h1
      exact h1
    rw [hrest] at hnodes
    simp only [List.nil_append] at hnodes
    have har : a = r := by
      have h4 := hmem
      rw [hnodes] at h4
      simpa using h4
    have hbr : b = r := by
      have h3 : (l.get ⟨blockIdx l b, hfb2⟩) = blk := by
        rw [hblk]
        congr 1
        exact Fin.ext heq
      have h4 := hmb
      rw [h3, hnodes] at h4
      simpa using h4
    have hse : hasE r r = true := by
      rw [hEdgeIff]
      rw [har] at hb
      rw [hbr] at hb
      exact hb
    rw [hse] at h2
    cases h2
  show blockIdx l b < blockIdx l a
  omega

/-- Conditional specification of `strongConnect` under an acyclic successor
relation: the stack is restored, the root keeps its own index as lowlink, and
every emitted block is acyclic. -/
def SCspecA (succ : NodeId → List NodeId) (hasE : NodeId → NodeId → Bool)
    (allKeys : List NodeId) (fuel : Nat) : Prop :=
  ∀ v s s', TInv succ hasE allKeys s → v ∈ allKeys → alookup s.index v = none →
    (∀ y ∈ s.stack, ReachesW succ y v) →
    allKeys.length + 1 ≤ fuel + s.index.length →
    strongConnect succ hasE fuel v s = some s' →
    s'.stack = s.stack ∧ alookup s'.lowlink v = some s.current ∧
    (∀ blk ∈ s'.sccs, blk ∈ s.sccs ∨ blk.isAcyclic = true)

/-- Conditional specification of the successor loop under acyclicity. -/
def PSspecA (succ : NodeId → List NodeId) (hasE : NodeId → NodeId → Bool)
    (allKeys : List NodeId) (fuel : Nat) : Prop :=
  ∀ v iv ws s s', TInv succ hasE allKeys s → (∀ w ∈ ws, w ∈ succ v) →
    v ∈ s.stack → alookup s.index v = some iv → iv < s.current →
    alookup s.lowlink v = some iv →
    (∀ y ∈ s.stack, ReachesW succ y v) →
    allKeys.length + 1 ≤ fuel + s.index.length →
    processSuccs succ hasE fuel v ws s = some s' →
    s'.stack = s.stack ∧ alookup s'.lowlink v = some iv ∧
    (∀ blk ∈ s'.sccs, blk ∈ s.sccs ∨ blk.isAcyclic = true)

/-- Under acyclicity, the successor-loop specification follows from the
`strongConnect` specification at the same fuel. -/
theorem psspecA_of_scspecA (succ : NodeId → List NodeId) (hasE : NodeId → NodeId → Bool)
    (allKeys : List NodeId) (hsucc : ∀ k w, w ∈ succ k → w ∈ allKeys)
    (hA : AcyclicF succ) (fuel : Nat) (hSCA : SCspecA succ hasE allKeys fuel)
    (hSC : SCspec succ hasE allKeys fuel) :
    PSspecA succ hasE allKeys fuel := by
  intro v iv ws
  induction ws with
  | nil =>
    intro s s' hI hws hvst hvi hvc hvl hreach hfuel hrun
    have h1 : s' = s := by
      have h2 : processSuccs succ hasE fuel v [] s = some s := by
        rw [processSuccs]
      rw [h2] at hrun
      exact (Option.some.inj hrun).symm
    subst h1
    exact ⟨rfl, hvl, fun blk hblk => Or.inl hblk⟩
  | cons w ws ih =>
    intro s s' hI hws hvst hvi hvc hvl hreach hfuel hrun
    have hwsucc : w ∈ succ v := hws w (List.mem_cons_self w ws)
    have hstep : processSuccs succ hasE fuel v (w :: ws) s =
        (if (alookup s.index w).isNone then
          match strongConnect succ hasE fuel w s with
          | none => none
          | some s2 =>
            processSuccs succ hasE fuel v ws { s2 with
              lowlink := aset s2.lowlink v
                (min ((alookup s2.lowlink v).getD 0) ((alookup s2.lowlink w).getD 0)) }
        else if w ∈ s.onStack then
          processSuccs succ hasE fuel v ws { s with
            lowlink := aset s.lowlink v
              (min ((alookup s.lowlink v).getD 0) ((alookup s.index w).getD 0)) }
        else processSuccs succ hasE fuel v ws s) := by
      conv_lhs => rw [processSuccs]
    by_cases hwi : (alookup s.index w).isNone = true
    · -- unvisited successor: recursive strongConnect call
      have hwn : alookup s.index w = none := Option.isNone_iff_eq_none.mp hwi
      rw [if_pos hwi] at hstep
      obtain ⟨s2, hsc2, hI2, hpost⟩ :=
        hSC w s hI (hsucc v w hwsucc) hwn hfuel
      rw [hsc2] at hstep
      dsimp only at hstep
      have hcond := hSCA w s s2 hI (hsucc v w hwsucc) hwn
        (fun y hy => (hreach y hy).snoc hwsucc) hfuel hsc2
      obtain ⟨hstk2, hlw2, hblk2⟩ := hcond
      obtain ⟨⟨nw2, hnw2, _⟩, _, hllpres, hcur2, _, _, _, _⟩ := hpost
      have hvi2 : alookup s2.index v = some iv := by
        rw [hnw2]
        exact alookup_append_left _ _ _ _ hvi
      have hvl2 : alookup s2.lowlink v = some iv := hllpres v iv hvl
      have hmin : min ((alookup s2.lowlink v).getD 0) ((alookup s2.lowlink w).getD 0)
          = iv := by
        rw [hvl2, hlw2]
        show min iv s.current = iv
        omega
      rw [hmin] at hstep
      rw [hstep] at hrun
      have hI3 : TInv succ hasE allKeys { s2 with
          lowlink := aset s2.lowlink v (min ((alookup s2.lowlink v).getD 0) iv) } := by
        refine TInv_fold succ hasE allKeys s2 v iv hI2 ?_
        rw [hvi2]
        rfl
      have hmin2 : min ((alookup s2.lowlink v).getD 0) iv = iv := by
        rw [hvl2]
        show min iv iv = iv
        omega
      rw [hmin2] at hI3
      have hrec := ih { s2 with lowlink := aset s2.lowlink v iv } s' hI3
        (fun x hx => hws x (List.mem_cons_of_mem _ hx))
        (by show v ∈ s2.stack; rw [hstk2]; exact hvst)
        (by show alookup s2.index v = some iv; exact hvi2)
        (by show iv < s2.current; omega)
        (by show alookup (aset s2.lowlink v iv) v = some iv; rw [alookup_aset, if_pos rfl])
        (by intro y hy; exact hreach y (by rw [← hstk2]; exact hy))
        (by
          show allKeys.length + 1 ≤ fuel + s2.index.length
          rw [hnw2, List.length_append]
          omega)
        hrun
      obtain ⟨hr1, hr2, hr3⟩ := hrec
      refine ⟨by rw [hr1]; exact hstk2, hr2, ?_⟩
      intro blk hblk
      rcases hr3 blk hblk with h | h
      · exact hblk2 blk h
      · exact Or.inr h
    · rw [if_neg hwi] at hstep
      by_cases hwon : w ∈ s.onStack
      · -- an on-stack successor closes a cycle, impossible here
        exfalso
        have hwstk : w ∈ s.stack := (hI.onStackIff w).mp hwon
        exact acyclicF_no_return hA hwsucc (hreach w hwstk)
      · rw [if_neg hwon] at hstep
        rw [hstep] at hrun
        exact ih s s' hI (fun x hx => hws x (List.mem_cons_of_mem _ hx))
          hvst hvi hvc hvl hreach hfuel hrun

/-- Under acyclicity, the `strongConnect` specification at successor fuel
follows from the successor-loop specification: the check always passes and
pops exactly the root as a fresh acyclic singleton block. -/
theorem scspecA_of_psspecA (succ : NodeId → List NodeId) (hasE : NodeId → NodeId → Bool)
    (allKeys : List NodeId) (hsucc : ∀ k w, w ∈ succ k → w ∈ allKeys)
    (hA : AcyclicF succ) (hH : ∀ k, hasE k k = true → k ∈ succ k)
    (f : Nat) (hPSA : PSspecA succ hasE allKeys f)
    (hPS : PSspec succ hasE allKeys f) :
    SCspecA succ hasE allKeys (f + 1) := by
  intro v s s' hI hvk hvn hreach hfuel hrun
  obtain ⟨hI1, hidx1, hll1⟩ := TInv_push succ hasE allKeys s v hI hvk hvn
  have hstep : strongConnect succ hasE (f + 1) v s =
      (let s1 : TarjanSt := { s with
        index := aset s.index v s.current,
        lowlink := aset s.lowlink v s.current,
        current := s.current + 1,
        stack := v :: s.stack,
        onStack := sadd s.onStack v }
      match processSuccs succ hasE f v (succ v) s1 with
      | none => none
      | some s2 =>
        if alookup s2.lowlink v = alookup s2.index v then
          let pr := popUntil v s2.stack
          let scc : SCC := { id := s2.sccs.length,
                             nodes := pr.1,
                             isAcyclic := decide (pr.1.length = 1) && !(hasE v v) }
          some { s2 with
            stack := pr.2,
            onStack := pr.1.foldl (fun os w => os.erase w) s2.onStack,
            sccs := s2.sccs ++ [scc] }
        else some s2) := by
    conv_lhs => rw [strongConnect]
  set s1 : TarjanSt := { s with
    index := aset s.index v s.current,
    lowlink := aset s.lowlink v s.current,
    current := s.current + 1,
    stack := v :: s.stack,
    onStack := sadd s.onStack v } with hs1
  have hvidx1 : alookup s1.index v = some s.current := by
    show alookup (aset s.index v s.current) v = _
    rw [alookup_aset_self]
  have hvll1 : alookup s1.lowlink v = some s.current := by
    show alookup (aset s.lowlink v s.current) v = _
    rw [alookup_aset_self]
  have hvst1 : v ∈ s1.stack := List.mem_cons_self _ _
  have hlen1 : s1.index.length = s.index.length + 1 := by
    show (aset s.index v s.current).length = _
    rw [hidx1, List.length_append]
    rfl
  have hfuel1 : allKeys.length + 1 ≤ f + s1.index.length := by
    rw [hlen1]
    omega
  obtain ⟨s2, hps, hI2, hc1, hc2, hc3, hc4, hc5, hc6, hc7, hc8⟩ :=
    hPS v s.current (succ v) s1 hI1 (fun w hw => hsucc v w hw) hvst1 hvidx1
      (by show s.current < s.current + 1; omega) hfuel1
  obtain ⟨nw, hnw, hnwval⟩ := id hc1
  have hcondA := hPSA v s.current (succ v) s1 s2 hI1 (fun w hw => hw) hvst1 hvidx1
    (by show s.current < s.current + 1; omega) hvll1
    (by
      intro y hy
      rcases List.mem_cons.mp hy with rfl | h2
      · exact ReachesW.rfl succ y
      · obtain ⟨n, hwn⟩ := hreach y h2
        exact ⟨n, hwn⟩)
    hfuel1 hps
  obtain ⟨hstk2, hlv2, hblk2⟩ := hcondA
  have hvidx2 : alookup s2.index v = some s.current := by
    rw [hnw]
    exact alookup_append_left _ _ _ _ hvidx1
  dsimp only at hstep
  rw [hps] at hstep
  dsimp only at hstep
  rw [if_pos (by rw [hlv2, hvidx2])] at hstep
  have hpop : popUntil v s2.stack = ([v], s.stack) := by
    rw [hstk2]
    show popUntil v (v :: s.stack) = _
    rw [popUntil]
    rw [if_pos rfl]
  rw [hpop] at hstep
  dsimp only at hstep
  rw [hrun] at hstep
  have hs' := Option.some.inj hstep
  have hsf : hasE v v = false := by
    cases h : hasE v v with
    | false => rfl
    | true =>
      exfalso
      have hvs := hH v h
      exact hA v 0 ((WalkN.refl v).step hvs)
  refine ⟨?_, ?_, ?_⟩
  · rw [hs']
  · rw [hs']
    exact hlv2
  · intro blk hblk
    rw [hs'] at hblk
    have hblk3 : blk ∈ s2.sccs ++ [{
        id := s2.sccs.length,
        nodes := [v],
        isAcyclic := decide (([v] : List NodeId).length = 1) && !(hasE v v) }] := hblk
    rcases List.mem_append.mp hblk3 with h | h
    · rcases hblk2 blk h with h2 | h2
      · exact Or.inl h2
      · exact Or.inr h2
    · simp only [List.mem_singleton] at h
      subst h
      right
      show (decide (([v] : List NodeId).length = 1) && !(hasE v v)) = true
      rw [hsf]
      rfl

/-- The conditional `strongConnect` specification holds at every fuel. -/
theorem scspecA_all (succ : NodeId → List NodeId) (hasE : NodeId → NodeId → Bool)
    (allKeys : List NodeId) (hsucc : ∀ k w, w ∈ succ k → w ∈ allKeys)
    (hA : AcyclicF succ) (hH : ∀ k, hasE k k = true → k ∈ succ k)
    (fuel : Nat) : SCspecA succ hasE allKeys fuel := by
  induction fuel with
  | zero =>
    intro v s s' _ _ _ _ _ hrun
    rw [strongConnect] at hrun
    cases hrun
  | succ f ih =>
    exact scspecA_of_psspecA succ hasE allKeys hsucc hA hH f
      (psspecA_of_scspecA succ hasE allKeys hsucc hA f ih
        (scspec_all succ hasE allKeys hsucc f))
      (psspec_of_scspec succ hasE allKeys hsucc f
        (scspec_all succ hasE allKeys hsucc f))

/-- Under acyclicity, every block emitted by the root loop is acyclic. -/
theorem findSCCsLoop_acyclic (succ : NodeId → List NodeId)
    (hasE : NodeId → NodeId → Bool) (allKeys : List NodeId)
    (hsucc : ∀ k w, w ∈ succ k → w ∈ allKeys)
    (hA : AcyclicF succ) (hH : ∀ k, hasE k k = true → k ∈ succ k)
    (fuel : Nat) (hfuel : allKeys.length + 1 ≤ fuel) :
    ∀ ks s s', (∀ k ∈ ks, k ∈ allKeys) → TInv succ hasE allKeys s →
    s.stack = [] → findSCCsLoop succ hasE fuel ks s = some s' →
    ∀ blk ∈ s'.sccs, blk ∈ s.sccs ∨ blk.isAcyclic = true := by
  intro ks
  induction ks with
  | nil =>
    intro s s' _ _ _ hrun
    have h1 : findSCCsLoop succ hasE fuel [] s = some s := by rw [findSCCsLoop]
    rw [h1] at hrun
    have h2 := Option.some.inj hrun
    subst h2
    exact fun blk hblk => Or.inl hblk
  | cons k ks ih =>
    intro s s' hks hI hstk hrun
    by_cases hidx : (alookup s.index k).isNone = true
    · have hkn : alookup s.index k = none := Option.isNone_iff_eq_none.mp hidx
      obtain ⟨sc, hsc, hIc, hpost⟩ :=
        scspec_all succ hasE allKeys hsucc fuel k s hI
          (hks k (List.mem_cons_self k ks)) hkn (by omega)
      have hcond := scspecA_all succ hasE allKeys hsucc hA hH fuel k s sc hI
        (hks k (List.mem_cons_self k ks)) hkn
        (by rw [hstk]; intro y hy; cases hy) (by omega) hsc
      obtain ⟨hstkc, _, hblkc⟩ := hcond
      have hstep : findSCCsLoop succ hasE fuel (k :: ks) s =
          findSCCsLoop succ hasE fuel ks sc := by
        rw [findSCCsLoop]
        rw [if_pos hidx, hsc]
      rw [hstep] at hrun
      have hrec := ih sc s' (fun x hx => hks x (List.mem_cons_of_mem _ hx)) hIc
        (by rw [hstkc]; exact hstk) hrun
      intro blk hblk
      rcases hrec blk hblk with h | h
      · exact hblkc blk h
      · exact Or.inr h
    · have hstep : findSCCsLoop succ hasE fuel (k :: ks) s =
          findSCCsLoop succ hasE fuel ks s := by
        rw [findSCCsLoop]
        rw [if_neg hidx]
      rw [hstep] at hrun
      exact ih s s' (fun x hx => hks x (List.mem_cons_of_mem _ hx)) hI hstk hrun

/-- On a well-formed acyclic graph, every block reported by `findSCCs` is
marked acyclic. -/
theorem findSCCs_acyclic {α β : Type} (g : DirectedGraph α β) (hw : Wf g)
    (hA : AcyclicF g.getSuccessors) (l : List SCC) (hl : g.findSCCs = some l) :
    ∀ blk ∈ l, blk.isAcyclic = true := by
  have hsucc : ∀ k w, w ∈ g.getSuccessors k → w ∈ g.nodeKeys :=
    fun k w h => (adjOfG_props g hw k).2 w h
  have hH : ∀ k, g.hasEdge k k = true → k ∈ g.getSuccessors k := by
    intro k h
    exact (hw.edgeIdx k k).mp h
  have hI0 : TInv g.getSuccessors g.hasEdge g.nodeKeys ⟨[], [], [], [], 0, []⟩ := by
    refine ⟨by simp, ?_, ?_, ?_, by simp, ?_, by simp, ?_, by simp, ?_, ?_, ?_,
      by simp [sccsNodes], ?_, ?_, ?_, ?_⟩
    · intro p hp; cases hp
    · intro v; rfl
    · intro v l2 i hl2; cases hl2
    · intro v; simp
    · intro v hv; cases hv
    · intro v hv; cases hv
    · intro v hv; rw [show alookup ([] : List (NodeId × Nat)) v = none from rfl] at hv
      cases hv
    · intro v hv; rw [mem_sccsNodes] at hv; obtain ⟨blk, hblk, _⟩ := hv; cases hblk
    · intro i h; cases h
    · intro i h; cases h
    · intro blk hblk; cases hblk
    · intro v hv; rw [show alookup ([] : List (NodeId × Nat)) v = none from rfl] at hv
      cases hv
  unfold DirectedGraph.findSCCs at hl
  cases hloop : findSCCsLoop g.getSuccessors g.hasEdge (g.nodeKeys.length + 1)
      g.nodeKeys ⟨[], [], [], [], 0, []⟩ with
  | none => rw [hloop] at hl; cases hl
  | some sf =>
    rw [hloop] at hl
    have hlf : l = sf.sccs := (Option.some.inj hl).symm
    subst hlf
    have := findSCCsLoop_acyclic g.getSuccessors g.hasEdge g.nodeKeys hsucc hA hH
      (g.nodeKeys.length + 1) (by omega) g.nodeKeys ⟨[], [], [], [], 0, []⟩ sf
      (fun k hk => hk) hI0 rfl hloop
    intro blk hblk
    rcases this blk hblk with h | h
    · cases h
    · exact h

/-- C1: for every graph built through the engine's public API,
`topologicalSort` returns a non-null order if and only if every component
returned by `findSCCs` is a singleton with no self-loop, i.e. every reported
SCC has `isAcyclic = true`. -/
theorem topologicalSort_iff_sccs {α β : Type} (g : DirectedGraph α β)
    (hb : Built g) :
    ∃ l r, g.findSCCs = some l ∧ g.topologicalSort = some r ∧
      (r.isSome = true ↔ ∀ blk ∈ l, blk.isAcyclic = true) := by
  have hw := built_wf g hb
  obtain ⟨l, hl, hcov, hsub, hnd, hids, hedges, hacy⟩ := findSCCs_run g hw
  obtain ⟨r, hr, hiff⟩ := topologicalSort_acyclic_iff g hw
  refine ⟨l, r, hl, hr, ?_⟩
  constructor
  · intro h
    exact findSCCs_acyclic g hw (hiff.mp h) l hl
  · intro h
    apply hiff.mpr
    exact acyclicF_of_blocks g.getSuccessors g.hasEdge g.nodeKeys l
      (fun u v => hw.edgeIdx u v) (adjOfG_dom g hw) hcov hedges hacy h

/-- Witness for C1 at a concrete two-node one-edge graph built through the
public API. -/
theorem topologicalSort_iff_sccs_witness :
    Built singleGraphAB ∧
    ∃ l r, singleGraphAB.findSCCs = some l ∧
      singleGraphAB.topologicalSort = some r ∧
      (r.isSome = true ↔ ∀ blk ∈ l, blk.isAcyclic = true) :=
  have hb : Built singleGraphAB :=
    Built.edge ['a'] ['b'] none
      (Built.node ['b'] none
        (Built.node ['a'] none
          (Built.base defaultGraphOptions)))
  ⟨hb, topologicalSort_iff_sccs singleGraphAB hb⟩

/-- DFS edge classifications (`EdgeType`). -/
inductive EdgeType
  | tree
  | back
  | forward
  | cross
deriving DecidableEq

/-- A condensation component (`CondensationComponent`). -/
structure CondensationComponent (β : Type) where
  id : Nat
  members : List NodeId
  isLoop : Bool
  entryEdges : List (Edge β)
  exitEdges : List (Edge β)
  internalEdges : List (Edge β)
  feedbackEdges : List (Edge β)

/-- The condensation graph (`CondensationGraph`). -/
structure CondensationGraph (β : Type) where
  components : List (CondensationComponent β)
  componentMap : List (NodeId × Nat)
  topologicalOrder : List Nat

/-- The node-to-component map built by the first loop of
`buildCondensationGraph`. -/
def buildComponentMap (sccs : List SCC) : List (NodeId × Nat) :=
  sccs.foldl (fun m scc => scc.nodes.foldl (fun m2 n => aset m2 n scc.id) m) []

/-- Mutation of the component with a given id; component objects are shared
between the `components` array and the id map, and ids are distinct for the
blocks produced by `findSCCs`, so updating by id models the JS aliasing. -/
def pushBucket {β : Type} (cs : List (CondensationComponent β)) (cid : Nat)
    (f : CondensationComponent β → CondensationComponent β) :
    List (CondensationComponent β) :=
  cs.map (fun c => if c.id = cid then f c else c)

/-- The single pass over `this.edges.values()` in `buildCondensationGraph`:
classify each edge against the component map, record it in the appropriate
buckets, and maintain the deduplicated component adjacency with in-degrees.
`none` models the two `throw` statements and the non-null assertion on
`compAdj.get(cf)!`. -/
def condensePass {β : Type} (cmap : List (NodeId × Nat))
    (eclass : List (EdgeId × EdgeType)) :
    List (EdgeId × Edge β) → List (CondensationComponent β) →
    List (Nat × List Nat) → List (Nat × Int) →
    Option (List (CondensationComponent β) × List (Nat × List Nat) × List (Nat × Int))
  | [], cs, compAdj, indeg => some (cs, compAdj, indeg)
  | (_, e) :: rest, cs, compAdj, indeg =>
    match alookup cmap e.fromId, alookup cmap e.toId with
    | some cf, some ct =>
      if (cs.find? (fun c => decide (c.id = cf))).isSome &&
          (cs.find? (fun c => decide (c.id = ct))).isSome then
        if cf = ct then
          condensePass cmap eclass rest
            (pushBucket cs cf (fun c =>
              { c with
                internalEdges := c.internalEdges ++ [e],
                feedbackEdges :=
                  if alookup eclass e.id = some EdgeType.back then
                    c.feedbackEdges ++ [e]
                  else c.feedbackEdges }))
            compAdj indeg
        else
          let cs2 := pushBucket
            (pushBucket cs cf (fun c => { c with exitEdges := c.exitEdges ++ [e] }))
            ct (fun c => { c with entryEdges := c.entryEdges ++ [e] })
          match alookup compAdj cf with
          | none => none
          | some s =>
            if ct ∈ s then
              condensePass cmap eclass rest cs2 compAdj indeg
            else
              condensePass cmap eclass rest cs2 (aset compAdj cf (sadd s ct))
                (aset indeg ct ((alookup indeg ct).getD 0 + 1))
      else none
    | _, _ => none

/-- `buildCondensationGraph`, parametrised over the edge-classification map
(the `precomputed.edgeClassifications` argument, which only feeds the
`feedbackEdges` buckets); the components come from `findSCCs` as in the
default call.  The outer `Option` is `none` on a fuel failure or a `throw`,
both ruled out for well-formed graphs. -/
def DirectedGraph.buildCondensationGraph {α β : Type} (g : DirectedGraph α β)
    (eclass : List (EdgeId × EdgeType)) : Option (CondensationGraph β) :=
  match g.findSCCs with
  | none => none
  | some sccs =>
    let cmap := buildComponentMap sccs
    let components := sccs.map (fun scc =>
      { id := scc.id, members := scc.nodes, isLoop := !scc.isAcyclic,
        entryEdges := [], exitEdges := [], internalEdges := [],
        feedbackEdges := [] : CondensationComponent β })
    let compAdj0 := components.foldl
      (fun m c => aset m c.id ([] : List Nat)) []
    let indeg0 := components.foldl
      (fun m c => aset m c.id (0 : Int)) []
    match condensePass cmap eclass g.edges components compAdj0 indeg0 with
    | none => none
    | some (cs, compAdj, indeg) =>
      let q0 := (indeg.filter (fun p => p.2 = 0)).map Prod.fst
      match kahnLoop (fun c => (alookup compAdj c).getD []) 0
          (components.length + 1) indeg q0 0 [] with
      | none => none
      | some order => some ⟨cs, cmap, order⟩

/-! Condensation: component-map lookup, the edge-pass invariant, and the
component-level Kahn run. -/

theorem foldl_aset_const {κ ν : Type} [DecidableEq κ] (c : ν) :
    ∀ (ns : List κ) (m : List (κ × ν)) (x : κ),
      alookup (ns.foldl (fun m2 n => aset m2 n c) m) x =
        if x ∈ ns then some c else alookup m x := by
  intro ns
  induction ns with
  | nil => intro m x; simp
  | cons n ns ih =>
    intro m x
    show alookup (ns.foldl (fun m2 n => aset m2 n c) (aset m n c)) x = _
    rw [ih]
    by_cases hx : x ∈ ns
    · rw [if_pos hx, if_pos (List.mem_cons_of_mem _ hx)]
    · rw [if_neg hx]
      by_cases hxn : x = n
      · subst hxn
        rw [if_pos (List.mem_cons_self _ _)]
        rw [alookup_aset_self]
      · rw [if_neg (by intro h; rcases List.mem_cons.mp h with h2 | h2 <;> [exact hxn h2; exact hx h2])]
        rw [alookup_aset_ne _ _ _ _ (fun h => hxn h.symm)]

theorem buildComponentMap_fresh :
    ∀ (sccs : List SCC) (m : List (NodeId × Nat)) (x : NodeId),
      x ∉ (sccs.map SCC.nodes).flatten →
      alookup (sccs.foldl
        (fun m scc => scc.nodes.foldl (fun m2 n => aset m2 n scc.id) m) m) x =
        alookup m x := by
  intro sccs
  induction sccs with
  | nil => intro m x _; rfl
  | cons scc sccs ih =>
    intro m x hx
    have hx1 : x ∉ scc.nodes := by
      intro h
      exact hx (by
        simp only [List.map_cons, List.flatten_cons, List.mem_append]
        exact Or.inl h)
    have hx2 : x ∉ (sccs.map SCC.nodes).flatten := by
      intro h
      exact hx (by
        simp only [List.map_cons, List.flatten_cons, List.mem_append]
        exact Or.inr h)
    show alookup (sccs.foldl _ (scc.nodes.foldl (fun m2 n => aset m2 n scc.id) m)) x = _
    rw [ih _ x hx2, foldl_aset_const, if_neg hx1]

theorem buildComponentMap_block :
    ∀ (sccs : List SCC) (m : List (NodeId × Nat)) (x : NodeId)
      (j : Nat) (hj : j < sccs.length), x ∈ (sccs.get ⟨j, hj⟩).nodes →
      (∀ j2 (hj2 : j2 < sccs.length), x ∈ (sccs.get ⟨j2, hj2⟩).nodes → j2 = j) →
      alookup (sccs.foldl
        (fun m scc => scc.nodes.foldl (fun m2 n => aset m2 n scc.id) m) m) x =
        some (sccs.get ⟨j, hj⟩).id := by
  intro sccs
  induction sccs with
  | nil => intro m x j hj; simp at hj
  | cons scc sccs ih =>
    intro m x j hj hx huniq
    cases j with
    | zero =>
      have hx0 : x ∈ scc.nodes := hx
      have hxrest : x ∉ (sccs.map SCC.nodes).flatten := by
        intro h
        obtain ⟨ns, hns, hxns⟩ := List.mem_flatten.mp h
        obtain ⟨blk, hblk, hbeq⟩ := List.mem_map.mp hns
        obtain ⟨⟨j2, hj2⟩, hget⟩ := List.mem_iff_get.mp hblk
        have hxblk : x ∈ (sccs.get ⟨j2, hj2⟩).nodes := by
          rw [hget, hbeq]
          exact hxns
        have := huniq (j2 + 1) (by simpa using Nat.succ_lt_succ hj2) hxblk
        cases this
      show alookup (sccs.foldl _ (scc.nodes.foldl (fun m2 n => aset m2 n scc.id) m)) x = _
      rw [buildComponentMap_fresh sccs _ x hxrest, foldl_aset_const, if_pos hx0]
      rfl
    | succ j' =>
      have hj' : j' < sccs.length := by simpa using hj
      have hx' : x ∈ (sccs.get ⟨j', hj'⟩).nodes := hx
      show alookup (sccs.foldl _ (scc.nodes.foldl (fun m2 n => aset m2 n scc.id) m)) x = _
      exact ih _ x j' hj' hx'
        (fun j2 hj2 hxb =>
          Nat.succ_injective (huniq (j2 + 1) (by simpa using Nat.succ_lt_succ hj2) hxb))

theorem flatten_pos_unique {γ : Type} :
    ∀ (ls : List (List γ)), (ls.flatten).Nodup →
      ∀ (j j2 : Nat) (hj : j < ls.length) (hj2 : j2 < ls.length) (x : γ),
        x ∈ ls.get ⟨j, hj⟩ → x ∈ ls.get ⟨j2, hj2⟩ → j = j2 := by
  intro ls
  induction ls with
  | nil => intro _ j j2 hj; simp at hj
  | cons l ls ih =>
    intro hnd j j2 hj hj2 x hx hx2
    rw [List.flatten_cons] at hnd
    have hdisj := List.disjoint_of_nodup_append hnd
    have hndl := (List.nodup_append.mp hnd).2.1
    cases j with
    | zero =>
      cases j2 with
      | zero => rfl
      | succ j2' =>
        exfalso
        have hj2' : j2' < ls.length := by simpa using hj2
        have hxf : x ∈ ls.flatten :=
          List.mem_flatten.mpr ⟨ls.get ⟨j2', hj2'⟩, List.get_mem _ _ _, hx2⟩
        exact hdisj hx hxf
    | succ j' =>
      cases j2 with
      | zero =>
        exfalso
        have hj' : j' < ls.length := by simpa using hj
        have hxf : x ∈ ls.flatten :=
          List.mem_flatten.mpr ⟨ls.get ⟨j', hj'⟩, List.get_mem _ _ _, hx⟩
        exact hdisj hx2 hxf
      | succ j2' =>
        have hj' : j' < ls.length := by simpa using hj
        have hj2' : j2' < ls.length := by simpa using hj2
        have := ih hndl j' j2' hj' hj2' x hx hx2
        omega

theorem countP_update_one {α : Type} (p q : α → Bool) (a : α) :
    ∀ l : List α, l.Nodup → a ∈ l → (∀ x ∈ l, x ≠ a → p x = q x) →
      p a = false → q a = true → l.countP q = l.countP p + 1 := by
  intro l
  induction l with
  | nil => intro _ ha; cases ha
  | cons b l ih =>
    intro hnd ha hagree hpa hqa
    have hndl : l.Nodup := hnd.of_cons
    by_cases hba : b = a
    · subst hba
      have hbl : b ∉ l := (List.nodup_cons.mp hnd).1
      have hcong : l.countP p = l.countP q := by
        apply List.countP_congr
        intro x hx
        rw [hagree x (List.mem_cons_of_mem _ hx) (fun h => hbl (h ▸ hx))]
      rw [List.countP_cons, List.countP_cons, hpa, hqa, hcong]
      simp
    · have hal : a ∈ l := by
        rcases List.mem_cons.mp ha with h | h
        · exact absurd h.symm hba
        · exact h
      have hpb : p b = q b := hagree b (List.mem_cons_self _ _) hba
      rw [List.countP_cons, List.countP_cons, ← hpb,
        ih hndl hal (fun x hx hxa => hagree x (List.mem_cons_of_mem _ hx) hxa) hpa hqa]
      omega

theorem pushBucket_ids {β : Type} (cs : List (CondensationComponent β))
    (cid : Nat) (f : CondensationComponent β → CondensationComponent β)
    (hf : ∀ c, (f c).id = c.id) :
    (pushBucket cs cid f).map (fun c => c.id) = cs.map (fun c => c.id) := by
  unfold pushBucket
  rw [List.map_map]
  apply List.map_congr_left
  intro c _
  show (if c.id = cid then f c else c).id = c.id
  split
  · exact hf c
  · rfl

theorem alookup_of_mem_nodup {κ ν : Type} [DecidableEq κ] :
    ∀ (m : List (κ × ν)), (m.map Prod.fst).Nodup →
      ∀ p ∈ m, alookup m p.1 = some p.2 := by
  intro m
  induction m with
  | nil => intro _ p hp; cases hp
  | cons q m ih =>
    intro hnd p hp
    obtain ⟨a, b⟩ := q
    rw [List.map_cons] at hnd
    have hq1 : a ∉ m.map Prod.fst := (List.nodup_cons.mp hnd).1
    have hndm : (m.map Prod.fst).Nodup := (List.nodup_cons.mp hnd).2
    rcases List.mem_cons.mp hp with h1 | h2
    · subst h1
      show (if a = a then some b else alookup m a) = some b
      rw [if_pos rfl]
    · show (if a = p.1 then some b else alookup m p.1) = some p.2
      rw [if_neg, ih hndm p h2]
      intro hq
      apply hq1
      rw [hq]
      exact List.mem_map_of_mem Prod.fst h2

/-- Invariant of the condensation edge pass after processing `done`:
component ids are stable, the adjacency map is total on ids with
deduplicated in-id values recording exactly the processed inter-component
edges, and each in-degree equals the number of distinct predecessors. -/
structure CPInv {β : Type} (cmap : List (NodeId × Nat)) (ids : List Nat)
    (done : List (EdgeId × Edge β)) (cs : List (CondensationComponent β))
    (compAdj : List (Nat × List Nat)) (indeg : List (Nat × Int)) : Prop where
  csIds : cs.map (fun c => c.id) = ids
  adjKeys : ∀ c, (alookup compAdj c).isSome = true ↔ c ∈ ids
  adjNodup : ∀ c s, alookup compAdj c = some s → s.Nodup
  adjSub : ∀ c s, alookup compAdj c = some s → ∀ x ∈ s, x ∈ ids
  adjMem : ∀ cf ct, (∃ s, alookup compAdj cf = some s ∧ ct ∈ s) ↔
    (∃ p ∈ done, alookup cmap (Edge.fromId p.2) = some cf ∧
      alookup cmap (Edge.toId p.2) = some ct ∧ cf ≠ ct)
  degKeys : indeg.map Prod.fst = ids
  degVal : ∀ c ∈ ids, alookup indeg c =
    some ((predCnt (fun j => (alookup compAdj j).getD []) ids c : Int))

/-- Running the condensation edge pass from an invariant state: it never
throws when every edge endpoint has a component, and it re-establishes the
invariant with the processed edges appended. -/
theorem condensePass_run {β : Type} (cmap : List (NodeId × Nat)) (ids : List Nat)
    (hidsnd : ids.Nodup) (eclass : List (EdgeId × EdgeType)) :
    ∀ (es done : List (EdgeId × Edge β)) cs compAdj indeg,
    CPInv cmap ids done cs compAdj indeg →
    (∀ p ∈ es, ∃ cf ct, alookup cmap (Edge.fromId p.2) = some cf ∧
      alookup cmap (Edge.toId p.2) = some ct ∧ cf ∈ ids ∧ ct ∈ ids) →
    ∃ cs2 ca2 id2,
      condensePass cmap eclass es cs compAdj indeg = some (cs2, ca2, id2) ∧
      CPInv cmap ids (done ++ es) cs2 ca2 id2 := by
  intro es
  induction es with
  | nil =>
    intro done cs ca idg hI _
    exact ⟨cs, ca, idg, rfl, by simpa using hI⟩
  | cons pe rest ih =>
    intro done cs ca idg hI hcond
    obtain ⟨eid, e⟩ := pe
    obtain ⟨cf, ct, hcf, hct, hcfi, hcti⟩ :=
      hcond (eid, e) (List.mem_cons_self _ _)
    have hf1 : (cs.find? (fun c => decide (c.id = cf))).isSome = true := by
      rw [List.find?_isSome]
      have : cf ∈ cs.map (fun c => c.id) := by rw [hI.csIds]; exact hcfi
      obtain ⟨c, hc, hceq⟩ := List.mem_map.mp this
      exact ⟨c, hc, by rw [decide_eq_true_eq]; exact hceq⟩
    have hf2 : (cs.find? (fun c => decide (c.id = ct))).isSome = true := by
      rw [List.find?_isSome]
      have : ct ∈ cs.map (fun c => c.id) := by rw [hI.csIds]; exact hcti
      obtain ⟨c, hc, hceq⟩ := List.mem_map.mp this
      exact ⟨c, hc, by rw [decide_eq_true_eq]; exact hceq⟩
    have happ : done ++ (eid, e) :: rest = (done ++ [(eid, e)]) ++ rest := by
      rw [List.append_assoc]
      rfl
    by_cases hcc : cf = ct
    · -- internal edge: only the buckets change
      subst hcc
      have hstep : condensePass cmap eclass ((eid, e) :: rest) cs ca idg =
          condensePass cmap eclass rest
            (pushBucket cs cf (fun c =>
              { c with
                internalEdges := c.internalEdges ++ [e],
                feedbackEdges :=
                  if alookup eclass e.id = some EdgeType.back then
                    c.feedbackEdges ++ [e]
                  else c.feedbackEdges }))
            ca idg := by
        rw [condensePass, hcf, hct]
        dsimp only
        rw [hf1]
        rw [if_pos (show (true && true) = true from rfl)]
        rw [if_pos rfl]
      have hI2 : CPInv cmap ids (done ++ [(eid, e)])
          (pushBucket cs cf (fun c =>
            { c with
              internalEdges := c.internalEdges ++ [e],
              feedbackEdges :=
                if alookup eclass e.id = some EdgeType.back then
                  c.feedbackEdges ++ [e]
                else c.feedbackEdges }))
          ca idg := by
        refine ⟨?_, hI.adjKeys, hI.adjNodup, hI.adjSub, ?_, hI.degKeys, hI.degVal⟩
        · refine (pushBucket_ids _ _ _ ?_).trans hI.csIds
          intro c
          rfl
        · intro cf2 ct2
          rw [hI.adjMem cf2 ct2]
          constructor
          · intro ⟨p, hp, h1, h2, h3⟩
            exact ⟨p, List.mem_append_left _ hp, h1, h2, h3⟩
          · intro ⟨p, hp, h1, h2, h3⟩
            rcases List.mem_append.mp hp with h | h
            · exact ⟨p, h, h1, h2, h3⟩
            · exfalso
              simp only [List.mem_singleton] at h
              subst h
              rw [hcf] at h1
              rw [hct] at h2
              cases h1
              cases h2
              exact h3 rfl
      obtain ⟨cs2, ca2, id2, hrun2, hI3⟩ := ih (done ++ [(eid, e)]) _ ca idg hI2
        (fun p hp => hcond p (List.mem_cons_of_mem _ hp))
      refine ⟨cs2, ca2, id2, ?_, ?_⟩
      · rw [hstep]
        exact hrun2
      · rw [happ]
        exact hI3
    · -- inter-component edge
      obtain ⟨s, hs⟩ : ∃ s, alookup ca cf = some s := by
        have := (hI.adjKeys cf).mpr hcfi
        cases h : alookup ca cf with
        | none => rw [h] at this; simp at this
        | some s => exact ⟨s, rfl⟩
      set cs2 := pushBucket
        (pushBucket cs cf (fun c => { c with exitEdges := c.exitEdges ++ [e] }))
        ct (fun c => { c with entryEdges := c.entryEdges ++ [e] }) with hcs2
      have hcs2ids : cs2.map (fun c => c.id) = ids := by
        rw [hcs2]
        refine (pushBucket_ids _ _ _ ?_).trans
          ((pushBucket_ids _ _ _ ?_).trans hI.csIds)
        · intro c
          rfl
        · intro c
          rfl
      by_cases hcts : ct ∈ s
      · have hstep : condensePass cmap eclass ((eid, e) :: rest) cs ca idg =
            condensePass cmap eclass rest cs2 ca idg := by
          rw [condensePass, hcf, hct]
          dsimp only
          rw [hf1, hf2]
          rw [if_pos (show (true && true) = true from rfl), if_neg hcc]
          rw [hs]
          dsimp only
          rw [if_pos hcts]
        have hI2 : CPInv cmap ids (done ++ [(eid, e)]) cs2 ca idg := by
          refine ⟨hcs2ids, hI.adjKeys, hI.adjNodup, hI.adjSub, ?_, hI.degKeys,
            hI.degVal⟩
          intro cf2 ct2
          rw [hI.adjMem cf2 ct2]
          constructor
          · intro ⟨p, hp, h1, h2, h3⟩
            exact ⟨p, List.mem_append_left _ hp, h1, h2, h3⟩
          · intro ⟨p, hp, h1, h2, h3⟩
            rcases List.mem_append.mp hp with h | h
            · exact ⟨p, h, h1, h2, h3⟩
            · simp only [List.mem_singleton] at h
              subst h
              rw [hcf] at h1
              rw [hct] at h2
              have h1x : cf = cf2 := Option.some.inj h1
              have h2x : ct = ct2 := Option.some.inj h2
              subst h1x
              subst h2x
              exact (hI.adjMem cf ct).mp ⟨s, hs, hcts⟩
        obtain ⟨cs3, ca3, id3, hrun2, hI3⟩ := ih (done ++ [(eid, e)]) cs2 ca idg
          hI2 (fun p hp => hcond p (List.mem_cons_of_mem _ hp))
        refine ⟨cs3, ca3, id3, ?_, ?_⟩
        · rw [hstep]
          exact hrun2
        · rw [happ]
          exact hI3
      · -- a new inter-component pair: record and bump the in-degree
        have hstep : condensePass cmap eclass ((eid, e) :: rest) cs ca idg =
            condensePass cmap eclass rest cs2 (aset ca cf (sadd s ct))
              (aset idg ct ((alookup idg ct).getD 0 + 1)) := by
          rw [condensePass, hcf, hct]
          dsimp only
          rw [hf1, hf2]
          rw [if_pos (show (true && true) = true from rfl), if_neg hcc]
          rw [hs]
          dsimp only
          rw [if_neg hcts]
        have hsadd : sadd s ct = s ++ [ct] := by
          unfold sadd
          rw [if_neg hcts]
        have hI2 : CPInv cmap ids (done ++ [(eid, e)]) cs2
            (aset ca cf (sadd s ct))
            (aset idg ct ((alookup idg ct).getD 0 + 1)) := by
          refine ⟨hcs2ids, ?_, ?_, ?_, ?_, ?_, ?_⟩
          · intro c
            by_cases hc : c = cf
            · subst hc
              rw [alookup_aset_self]
              simpa using hcfi
            · rw [alookup_aset_ne _ _ _ _ (fun h => hc h.symm)]
              exact hI.adjKeys c
          · intro c s2 hs2
            by_cases hc : c = cf
            · subst hc
              rw [alookup_aset_self] at hs2
              cases hs2
              rw [hsadd]
              refine (hI.adjNodup c s hs).append (by simp) ?_
              intro a ha hb
              rw [List.mem_singleton] at hb
              subst hb
              exact hcts ha
            · rw [alookup_aset_ne _ _ _ _ (fun h => hc h.symm)] at hs2
              exact hI.adjNodup c s2 hs2
          · intro c s2 hs2 x hx
            by_cases hc : c = cf
            · subst hc
              rw [alookup_aset_self] at hs2
              cases hs2
              rcases (mem_sadd s ct x).mp hx with rfl | h2
              · exact hcti
              · exact hI.adjSub c s hs x h2
            · rw [alookup_aset_ne _ _ _ _ (fun h => hc h.symm)] at hs2
              exact hI.adjSub c s2 hs2 x hx
          · intro cf2 ct2
            by_cases hc : cf2 = cf
            · subst hc
              constructor
              · intro ⟨s2, hs2, hmem⟩
                rw [alookup_aset_self] at hs2
                cases hs2
                rcases (mem_sadd s ct ct2).mp hmem with rfl | h2
                · exact ⟨(eid, e), List.mem_append_right _ (by simp), hcf, hct, hcc⟩
                · obtain ⟨p, hp, h1, h2', h3⟩ := (hI.adjMem cf2 ct2).mp ⟨s, hs, h2⟩
                  exact ⟨p, List.mem_append_left _ hp, h1, h2', h3⟩
              · intro ⟨p, hp, h1, h2, h3⟩
                refine ⟨sadd s ct, alookup_aset_self _ _ _, ?_⟩
                rcases List.mem_append.mp hp with h | h
                · have := (hI.adjMem cf2 ct2).mpr ⟨p, h, h1, h2, h3⟩
                  obtain ⟨s2, hs2, hmem⟩ := this
                  rw [hs] at hs2
                  cases hs2
                  exact (mem_sadd s ct ct2).mpr (Or.inr hmem)
                · simp only [List.mem_singleton] at h
                  subst h
                  rw [hct] at h2
                  have h2x : ct = ct2 := Option.some.inj h2
                  subst h2x
                  exact (mem_sadd s ct ct).mpr (Or.inl rfl)
            · constructor
              · intro ⟨s2, hs2, hmem⟩
                rw [alookup_aset_ne _ _ _ _ (fun h => hc h.symm)] at hs2
                obtain ⟨p, hp, h1, h2, h3⟩ := (hI.adjMem cf2 ct2).mp ⟨s2, hs2, hmem⟩
                exact ⟨p, List.mem_append_left _ hp, h1, h2, h3⟩
              · intro ⟨p, hp, h1, h2, h3⟩
                rcases List.mem_append.mp hp with h | h
                · obtain ⟨s2, hs2, hmem⟩ := (hI.adjMem cf2 ct2).mpr ⟨p, h, h1, h2, h3⟩
                  refine ⟨s2, ?_, hmem⟩
                  rw [alookup_aset_ne _ _ _ _ (fun h => hc h.symm)]
                  exact hs2
                · simp only [List.mem_singleton] at h
                  subst h
                  rw [hcf] at h1
                  cases h1
                  exact absurd rfl hc
          · rw [aset_keys_mem]
            · exact hI.degKeys
            · rw [alookup_isSome_iff, hI.degKeys]
              exact hcti
          · intro c hc
            by_cases hcct : c = ct
            · subst hcct
              rw [alookup_aset_self, hI.degVal c hc]
              have hcnt : predCnt (fun j => (alookup (aset ca cf (sadd s c)) j).getD [])
                  ids c = predCnt (fun j => (alookup ca j).getD []) ids c + 1 := by
                unfold predCnt
                refine countP_update_one _ _ cf ids hidsnd hcfi ?_ ?_ ?_
                · intro x _ hxcf
                  have h9 : alookup (aset ca cf (sadd s c)) x = alookup ca x :=
                    alookup_aset_ne _ _ _ _ (fun h => hxcf h.symm)
                  dsimp only
                  rw [h9]
                · dsimp only
                  rw [hs]
                  simpa using hcts
                · dsimp only
                  rw [alookup_aset_self]
                  rw [decide_eq_true_eq]
                  show c ∈ (sadd s c : List Nat)
                  exact (mem_sadd s c c).mpr (Or.inl rfl)
              rw [hcnt]
              show some ((((predCnt (fun j => (alookup ca j).getD []) ids c : Nat) : Int)) + 1) = _
              congr 1
            · rw [alookup_aset_ne _ _ _ _ (fun h => hcct h.symm), hI.degVal c hc]
              congr 2
              unfold predCnt
              apply List.countP_congr
              intro j _
              dsimp only
              by_cases hjcf : j = cf
              · subst hjcf
                rw [alookup_aset_self, hs]
                show (decide (c ∈ (s : List Nat)) = true) ↔ (decide (c ∈ sadd s ct) = true)
                rw [decide_eq_true_eq, decide_eq_true_eq, mem_sadd]
                constructor
                · intro h
                  exact Or.inr h
                · intro h
                  rcases h with h | h
                  · exact absurd h hcct
                  · exact h
              · rw [alookup_aset_ne _ _ _ _ (fun h => hjcf h.symm)]
        obtain ⟨cs3, ca3, id3, hrun2, hI3⟩ := ih (done ++ [(eid, e)]) cs2 _ _
          hI2 (fun p hp => hcond p (List.mem_cons_of_mem _ hp))
        refine ⟨cs3, ca3, id3, ?_, ?_⟩
        · rw [hstep]
          exact hrun2
        · rw [happ]
          exact hI3

theorem foldl_aset_keyconst {γ κ ν : Type} [DecidableEq κ] (key : γ → κ) (v : ν) :
    ∀ (l : List γ) (init : List (κ × ν)),
      (∀ c ∈ l, alookup init (key c) = none) → (l.map key).Nodup →
      l.foldl (fun m c => aset m (key c) v) init =
        init ++ l.map (fun c => (key c, v)) := by
  intro l
  induction l with
  | nil => intro init _ _; simp
  | cons c l ih =>
    intro init hfresh hnd
    rw [List.map_cons] at hnd
    have hc : alookup init (key c) = none := hfresh c (List.mem_cons_self _ _)
    have hset : aset init (key c) v = init ++ [(key c, v)] :=
      aset_new_eq_append _ _ _ hc
    show l.foldl (fun m c => aset m (key c) v) (aset init (key c) v) = _
    rw [hset, ih (init ++ [(key c, v)]) ?_ (List.nodup_cons.mp hnd).2]
    · rw [List.append_assoc]
      rfl
    · intro d hd
      rw [alookup_append_right _ _ _ (hfresh d (List.mem_cons_of_mem _ hd))]
      show (if key c = key d then some v else alookup ([] : List (κ × ν)) (key d)) = none
      rw [if_neg]
      · rfl
      · intro he
        exact (List.nodup_cons.mp hnd).1 (he ▸ List.mem_map_of_mem key hd)

/-- C2: for every graph built through the public API and any edge
classification, `buildCondensationGraph` succeeds, its topological order
contains the id of every component exactly once, and for every edge whose
endpoints map to different components the source component id appears
strictly before the target component id in that order. -/
theorem buildCondensationGraph_topo {α β : Type} (g : DirectedGraph α β)
    (hb : Built g) (eclass : List (EdgeId × EdgeType)) :
    ∃ cg, g.buildCondensationGraph eclass = some cg ∧
      (∀ c ∈ cg.components, cg.topologicalOrder.count c.id = 1) ∧
      (∀ p ∈ g.edges, ∀ cf ct,
        alookup cg.componentMap (Edge.fromId p.2) = some cf →
        alookup cg.componentMap (Edge.toId p.2) = some ct → cf ≠ ct →
        cg.topologicalOrder.indexOf cf < cg.topologicalOrder.indexOf ct) := by
  have hw := built_wf g hb
  obtain ⟨sccs, hsccs, hcov, hsub, hnd, hids, hedges, hacy⟩ := findSCCs_run g hw
  have hrange : sccs.map SCC.id = List.range sccs.length := by
    apply List.ext_get
    · simp
    · intro i h1 h2
      rw [List.get_map, List.get_range]
      exact hids i (by simpa using h1)
  have hidsnd : (sccs.map SCC.id).Nodup := by
    rw [hrange]
    exact List.nodup_range _
  have hmemids : ∀ j, j ∈ sccs.map SCC.id ↔ j < sccs.length := by
    intro j
    rw [hrange, List.mem_range]
  have huniq : ∀ (j j2 : Nat) (hj : j < sccs.length) (hj2 : j2 < sccs.length)
      (x : NodeId), x ∈ (sccs.get ⟨j, hj⟩).nodes →
      x ∈ (sccs.get ⟨j2, hj2⟩).nodes → j = j2 := by
    intro j j2 hj hj2 x h1 h2
    refine flatten_pos_unique (sccs.map SCC.nodes) hnd j j2 (by simpa using hj)
      (by simpa using hj2) x ?_ ?_
    · rw [List.get_map]
      exact h1
    · rw [List.get_map]
      exact h2
  have hcmapx : ∀ x ∈ g.nodeKeys, ∃ j, ∃ hj : j < sccs.length,
      alookup (buildComponentMap sccs) x = some j ∧
      x ∈ (sccs.get ⟨j, hj⟩).nodes := by
    intro x hx
    obtain ⟨ns, hns, hxns⟩ := List.mem_flatten.mp (hcov x hx)
    obtain ⟨blk, hblk, hbeq⟩ := List.mem_map.mp hns
    obtain ⟨⟨j, hj⟩, hget⟩ := List.mem_iff_get.mp hblk
    have hxj : x ∈ (sccs.get ⟨j, hj⟩).nodes := by
      rw [hget, hbeq]
      exact hxns
    refine ⟨j, hj, ?_, hxj⟩
    have hbm := buildComponentMap_block sccs [] x j hj hxj
      (fun j2 hj2 hx2 => huniq j2 j hj2 hj x hx2 hxj)
    show alookup (sccs.foldl
      (fun m scc => scc.nodes.foldl (fun m2 n => aset m2 n scc.id) m) []) x = some j
    rw [hbm, hids j hj]
  set cmap := buildComponentMap sccs with hcmapd
  set comps := sccs.map (fun scc =>
    ({ id := scc.id, members := scc.nodes, isLoop := !scc.isAcyclic,
       entryEdges := [], exitEdges := [], internalEdges := [],
       feedbackEdges := [] } : CondensationComponent β)) with hcompsd
  have hcompids : comps.map (fun c => c.id) = sccs.map SCC.id := by
    rw [hcompsd, List.map_map]
    rfl
  have hcompnd : (comps.map (fun c => c.id)).Nodup := by
    rw [hcompids]
    exact hidsnd
  have hca0e : comps.foldl (fun m c => aset m c.id ([] : List Nat)) [] =
      (comps.map (fun c => c.id)).map (fun k => (k, ([] : List Nat))) := by
    rw [foldl_aset_keyconst (fun c => c.id) ([] : List Nat) comps []
      (fun c _ => rfl) hcompnd]
    rw [List.nil_append]
    conv_rhs => rw [List.map_map]
    rfl
  have hid0e : comps.foldl (fun m c => aset m c.id (0 : Int)) [] =
      (comps.map (fun c => c.id)).map (fun k => (k, (0 : Int))) := by
    rw [foldl_aset_keyconst (fun c => c.id) (0 : Int) comps []
      (fun c _ => rfl) hcompnd]
    rw [List.nil_append]
    conv_rhs => rw [List.map_map]
    rfl
  have hca0v : ∀ c, alookup (comps.foldl (fun m c => aset m c.id ([] : List Nat)) []) c =
      if c ∈ sccs.map SCC.id then some ([] : List Nat) else none := by
    intro c
    rw [hca0e, hcompids, alookup_map_pairs]
  have hid0v : ∀ c, alookup (comps.foldl (fun m c => aset m c.id (0 : Int)) []) c =
      if c ∈ sccs.map SCC.id then some (0 : Int) else none := by
    intro c
    rw [hid0e, hcompids, alookup_map_pairs]
  have hI0 : CPInv cmap (sccs.map SCC.id) ([] : List (EdgeId × Edge β)) comps
      (comps.foldl (fun m c => aset m c.id ([] : List Nat)) [])
      (comps.foldl (fun m c => aset m c.id (0 : Int)) []) := by
    refine ⟨hcompids, ?_, ?_, ?_, ?_, ?_, ?_⟩
    · intro c
      rw [hca0v]
      by_cases hc : c ∈ sccs.map SCC.id
      · rw [if_pos hc]
        simp [hc]
      · rw [if_neg hc]
        simp [hc]
    · intro c s hs
      rw [hca0v] at hs
      split at hs
      · cases hs
        simp
      · cases hs
    · intro c s hs x hx
      rw [hca0v] at hs
      split at hs
      · cases hs
        cases hx
      · cases hs
    · intro cf ct
      constructor
      · intro ⟨s, hs, hmem⟩
        rw [hca0v] at hs
        split at hs
        · cases hs
          cases hmem
        · cases hs
      · intro ⟨p, hp, _⟩
        cases hp
    · rw [hid0e, hcompids, List.map_map]
      show (sccs.map SCC.id).map (fun k => k) = sccs.map SCC.id
      simp
    · intro c hc
      have h0 : predCnt
          (fun j => (alookup (comps.foldl (fun m c => aset m c.id ([] : List Nat)) []) j).getD [])
          (sccs.map SCC.id) c = 0 := by
        unfold predCnt
        rw [List.countP_eq_zero]
        intro j hj
        rw [decide_eq_true_eq]
        dsimp only
        rw [hca0v j, if_pos hj]
        intro hmem
        cases hmem
      rw [h0, hid0v, if_pos hc]
      rfl
  have hside : ∀ p ∈ g.edges, ∃ cf ct,
      alookup cmap (Edge.fromId p.2) = some cf ∧
      alookup cmap (Edge.toId p.2) = some ct ∧
      cf ∈ sccs.map SCC.id ∧ ct ∈ sccs.map SCC.id := by
    intro p hp
    obtain ⟨_, hfk, htk⟩ := hw.edgesOk p hp
    obtain ⟨jf, hjf, hlf, _⟩ := hcmapx p.2.fromId hfk
    obtain ⟨jt, hjt, hlt, _⟩ := hcmapx p.2.toId htk
    exact ⟨jf, jt, hlf, hlt, (hmemids jf).mpr hjf, (hmemids jt).mpr hjt⟩
  obtain ⟨cs1, ca1, idg1, hcp, hI1⟩ := condensePass_run cmap (sccs.map SCC.id)
    hidsnd eclass g.edges [] comps
    (comps.foldl (fun m c => aset m c.id ([] : List Nat)) [])
    (comps.foldl (fun m c => aset m c.id (0 : Int)) []) hI0 hside
  rw [List.nil_append] at hI1
  have hbuild1 : DirectedGraph.buildCondensationGraph g eclass =
      (match kahnLoop (fun c => (alookup ca1 c).getD []) 0 (comps.length + 1) idg1
          ((idg1.filter (fun p => p.2 = 0)).map Prod.fst) 0 [] with
       | none => none
       | some order => some ⟨cs1, cmap, order⟩) := by
    unfold DirectedGraph.buildCondensationGraph
    rw [hsccs]
    dsimp only
    rw [hcp]
  have hdk1 : (idg1.map Prod.fst).Nodup := by
    rw [hI1.degKeys]
    exact hidsnd
  have hval0 : ∀ k ∈ (idg1.filter (fun p => p.2 = 0)).map Prod.fst,
      alookup idg1 k = some 0 := by
    intro k hk
    obtain ⟨p, hp, hpe⟩ := List.mem_map.mp hk
    have hpm : p ∈ idg1 := List.mem_of_mem_filter hp
    have hp0 : p.2 = 0 := by
      have := List.of_mem_filter hp
      simpa using this
    have h1 := alookup_of_mem_nodup idg1 hdk1 p hpm
    rw [hpe] at h1
    rw [h1, hp0]
  have hq0sub : ∀ x ∈ (idg1.filter (fun p => p.2 = 0)).map Prod.fst,
      x ∈ sccs.map SCC.id := by
    intro x hx
    obtain ⟨p, hp, hpe⟩ := List.mem_map.mp hx
    have hpm : p ∈ idg1 := List.mem_of_mem_filter hp
    rw [← hI1.degKeys, ← hpe]
    exact List.mem_map_of_mem Prod.fst hpm
  have hq0nd : ((idg1.filter (fun p => p.2 = 0)).map Prod.fst).Nodup := by
    have hsubl : List.Sublist ((idg1.filter (fun p => p.2 = 0)).map Prod.fst)
        (idg1.map Prod.fst) := (List.filter_sublist _).map _
    exact hdk1.sublist hsubl
  have hIK : KInv (fun c => (alookup ca1 c).getD []) (sccs.map SCC.id) idg1
      ((idg1.filter (fun p => p.2 = 0)).map Prod.fst) 0 := by
    refine ⟨hq0sub, hq0nd, Nat.zero_le _, ?_, ?_, ?_, ?_⟩
    · intro k hk
      have h1 := hI1.degVal k hk
      have h2 : procCnt (fun c => (alookup ca1 c).getD [])
          ((idg1.filter (fun p => p.2 = 0)).map Prod.fst) 0 k = 0 := rfl
      rw [h1, h2]
      congr 1
    · intro k hk hknq
      rcases Nat.eq_zero_or_pos
          (predCnt (fun c => (alookup ca1 c).getD []) (sccs.map SCC.id) k) with h0 | hpos
      · exfalso
        have hpk := hI1.degVal k hk
        rw [h0] at hpk
        have hkm : (k, (0 : Int)) ∈ idg1 := alookup_mem _ _ _ (by rw [hpk]; rfl)
        have hkf : (k, (0 : Int)) ∈ idg1.filter (fun p => p.2 = 0) :=
          List.mem_filter.mpr ⟨hkm, by simp⟩
        exact hknq (List.mem_map_of_mem Prod.fst hkf)
      · have h2 : procCnt (fun c => (alookup ca1 c).getD [])
            ((idg1.filter (fun p => p.2 = 0)).map Prod.fst) 0 k = 0 := rfl
        rw [h2]
        exact_mod_cast hpos
    · intro k hk dd hdd
      rw [hval0 k hk] at hdd
      cases hdd
      omega
    · intro k hk j hj hkj
      exfalso
      have h1 := hval0 k hk
      have h2 := hI1.degVal k (hq0sub k hk)
      rw [h1] at h2
      have h3 : ((predCnt (fun c => (alookup ca1 c).getD [])
          (sccs.map SCC.id) k : Nat) : Int) = 0 := (Option.some.inj h2).symm
      have h4 : predCnt (fun c => (alookup ca1 c).getD [])
          (sccs.map SCC.id) k = 0 := by exact_mod_cast h3
      have h5 : 0 < predCnt (fun c => (alookup ca1 c).getD [])
          (sccs.map SCC.id) k := by
        unfold predCnt
        rw [List.countP_pos]
        exact ⟨j, hj, by simpa using hkj⟩
      omega
  have hadjC : ∀ k ∈ sccs.map SCC.id, ((fun c => (alookup ca1 c).getD []) k).Nodup ∧
      ∀ w ∈ (fun c => (alookup ca1 c).getD []) k, w ∈ sccs.map SCC.id := by
    intro k hk
    obtain ⟨s, hs⟩ : ∃ s, alookup ca1 k = some s := by
      have := (hI1.adjKeys k).mpr hk
      cases h : alookup ca1 k with
      | none => rw [h] at this; simp at this
      | some s => exact ⟨s, rfl⟩
    constructor
    · show ((alookup ca1 k).getD []).Nodup
      rw [hs]
      exact hI1.adjNodup k s hs
    · intro w hw2
      show w ∈ sccs.map SCC.id
      dsimp only at hw2
      rw [hs] at hw2
      exact hI1.adjSub k s hs w hw2
  have hlen : (sccs.map SCC.id).length + 1 ≤ (comps.length + 1) + 0 := by
    rw [hcompsd]
    simp
  obtain ⟨qf, inDegf, hkrun, hIf⟩ := kahnLoop_run (fun c => (alookup ca1 c).getD [])
    0 (sccs.map SCC.id) hidsnd hadjC (comps.length + 1) idg1
    ((idg1.filter (fun p => p.2 = 0)).map Prod.fst) 0 hIK hlen
  rw [List.take_zero] at hkrun
  have hbuild2 : DirectedGraph.buildCondensationGraph g eclass =
      some ⟨cs1, cmap, qf⟩ := by
    rw [hbuild1, hkrun]
  have hacyC : AcyclicF (fun c => (alookup ca1 c).getD []) := by
    apply acyclicF_of_measure (fun c => c)
    intro a b hba
    have hsome : ∃ s, alookup ca1 a = some s ∧ b ∈ s := by
      cases h : alookup ca1 a with
      | none =>
        rw [h] at hba
        cases hba
      | some s =>
        refine ⟨s, rfl, ?_⟩
        rw [h] at hba
        exact hba
    obtain ⟨p, hp, h1, h2, hne⟩ := (hI1.adjMem a b).mp hsome
    obtain ⟨hadj_e, hfk, htk⟩ := hw.edgesOk p hp
    obtain ⟨jf, hjf, hlf, hmf⟩ := hcmapx p.2.fromId hfk
    obtain ⟨jt, hjt, hlt, hmt⟩ := hcmapx p.2.toId htk
    rw [hlf] at h1
    rw [hlt] at h2
    have haj : jf = a := Option.some.inj h1
    have hbj : jt = b := Option.some.inj h2
    subst haj
    subst hbj
    obtain ⟨j, hj, hjle, hjmem⟩ := hedges jf hjf p.2.fromId hmf p.2.toId hadj_e
    have hjb : j = jt := huniq j jt hj hjt p.2.toId hjmem hmt
    show jt < jf
    have h6 : jt ≠ jf := fun h => hne h.symm
    omega
  have hcov2 : ∀ k ∈ sccs.map SCC.id, k ∈ qf :=
    kahn_acyclic_covers (fun c => (alookup ca1 c).getD []) (sccs.map SCC.id)
      qf inDegf hidsnd hadjC hIf hacyC
  refine ⟨⟨cs1, cmap, qf⟩, hbuild2, ?_, ?_⟩
  · intro c hc
    have hcid : c.id ∈ sccs.map SCC.id := by
      rw [← hI1.csIds]
      exact List.mem_map_of_mem _ hc
    exact List.count_eq_one_of_mem hIf.qNodup (hcov2 c.id hcid)
  · intro p hp cf ct h1 h2 hne
    have hmem : ct ∈ (fun c => (alookup ca1 c).getD []) cf := by
      obtain ⟨s, hs, hm⟩ := (hI1.adjMem cf ct).mpr ⟨p, hp, h1, h2, hne⟩
      show ct ∈ (alookup ca1 cf).getD []
      rw [hs]
      exact hm
    have hcfids : cf ∈ sccs.map SCC.id := by
      obtain ⟨_, hfk, _⟩ := hw.edgesOk p hp
      obtain ⟨jf, hjf, hlf, _⟩ := hcmapx p.2.fromId hfk
      rw [hlf] at h1
      rw [← Option.some.inj h1]
      exact (hmemids jf).mpr hjf
    have hctqf : ct ∈ qf := by
      refine hcov2 ct ?_
      exact (hadjC cf hcfids).2 ct hmem
    obtain ⟨_, hlt2, _⟩ := hIf.ordered ct hctqf cf hcfids hmem
    exact hlt2

/-- Witness for C2 at a concrete two-node one-edge graph built through the
public API, with an empty edge-classification map. -/
theorem buildCondensationGraph_topo_witness :
    Built singleGraphAB ∧
    ∃ cg, singleGraphAB.buildCondensationGraph [] = some cg ∧
      (∀ c ∈ cg.components, cg.topologicalOrder.count c.id = 1) ∧
      (∀ p ∈ singleGraphAB.edges, ∀ cf ct,
        alookup cg.componentMap (Edge.fromId p.2) = some cf →
        alookup cg.componentMap (Edge.toId p.2) = some ct → cf ≠ ct →
        cg.topologicalOrder.indexOf cf < cg.topologicalOrder.indexOf ct) :=
  have hb : Built singleGraphAB :=
    Built.edge ['a'] ['b'] none
      (Built.node ['b'] none
        (Built.node ['a'] none
          (Built.base defaultGraphOptions)))
  ⟨hb, buildCondensationGraph_topo singleGraphAB hb []⟩
